import Mathlib

/-!
# Verification of the python-flowcharter CFG pipeline

A shallow embedding of `src/graphviz-flowchart-generator.py` (with the
grid-layout variant `src/ascii-flowchart-generator.py` sharing the same
builder logic): the AST subset consumed by `FlowchartMakingVisitor`, the
expression formatter (`parseChunk` and friends), the CFG builder
(`visit_Assign`, `visit_If`, `visit_While`, ...), the placeholder
simplifier (`deleteExtraneousNodes`) and the graphviz emission walk
(`generateGraph`).

Python's mutable object graph is embedded as an arena: a list of nodes
addressed by position; object references become arena indices.  Python
exceptions become `Except` errors; the unbounded recursion of the
simplifier and of the emission walk becomes explicit fuel, where `none`
means the call does not complete normally (Python: `RecursionError` or
another uncaught exception).
-/

namespace Flowchart

/-! ## The AST subset (interface to the external parser)

Mirrors the `ast` nodes the visitor consumes.  Binary, boolean and
comparison operators are exactly the keys of
`FlowchartMakingVisitor.operators`.  The `unsupported` constructors stand
for any other `ast` node kind (e.g. `ast.Lambda`, `ast.FunctionDef`) and
carry the source position (`lineno`, `col_offset`) that the Python
exceptions interpolate into their messages. -/

inductive BinOp where
  | mult | add | sub | div
deriving DecidableEq, Repr

inductive BoolOp where
  | bor | band
deriving DecidableEq, Repr

inductive CmpOp where
  | gt | lt | eq | neq
deriving DecidableEq, Repr

inductive Expr where
  | binOp (left : Expr) (op : BinOp) (right : Expr)
  | num (n : Int)
  | name (id : String)
  | str (s : String)
  | call (func : String) (args : List Expr)
  | boolOp (op : BoolOp) (values : List Expr)
  | compare (left : Expr) (ops : List CmpOp) (comparators : List Expr)
  | unsupported (lineno col : Nat)
deriving Repr

/-- The statement subset.  `exprStmt` carries the position of its value
(used by the `visit_Expr` exception); `unsupported` stands for any
statement kind without a `visit_` method, routed to `generic_visit`. -/
inductive Stmt where
  | assign (target : String) (value : Expr)
  | augAssign (target : String) (op : BinOp) (value : Expr)
  | exprStmt (value : Expr) (lineno col : Nat)
  | ifStmt (test : Expr) (body orelse : List Stmt)
  | whileStmt (test : Expr) (body : List Stmt)
  | importFrom
  | unsupported (lineno col : Nat)
deriving Repr

/-- Errors raised during the build.  `unknownParse`, `unknownExprStmt` and
`unknownStmt` model the three `raise Exception(...)` sites (each message
interpolates `lineno` and `col_offset`); `indexError` models Python's
`IndexError` from `node.value.args[0]` on an empty argument list. -/
inductive BuildError where
  | unknownParse (lineno col : Nat)
  | unknownExprStmt (lineno col : Nat)
  | unknownStmt (lineno col : Nat)
  | indexError
deriving DecidableEq, Repr

/-- Source position carried by an error message, when there is one. -/
def BuildError.pos : BuildError → Option (Nat × Nat)
  | .unknownParse l c => some (l, c)
  | .unknownExprStmt l c => some (l, c)
  | .unknownStmt l c => some (l, c)
  | .indexError => none

/-! ## Expression formatter

`FlowchartMakingVisitor.operators` and the `parse*` methods. -/

/-- `operators[...]` for `ast.BinOp` operator classes. -/
def BinOp.sym : BinOp → String
  | .mult => "*"
  | .add => "+"
  | .sub => "-"
  | .div => "/"

/-- `operators[...]` for `ast.BoolOp` operator classes. -/
def BoolOp.sym : BoolOp → String
  | .bor => "or"
  | .band => "and"

/-- `operators[...]` for `ast.Compare` operator classes (note `Eq` maps
to `"="`, not `"=="`). -/
def CmpOp.sym : CmpOp → String
  | .gt => ">"
  | .lt => "<"
  | .eq => "="
  | .neq => "!="

/-- Python `repr` of a string: quotes with `'`.  (Escaping of special
characters inside the literal is not modelled.) -/
def pyRepr (s : String) : String :=
  String.singleton (Char.ofNat 39) ++ s ++ String.singleton (Char.ofNat 39)

mutual

/-- `parseChunk`: format any supported expression; raise on anything
else. -/
def parseChunk : Expr → Except BuildError String
  | .binOp l op r => do
    let ls ← parseChunk l
    let rs ← parseChunk r
    pure ("(" ++ ls ++ " " ++ op.sym ++ " " ++ rs ++ ")")
  | .num n => pure (toString n)
  | .name id => pure id
  | .str s => pure (pyRepr s)
  | .call f args => do
    let ss ← parseArgs args
    pure (f ++ "(" ++ String.intercalate ", " ss ++ ")")
  | .boolOp op values => do
    let ss ← parseArgs values
    pure ("(" ++ String.intercalate (" " ++ op.sym ++ " ") ss ++ ")")
  | .compare l ops comparators => do
    let ls ← parseChunk l
    let rest ← parseCompareAux ops comparators
    pure ("(" ++ ls ++ rest ++ ")")
  | .unsupported l c => .error (.unknownParse l c)

/-- `parseFunctionArgs` (also the loop inside `parseBoolOp`): format each
element of a list of expressions. -/
def parseArgs : List Expr → Except BuildError (List String)
  | [] => pure []
  | e :: es => do
    let s ← parseChunk e
    let ss ← parseArgs es
    pure (s :: ss)

/-- The loop of `parseCompare`: `for i in range(len(op.ops)): ... ' ' +
operators[...] + ' ' + parseChunk(op.comparators[i])`.  Indexing
`comparators[i]` past its length is an `IndexError`. -/
def parseCompareAux : List CmpOp → List Expr → Except BuildError String
  | [], _ => pure ""
  | op :: ops, c :: cs => do
    let s ← parseChunk c
    let rest ← parseCompareAux ops cs
    pure (" " ++ op.sym ++ " " ++ s ++ rest)
  | _ :: _, [] => .error .indexError

end

/-- `parseFunctionCall`. -/
def parseFunctionCall (f : String) (args : List Expr) : Except BuildError String := do
  let ss ← parseArgs args
  pure (f ++ "(" ++ String.intercalate ", " ss ++ ")")

/-! ## Node model

One variant per `FlowchartNode` subclass.  `VariableAssignmentNode` is a
`ProcessNode` holding the text `"{var} = {expr}"`, so it is represented
by `Kind.process` of that text, exactly as in the source where it only
specialises the constructor. -/

inductive Kind where
  | start
  | stop
  | input (name : String)
  | output (text : String)
  | process (text : String)
  | conditional (cond : String)
  | subProcess (name : String)
  | dummyMiddle
  | dummyConjunction
deriving DecidableEq, Repr

/-- `self.child`: a single optional reference, or (for `ConditionalNode`)
the dict `{"No": ..., "Yes": ...}`. -/
inductive Child where
  | single (c : Option Nat)
  | branch (no yes : Option Nat)
deriving DecidableEq, Repr

/-- A flowchart node: kind, child reference(s), and the `index` field
(initially `None`, written during simplification and emission). -/
structure Node where
  kind : Kind
  child : Child
  index : Option Int
deriving DecidableEq, Repr

/-- Node constructors (`__init__`): every node starts with `child = None`
and `index = None`, except `ConditionalNode` whose child is the dict
`{"No": None, "Yes": None}`. -/
def mkNode (k : Kind) : Node :=
  match k with
  | .conditional _ => { kind := k, child := .branch none none, index := none }
  | _ => { kind := k, child := .single none, index := none }

/-- `VariableAssignmentNode(varName, expression)`. -/
def mkVarAssign (varName expression : String) : Node :=
  mkNode (.process (varName ++ " = " ++ expression))

/-- Whether a node class is one of the two placeholder classes, i.e. the
Python `isinstance(x, (DummyMiddleNode, DummyConjunctionNode))` test. -/
def Kind.isDummy : Kind → Bool
  | .dummyMiddle => true
  | .dummyConjunction => true
  | _ => false

/-! ## Arena

Python's heap of mutable node objects, as a list addressed by
allocation order.  `List.set` is a no-op out of bounds, but every access
the embedded code performs is shown in bounds where it matters. -/

abbrev Arena := List Node

/-- Dereference a node id. -/
def getNode (a : Arena) (i : Nat) : Option Node := a[i]?

/-- Mutate the node object at `i`. -/
def modifyNode (a : Arena) (i : Nat) (f : Node → Node) : Arena :=
  match a[i]? with
  | some n => a.set i (f n)
  | none => a

/-- `obj.child = c` (attribute assignment: replaces whatever was there
with a single reference). -/
def setSingleChild (a : Arena) (i : Nat) (c : Option Nat) : Arena :=
  modifyNode a i fun n => { n with child := .single c }

/-- Branch labels of a `ConditionalNode`'s child dict, in the dict's
iteration order (`"No"` was inserted first). -/
inductive Label where
  | no | yes
deriving DecidableEq, Repr

/-- `obj.child["No"] = c` / `obj.child["Yes"] = c` (dict entry update;
only ever applied to conditional nodes, whose child is the dict). -/
def setBranchChild (a : Arena) (i : Nat) (lbl : Label) (c : Option Nat) : Arena :=
  modifyNode a i fun n =>
    match n.child, lbl with
    | .branch _ yes, .no => { n with child := .branch c yes }
    | .branch no _, .yes => { n with child := .branch no c }
    | ch, _ => { n with child := ch }

/-- `obj.index = v`. -/
def setIndex (a : Arena) (i : Nat) (v : Option Int) : Arena :=
  modifyNode a i fun n => { n with index := v }

/-- Read a node's single child reference (`obj.child` on a non-branching
node); `none` when the id is dangling or the node is branching. -/
def singleChildOf (a : Arena) (i : Nat) : Option (Option Nat) :=
  match getNode a i with
  | some n =>
    match n.child with
    | .single c => some c
    | .branch _ _ => none
  | none => none

/-- Read `obj.child[lbl]` of a branching node. -/
def branchChildOf (a : Arena) (i : Nat) (lbl : Label) : Option (Option Nat) :=
  match getNode a i with
  | some n =>
    match n.child with
    | .branch no yes => some (match lbl with | .no => no | .yes => yes)
    | .single _ => none
  | none => none

/-- Read a node's kind. -/
def kindOf (a : Arena) (i : Nat) : Option Kind := (getNode a i).map Node.kind

/-- Read a node's index field. -/
def idxAt (a : Arena) (i : Nat) : Option Int :=
  match getNode a i with
  | some n => n.index
  | none => none

/-- The Python `isinstance(node, (DummyMiddleNode, DummyConjunctionNode))`
test on an arena reference. -/
def isDummyAt (a : Arena) (i : Nat) : Bool :=
  match kindOf a i with
  | some k => k.isDummy
  | none => false

/-! ## CFG builder (`FlowchartMakingVisitor`) -/

/-- The visitor's mutable state: the heap of nodes built so far and
`self.currentParent`, the insertion cursor. -/
structure BState where
  arena : Arena
  currentParent : Nat
deriving DecidableEq, Repr

/-- `appendNode`: `self.currentParent.child = node; self.currentParent =
node` — allocate the node and splice it after the cursor. -/
def appendNode (st : BState) (n : Node) : BState :=
  let id := st.arena.length
  { arena := setSingleChild (st.arena ++ [n]) st.currentParent (some id)
    currentParent := id }

/-- Whether a call expression is treated as an `input` read by
`visit_Assign`: `node.value.func.id == 'input'`, or the first argument is
itself a call whose callee is `input` (the "typecast" heuristic; note the
source inspects `args[0]`, not a sole argument). -/
def isInputCall (f : String) (args : List Expr) : Bool :=
  f == "input" ||
    (match args with
     | .call g _ :: _ => g == "input"
     | _ => false)

/-- State of the builder after `visit_If` has appended the conditional
node and its fresh `Yes`-side `DummyMiddleNode`, cursor moved to the
dummy (`condNode.child['Yes'] = DummyMiddleNode(); self.currentParent =
condNode.child['Yes']`).  The conditional's id is `st.arena.length`, the
dummy's id is one past it. -/
def ifSetup (cond : String) (st : BState) : BState :=
  let st1 := appendNode st (mkNode (.conditional cond))
  let condId := st1.currentParent
  let yesId := st1.arena.length
  { arena := setBranchChild (st1.arena ++ [mkNode .dummyMiddle]) condId .yes (some yesId)
    currentParent := yesId }

/-- State after `condNode.child['No'] = DummyMiddleNode();
self.currentParent = condNode.child['No']`, where `st1` is the state at
the end of the then-body and `condId` the conditional's id. -/
def ifElseSetup (st1 : BState) (condId : Nat) : BState :=
  let noId := st1.arena.length
  { arena := setBranchChild (st1.arena ++ [mkNode .dummyMiddle]) condId .no (some noId)
    currentParent := noId }

/-- The join step of `visit_If`: `endcap = DummyConjunctionNode();
endbody.child = endcap; self.currentParent.child = endcap;
self.currentParent = endcap`, where `st2` is the state at the end of the
else-body and `endbody` the cursor recorded after the then-body. -/
def ifJoin (st2 : BState) (endbody : Nat) : BState :=
  let endcap := st2.arena.length
  let a := st2.arena ++ [mkNode .dummyConjunction]
  let a := setSingleChild a endbody (some endcap)
  let a := setSingleChild a st2.currentParent (some endcap)
  { arena := a, currentParent := endcap }

/-- State after `visit_While` has appended the loop-top
`DummyConjunctionNode` and the conditional, and created the fresh
`Yes`-side dummy with the cursor on it. -/
def whileSetup (cond : String) (st : BState) : BState :=
  let st1 := appendNode st (mkNode .dummyConjunction)
  let st2 := appendNode st1 (mkNode (.conditional cond))
  let condId := st2.currentParent
  let yesId := st2.arena.length
  { arena := setBranchChild (st2.arena ++ [mkNode .dummyMiddle]) condId .yes (some yesId)
    currentParent := yesId }

/-- The closing step of `visit_While`: `self.currentParent.child = top;
condNode.child["No"] = DummyMiddleNode(); self.currentParent =
condNode.child["No"]`, where `st1` is the state at the end of the loop
body. -/
def whileClose (st1 : BState) (topId condId : Nat) : BState :=
  let a := setSingleChild st1.arena st1.currentParent (some topId)
  let noId := a.length
  { arena := setBranchChild (a ++ [mkNode .dummyMiddle]) condId .no (some noId)
    currentParent := noId }

mutual

/-- `self.visit(node)` dispatched on the statement kind: `visit_Assign`,
`visit_AugAssign`, `visit_Expr`, `visit_If`, `visit_While`,
`visit_ImportFrom`, and `generic_visit` for everything else. -/
def visitStmt : Stmt → BState → Except BuildError BState
  | .assign target value, st =>
    match value with
    | .call f args =>
      if f == "input" then
        .ok (appendNode st (mkNode (.input target)))
      else
        match args with
        | [] => .error .indexError
        | a :: _ =>
          if (match a with | .call g _ => g == "input" | _ => false) then
            .ok (appendNode st (mkNode (.input target)))
          else do
            let rhs ← parseChunk (.call f args)
            .ok (appendNode st (mkVarAssign target rhs))
    | v => do
      let rhs ← parseChunk v
      .ok (appendNode st (mkVarAssign target rhs))
  | .augAssign target op value, st => do
    let rhs ← parseChunk value
    .ok (appendNode st (mkVarAssign target (target ++ " " ++ op.sym ++ " " ++ rhs)))
  | .exprStmt value lineno col, st =>
    match value with
    | .call f args =>
      if f == "print" || f == "pprint" then do
        let ss ← parseArgs args
        .ok (appendNode st (mkNode (.output (String.intercalate ", " ss))))
      else do
        let s ← parseFunctionCall f args
        .ok (appendNode st (mkNode (.process s)))
    | _ => .error (.unknownExprStmt lineno col)
  | .ifStmt test body orelse, st => do
    let cond ← parseChunk test
    let condId := st.arena.length
    let st1 ← visitList body (ifSetup cond st)
    let endbody := st1.currentParent
    let st2 ← visitList orelse (ifElseSetup st1 condId)
    .ok (ifJoin st2 endbody)
  | .whileStmt test body, st => do
    let topId := st.arena.length
    let c ← parseChunk test
    let condId := st.arena.length + 1
    let st1 ← visitList body (whileSetup c st)
    .ok (whileClose st1 topId condId)
  | .importFrom, _st => .ok _st
  | .unsupported l c, _ => .error (.unknownStmt l c)

/-- The statement loops `for n in node.body: self.visit(n)`. -/
def visitList : List Stmt → BState → Except BuildError BState
  | [], st => .ok st
  | s :: ss, st => do
    let st' ← visitStmt s st
    visitList ss st'

end

/-- The initial visitor state: `self.start = StartNode();
self.currentParent = self.start`. -/
def initState : BState :=
  { arena := [mkNode .start], currentParent := 0 }

/-- `visit_Module`: visit every top-level statement, then
`self.appendNode(EndNode())`. -/
def buildModule (stmts : List Stmt) : Except BuildError BState := do
  let st ← visitList stmts initState
  .ok (appendNode st (mkNode .stop))

/-! ## Graph simplifier (`deleteExtraneousNodes`)

The Python function recurses over the mutable, possibly cyclic graph with
no decreasing argument; its only guard is `if node.index == 0: return` at
entry.  The embedding therefore takes explicit fuel: a `none` result
means the call does not complete normally for that much fuel (Python: a
`RecursionError` once the interpreter's stack limit is hit, or an
`AttributeError` on a `None` child). -/

/-- One iteration of `for n in node.child:` in `deleteExtraneousNodes`
(the dict iterates `"No"` before `"Yes"`): hop over a placeholder child
and re-examine the same node, or recurse into a non-placeholder child.
`rec` is the recursive call (with one unit of fuel consumed). -/
def simplifyKey (rec : Arena → Nat → Option Arena) (a : Arena) (i : Nat)
    (lbl : Label) : Option Arena :=
  match branchChildOf a i lbl with
  | none => none
  | some none => none
  | some (some c) =>
    if isDummyAt a c then
      match singleChildOf a c with
      | some cc => rec (setBranchChild a i lbl cc) i
      | none => none
    else
      rec a c

/-- `deleteExtraneousNodes(node)`. -/
def simplifyF : Nat → Arena → Nat → Option Arena
  | 0, _, _ => none
  | fuel + 1, a, i =>
    match getNode a i with
    | none => none
    | some node =>
      if node.index == some 0 then some a
      else
        match node.child with
        | .branch _ _ =>
          (simplifyKey (simplifyF fuel) a i .no).bind fun a1 =>
            (simplifyKey (simplifyF fuel) a1 i .yes).bind fun a2 =>
              some (setIndex a2 i (some 0))
        | .single none => some a
        | .single (some c) =>
          if isDummyAt a c then
            match singleChildOf a c with
            | some cc => simplifyF fuel (setSingleChild a i cc) i
            | none => none
          else
            simplifyF fuel (setIndex a i (some 0)) c

/-! ## Emission (`generateGraph`)

`graphviz.Digraph` is an external presentation backend; the calls
`graph.node(...)` / `graph.edge(...)` are recorded as a command list.
`graph.node("node{i}", str(n), shape=n.shape())` is recorded with the
numeric index `i` (the name is `"node" + str(i)`), the declared node's
arena reference, its display text and its shape tag.  `textwrap.fill`
(external text presentation) is modelled as the identity on the text. -/

/-- `__str__` of each node class (without the external `textwrap.fill`
line wrapping). -/
def Kind.text : Kind → String
  | .start => "Start"
  | .stop => "Stop"
  | .input n => "input " ++ n
  | .output n => "output " ++ n
  | .process t => t
  | .conditional c => c
  | .subProcess n => "| " ++ n ++ " |"
  | .dummyMiddle => ""
  | .dummyConjunction => "     | <---"

/-- `shape()` of each node class.  `DummyMiddleNode` does not override
`shape`, so it inherits the base class `"tripleoctagon"`;
`DummyConjunctionNode` overrides it to `None`. -/
def Kind.shape : Kind → Option String
  | .start => some "ellipse"
  | .stop => some "ellipse"
  | .input _ => some "parallelogram"
  | .output _ => some "parallelogram"
  | .process _ => some "rectangle"
  | .conditional _ => some "diamond"
  | .subProcess _ => some "rectangle"
  | .dummyMiddle => some "tripleoctagon"
  | .dummyConjunction => none

/-- The dict keys as edge labels. -/
def Label.text : Label → String
  | .no => "No"
  | .yes => "Yes"

/-- `directions = {"No": "s", "Yes": "e"}`. -/
def Label.dir : Label → String
  | .no => "s"
  | .yes => "e"

/-- One recorded call to the graphviz backend: a node declaration
(declared arena reference, numeric index, display text, shape tag) or an
edge declaration (source index, target index, optional label, tail port,
head port). -/
inductive GCmd where
  | node (id : Nat) (ind : Int) (text : String) (shape : Option String)
  | edge (src dst : Int) (label : Option String) (tailport headport : String)
deriving DecidableEq, Repr

/-- Python truthiness of the `index` field: `None` and `0` are falsy,
every other integer is truthy.  This is the visited test
`if node.child[n].index:` / `if node.child.index:` of `generateGraph`. -/
def truthyIdx : Option Int → Bool
  | none => false
  | some k => k != 0

/-- The unvisited path of `generateGraph` for a branch child `c`:
declare the node with index `ind`, declare the labelled edge, write
`child.index = ind`, recurse (`rec` is the recursive call with one unit
of fuel consumed) and return the recursive result plus one. -/
def genKeyFresh (rec : Arena → Nat → Option (Arena × List GCmd × Int))
    (a : Arena) (k ind : Int) (lbl : Label) (c : Nat) (childN : Node) :
    Option (Arena × List GCmd × Int) :=
  (rec (setIndex a c (some ind)) c).bind fun r =>
    some (r.1,
      .node c ind childN.kind.text childN.kind.shape ::
        .edge k ind (some lbl.text) lbl.dir "n" :: r.2.1,
      r.2.2 + 1)

/-- One iteration of `for n in node.child:` in `generateGraph`: `k` is
`node.index`, `ind` the running fresh-index counter; returns the updated
arena, the recorded calls and the updated counter. -/
def genKey (rec : Arena → Nat → Option (Arena × List GCmd × Int))
    (a : Arena) (i : Nat) (k ind : Int) (lbl : Label) :
    Option (Arena × List GCmd × Int) :=
  match branchChildOf a i lbl with
  | none => none
  | some none => none
  | some (some c) =>
    match getNode a c with
    | none => none
    | some childN =>
      match childN.index with
      | some m =>
        if m != 0 then
          some (a, [.edge k m (some lbl.text) lbl.dir "n"], ind)
        else
          genKeyFresh rec a k ind lbl c childN
      | none => genKeyFresh rec a k ind lbl c childN

/-- The unvisited path of `generateGraph` for a single child `c`:
declare it with index `k + 1`, write its index, declare the edge,
recurse and return the recursive result plus one. -/
def genLinFresh (rec : Arena → Nat → Option (Arena × List GCmd × Int))
    (a : Arena) (k : Int) (c : Nat) (childN : Node) :
    Option (Arena × List GCmd × Int) :=
  (rec (setIndex a c (some (k + 1))) c).bind fun r =>
    some (r.1,
      .node c (k + 1) childN.kind.text childN.kind.shape ::
        .edge k (k + 1) none "s" "n" :: r.2.1,
      r.2.2 + 1)

/-- `generateGraph(graph, node)`: returns the final arena, the recorded
backend calls, and the function's integer return value.  Fuel bounds the
recursion depth; `none` means the run does not complete normally. -/
def genGraph : Nat → Arena → Nat → Option (Arena × List GCmd × Int)
  | 0, _, _ => none
  | fuel + 1, a, i =>
    match getNode a i with
    | none => none
    | some node =>
      match node.child with
      | .branch _ _ =>
        match node.index with
        | none => none
        | some k =>
          (genKey (genGraph fuel) a i k (k + 1) .no).bind fun r1 =>
            (genKey (genGraph fuel) r1.1 i k r1.2.2 .yes).bind fun r2 =>
              some (r2.1, r1.2.1 ++ r2.2.1, r2.2.2)
      | .single copt =>
        match node.index with
        | none => none
        | some k =>
          match copt with
          | none => some (a, [], k)
          | some c =>
            match getNode a c with
            | none => none
            | some childN =>
              match childN.index with
              | some m =>
                if m != 0 then
                  some (a, [.edge k m none "s" "n"], k + 1)
                else
                  genLinFresh (genGraph fuel) a k c childN
              | none => genLinFresh (genGraph fuel) a k c childN

/-- The pipeline tail of `main`: simplify from the start node, set
`start.index = 1`, declare `node1` for the start node, then run
`generateGraph` from the start. -/
def emitAfterSimplify (fuel : Nat) (a : Arena) : Option (Arena × List GCmd × Int) :=
  (simplifyF fuel a 0).bind fun a1 =>
    match getNode a1 0 with
    | none => none
    | some startN =>
      let a2 := setIndex a1 0 (some 1)
      (genGraph fuel a2 0).bind fun r =>
        some (r.1, .node 0 1 startN.kind.text startN.kind.shape :: r.2.1, r.2.2)

/-! ## Arena lemmas -/

theorem lt_length_of_getNode {a : Arena} {i : Nat} {n : Node}
    (h : getNode a i = some n) : i < a.length := by
  by_contra hlt
  push_neg at hlt
  rw [getNode, List.getElem?_eq_none hlt] at h
  exact Option.noConfusion h

theorem length_modifyNode (a : Arena) (i : Nat) (f : Node → Node) :
    (modifyNode a i f).length = a.length := by
  unfold modifyNode
  cases a[i]? with
  | none => rfl
  | some n => exact List.length_set a i (f n)

theorem getNode_modifyNode (a : Arena) (i : Nat) (f : Node → Node) (j : Nat) :
    getNode (modifyNode a i f) j =
      if j = i then (getNode a i).map f else getNode a j := by
  unfold modifyNode getNode
  cases hg : a[i]? with
  | none =>
    by_cases hji : j = i
    · subst hji
      simp [hg]
    · simp [hji]
  | some n =>
    have hi : i < a.length := lt_length_of_getNode (n := n) (by simpa [getNode] using hg)
    by_cases hji : j = i
    · subst hji
      simp [hg, List.getElem?_set_eq_of_lt (f n) hi]
    · simp [hji, List.getElem?_set_ne (Ne.symm hji)]

theorem getNode_append_lt (a : Arena) (ns : List Node) (j : Nat) (h : j < a.length) :
    getNode (a ++ ns) j = getNode a j := by
  unfold getNode
  exact List.getElem?_append_left h

theorem getNode_append_self (a : Arena) (n : Node) :
    getNode (a ++ [n]) a.length = some n := by
  unfold getNode
  simp

theorem length_setSingleChild (a : Arena) (i : Nat) (c : Option Nat) :
    (setSingleChild a i c).length = a.length := length_modifyNode a i _

theorem length_setBranchChild (a : Arena) (i : Nat) (lbl : Label) (c : Option Nat) :
    (setBranchChild a i lbl c).length = a.length := length_modifyNode a i _

theorem length_setIndex (a : Arena) (i : Nat) (v : Option Int) :
    (setIndex a i v).length = a.length := length_modifyNode a i _

theorem getNode_setSingleChild_ne (a : Arena) (i : Nat) (c : Option Nat) (j : Nat)
    (h : j ≠ i) : getNode (setSingleChild a i c) j = getNode a j := by
  rw [setSingleChild, getNode_modifyNode, if_neg h]

theorem getNode_setBranchChild_ne (a : Arena) (i : Nat) (lbl : Label) (c : Option Nat)
    (j : Nat) (h : j ≠ i) : getNode (setBranchChild a i lbl c) j = getNode a j := by
  rw [setBranchChild, getNode_modifyNode, if_neg h]

theorem getNode_setIndex_ne (a : Arena) (i : Nat) (v : Option Int) (j : Nat)
    (h : j ≠ i) : getNode (setIndex a i v) j = getNode a j := by
  rw [setIndex, getNode_modifyNode, if_neg h]

theorem kindOf_setSingleChild (a : Arena) (i : Nat) (c : Option Nat) (j : Nat) :
    kindOf (setSingleChild a i c) j = kindOf a j := by
  rw [kindOf, setSingleChild, getNode_modifyNode]
  by_cases hji : j = i
  · subst hji
    rw [if_pos rfl, kindOf]
    cases getNode a j <;> rfl
  · rw [if_neg hji, kindOf]

theorem kindOf_setBranchChild (a : Arena) (i : Nat) (lbl : Label) (c : Option Nat) (j : Nat) :
    kindOf (setBranchChild a i lbl c) j = kindOf a j := by
  rw [kindOf, setBranchChild, getNode_modifyNode]
  by_cases hji : j = i
  · subst hji
    rw [if_pos rfl, kindOf]
    cases hg : getNode a j with
    | none => rfl
    | some n =>
      obtain ⟨nk, nch, nidx⟩ := n
      cases nch <;> cases lbl <;> rfl
  · rw [if_neg hji, kindOf]

theorem kindOf_setIndex (a : Arena) (i : Nat) (v : Option Int) (j : Nat) :
    kindOf (setIndex a i v) j = kindOf a j := by
  rw [kindOf, setIndex, getNode_modifyNode]
  by_cases hji : j = i
  · subst hji
    rw [if_pos rfl, kindOf]
    cases getNode a j <;> rfl
  · rw [if_neg hji, kindOf]

theorem kindOf_append_lt (a : Arena) (ns : List Node) (j : Nat) (h : j < a.length) :
    kindOf (a ++ ns) j = kindOf a j := by
  rw [kindOf, getNode_append_lt a ns j h, kindOf]

theorem singleChildOf_setSingleChild_self (a : Arena) (i : Nat) (c : Option Nat)
    (h : i < a.length) : singleChildOf (setSingleChild a i c) i = some c := by
  rw [singleChildOf, setSingleChild, getNode_modifyNode, if_pos rfl]
  obtain ⟨n, hn⟩ : ∃ n, getNode a i = some n := by
    cases hg : getNode a i with
    | none =>
      rw [getNode, List.getElem?_eq_getElem h] at hg
      exact Option.noConfusion hg
    | some n => exact ⟨n, rfl⟩
  rw [hn]
  rfl

theorem singleChildOf_setSingleChild_ne (a : Arena) (i : Nat) (c : Option Nat) (j : Nat)
    (h : j ≠ i) : singleChildOf (setSingleChild a i c) j = singleChildOf a j := by
  rw [singleChildOf, getNode_setSingleChild_ne a i c j h, singleChildOf]

/-! ## Builder step lemmas -/

/-- What one builder step guarantees relative to a starting state: the
arena only grows; a valid cursor stays valid and either stays put or
lands on a node allocated during the step; kinds of pre-existing nodes
never change; and pre-existing nodes other than the cursor are not
mutated at all. -/
def BuildOk (st st' : BState) : Prop :=
  st.arena.length ≤ st'.arena.length ∧
  (st.currentParent < st.arena.length →
    st'.currentParent < st'.arena.length ∧
      (st'.currentParent = st.currentParent ∨ st.arena.length ≤ st'.currentParent)) ∧
  (∀ i, i < st.arena.length → kindOf st'.arena i = kindOf st.arena i) ∧
  (st.currentParent < st.arena.length →
    ∀ i, i < st.arena.length → i ≠ st.currentParent →
      getNode st'.arena i = getNode st.arena i)

theorem buildOk_refl (st : BState) : BuildOk st st :=
  ⟨le_refl _, fun h => ⟨h, Or.inl rfl⟩, fun _ _ => rfl, fun _ _ _ _ => rfl⟩

theorem buildOk_trans {st1 st2 st3 : BState} (h12 : BuildOk st1 st2)
    (h23 : BuildOk st2 st3) : BuildOk st1 st3 := by
  obtain ⟨l12, c12, k12, u12⟩ := h12
  obtain ⟨l23, c23, k23, u23⟩ := h23
  refine ⟨le_trans l12 l23, ?_, ?_, ?_⟩
  · intro hv
    obtain ⟨hv2, hc2⟩ := c12 hv
    obtain ⟨hv3, hc3⟩ := c23 hv2
    refine ⟨hv3, ?_⟩
    rcases hc3 with h3 | h3
    · rw [h3]
      exact hc2
    · exact Or.inr (le_trans l12 h3)
  · intro i hi
    rw [k23 i (lt_of_lt_of_le hi l12), k12 i hi]
  · intro hv i hi hne
    obtain ⟨hv2, hc2⟩ := c12 hv
    have hne2 : i ≠ st2.currentParent := by
      rcases hc2 with h2 | h2
      · rw [h2]; exact hne
      · omega
    rw [u23 hv2 i (lt_of_lt_of_le hi l12) hne2, u12 hv i hi hne]

theorem appendNode_length (st : BState) (n : Node) :
    (appendNode st n).arena.length = st.arena.length + 1 := by
  show (setSingleChild (st.arena ++ [n]) st.currentParent _).length = _
  rw [length_setSingleChild]
  simp

theorem appendNode_cursor (st : BState) (n : Node) :
    (appendNode st n).currentParent = st.arena.length := rfl

theorem appendNode_kind (st : BState) (n : Node) (i : Nat) (h : i < st.arena.length) :
    kindOf (appendNode st n).arena i = kindOf st.arena i := by
  show kindOf (setSingleChild (st.arena ++ [n]) st.currentParent _) i = _
  rw [kindOf_setSingleChild, kindOf_append_lt _ _ _ h]

theorem appendNode_kind_self (st : BState) (n : Node) :
    kindOf (appendNode st n).arena st.arena.length = some n.kind := by
  show kindOf (setSingleChild (st.arena ++ [n]) st.currentParent _) _ = _
  rw [kindOf_setSingleChild, kindOf, getNode_append_self]
  rfl

theorem appendNode_untouched (st : BState) (n : Node) (i : Nat) (h : i < st.arena.length)
    (hne : i ≠ st.currentParent) :
    getNode (appendNode st n).arena i = getNode st.arena i := by
  show getNode (setSingleChild (st.arena ++ [n]) st.currentParent _) i = _
  rw [getNode_setSingleChild_ne _ _ _ _ hne, getNode_append_lt _ _ _ h]

theorem buildOk_appendNode (st : BState) (n : Node) : BuildOk st (appendNode st n) := by
  refine ⟨?_, ?_, ?_, ?_⟩
  · rw [appendNode_length]
    omega
  · intro _
    rw [appendNode_length, appendNode_cursor]
    exact ⟨by omega, Or.inr le_rfl⟩
  · intro i hi
    exact appendNode_kind st n i hi
  · intro _ i hi hne
    exact appendNode_untouched st n i hi hne

theorem ifSetup_length (cond : String) (st : BState) :
    (ifSetup cond st).arena.length = st.arena.length + 2 := by
  show (setBranchChild ((appendNode st _).arena ++ [_]) _ _ _).length = _
  rw [length_setBranchChild]
  simp [appendNode_length]

theorem ifSetup_cursor (cond : String) (st : BState) :
    (ifSetup cond st).currentParent = st.arena.length + 1 := by
  show (appendNode st (mkNode (.conditional cond))).arena.length = _
  rw [appendNode_length]

theorem ifSetup_kind (cond : String) (st : BState) (i : Nat) (h : i < st.arena.length) :
    kindOf (ifSetup cond st).arena i = kindOf st.arena i := by
  show kindOf (setBranchChild ((appendNode st _).arena ++ [_]) _ _ _) i = _
  rw [kindOf_setBranchChild, kindOf_append_lt, appendNode_kind st _ i h]
  rw [appendNode_length]
  omega

theorem ifSetup_kind_cond (cond : String) (st : BState) :
    kindOf (ifSetup cond st).arena st.arena.length = some (.conditional cond) := by
  show kindOf (setBranchChild ((appendNode st _).arena ++ [_]) _ _ _) _ = _
  rw [kindOf_setBranchChild,
    kindOf_append_lt _ _ _ (by rw [appendNode_length]; omega), appendNode_kind_self]
  rfl

theorem ifSetup_untouched (cond : String) (st : BState) (i : Nat)
    (h : i < st.arena.length) (hne : i ≠ st.currentParent) :
    getNode (ifSetup cond st).arena i = getNode st.arena i := by
  show getNode (setBranchChild ((appendNode st _).arena ++ [_]) (appendNode st _).currentParent _ _) i = _
  rw [getNode_setBranchChild_ne, getNode_append_lt, appendNode_untouched st _ i h hne]
  · rw [appendNode_length]
    omega
  · rw [appendNode_cursor]
    omega

theorem ifElseSetup_length (st1 : BState) (condId : Nat) :
    (ifElseSetup st1 condId).arena.length = st1.arena.length + 1 := by
  show (setBranchChild (st1.arena ++ [_]) _ _ _).length = _
  rw [length_setBranchChild]
  simp

theorem ifElseSetup_cursor (st1 : BState) (condId : Nat) :
    (ifElseSetup st1 condId).currentParent = st1.arena.length := rfl

theorem ifElseSetup_kind (st1 : BState) (condId : Nat) (i : Nat) (h : i < st1.arena.length) :
    kindOf (ifElseSetup st1 condId).arena i = kindOf st1.arena i := by
  show kindOf (setBranchChild (st1.arena ++ [_]) _ _ _) i = _
  rw [kindOf_setBranchChild, kindOf_append_lt _ _ _ h]

theorem ifElseSetup_untouched (st1 : BState) (condId : Nat) (i : Nat)
    (h : i < st1.arena.length) (hne : i ≠ condId) :
    getNode (ifElseSetup st1 condId).arena i = getNode st1.arena i := by
  show getNode (setBranchChild (st1.arena ++ [_]) condId _ _) i = _
  rw [getNode_setBranchChild_ne _ _ _ _ _ hne, getNode_append_lt _ _ _ h]

theorem ifJoin_length (st2 : BState) (endbody : Nat) :
    (ifJoin st2 endbody).arena.length = st2.arena.length + 1 := by
  show (setSingleChild (setSingleChild (st2.arena ++ [_]) _ _) _ _).length = _
  rw [length_setSingleChild, length_setSingleChild]
  simp

theorem ifJoin_cursor (st2 : BState) (endbody : Nat) :
    (ifJoin st2 endbody).currentParent = st2.arena.length := rfl

theorem ifJoin_kind (st2 : BState) (endbody : Nat) (i : Nat) (h : i < st2.arena.length) :
    kindOf (ifJoin st2 endbody).arena i = kindOf st2.arena i := by
  show kindOf (setSingleChild (setSingleChild (st2.arena ++ [_]) _ _) _ _) i = _
  rw [kindOf_setSingleChild, kindOf_setSingleChild, kindOf_append_lt _ _ _ h]

theorem ifJoin_kind_endcap (st2 : BState) (endbody : Nat) :
    kindOf (ifJoin st2 endbody).arena st2.arena.length = some .dummyConjunction := by
  show kindOf (setSingleChild (setSingleChild (st2.arena ++ [_]) _ _) _ _) _ = _
  rw [kindOf_setSingleChild, kindOf_setSingleChild, kindOf, getNode_append_self]
  rfl

theorem ifJoin_untouched (st2 : BState) (endbody : Nat) (i : Nat)
    (h : i < st2.arena.length) (hne1 : i ≠ endbody) (hne2 : i ≠ st2.currentParent) :
    getNode (ifJoin st2 endbody).arena i = getNode st2.arena i := by
  show getNode (setSingleChild (setSingleChild (st2.arena ++ [_]) endbody _) st2.currentParent _) i = _
  rw [getNode_setSingleChild_ne _ _ _ _ hne2, getNode_setSingleChild_ne _ _ _ _ hne1,
    getNode_append_lt _ _ _ h]

theorem ifJoin_child_endbody (st2 : BState) (endbody : Nat)
    (h : endbody < st2.arena.length) :
    singleChildOf (ifJoin st2 endbody).arena endbody = some (some st2.arena.length) := by
  show singleChildOf (setSingleChild (setSingleChild (st2.arena ++ [_]) endbody _) st2.currentParent _) endbody = _
  by_cases he : endbody = st2.currentParent
  · rw [← he]
    rw [singleChildOf_setSingleChild_self]
    rw [length_setSingleChild]
    simp
    omega
  · rw [singleChildOf_setSingleChild_ne _ _ _ _ (fun hx => he hx)]
    rw [singleChildOf_setSingleChild_self]
    simp
    omega

theorem ifJoin_child_cursor (st2 : BState) (endbody : Nat)
    (h : st2.currentParent < st2.arena.length) :
    singleChildOf (ifJoin st2 endbody).arena st2.currentParent = some (some st2.arena.length) := by
  show singleChildOf (setSingleChild (setSingleChild (st2.arena ++ [_]) endbody _) st2.currentParent _) st2.currentParent = _
  rw [singleChildOf_setSingleChild_self]
  rw [length_setSingleChild]
  simp
  omega

theorem whileSetup_length (cond : String) (st : BState) :
    (whileSetup cond st).arena.length = st.arena.length + 3 := by
  show (setBranchChild ((appendNode (appendNode st _) _).arena ++ [_]) _ _ _).length = _
  rw [length_setBranchChild]
  simp [appendNode_length]

theorem whileSetup_cursor (cond : String) (st : BState) :
    (whileSetup cond st).currentParent = st.arena.length + 2 := by
  show (appendNode (appendNode st _) _).arena.length = _
  rw [appendNode_length, appendNode_length]

theorem whileSetup_kind (cond : String) (st : BState) (i : Nat) (h : i < st.arena.length) :
    kindOf (whileSetup cond st).arena i = kindOf st.arena i := by
  show kindOf (setBranchChild ((appendNode (appendNode st _) _).arena ++ [_]) _ _ _) i = _
  rw [kindOf_setBranchChild, kindOf_append_lt, appendNode_kind, appendNode_kind st _ i h]
  · rw [appendNode_length]
    omega
  · rw [appendNode_length, appendNode_length]
    omega

theorem whileSetup_kind_top (cond : String) (st : BState) :
    kindOf (whileSetup cond st).arena st.arena.length = some .dummyConjunction := by
  show kindOf (setBranchChild ((appendNode (appendNode st _) _).arena ++ [_]) _ _ _) _ = _
  rw [kindOf_setBranchChild,
    kindOf_append_lt _ _ _ (by rw [appendNode_length, appendNode_length]; omega),
    appendNode_kind _ _ _ (by rw [appendNode_length]; omega), appendNode_kind_self]
  rfl

theorem whileSetup_kind_cond (cond : String) (st : BState) :
    kindOf (whileSetup cond st).arena (st.arena.length + 1) =
      some (.conditional cond) := by
  show kindOf (setBranchChild ((appendNode (appendNode st _) _).arena ++ [_]) _ _ _) _ = _
  rw [kindOf_setBranchChild,
    kindOf_append_lt _ _ _ (by rw [appendNode_length, appendNode_length]; omega)]
  have h1 : (appendNode st (mkNode .dummyConjunction)).arena.length = st.arena.length + 1 :=
    appendNode_length st _
  rw [← h1, appendNode_kind_self]
  rfl

theorem whileSetup_untouched (cond : String) (st : BState) (i : Nat)
    (h : i < st.arena.length) (hne : i ≠ st.currentParent) :
    getNode (whileSetup cond st).arena i = getNode st.arena i := by
  show getNode (setBranchChild ((appendNode (appendNode st _) _).arena ++ [_])
    (appendNode (appendNode st _) _).currentParent _ _) i = _
  rw [getNode_setBranchChild_ne, getNode_append_lt, appendNode_untouched,
    appendNode_untouched st _ i h hne]
  · rw [appendNode_length]
    exact lt_trans h (by omega)
  · rw [appendNode_cursor]
    omega
  · rw [appendNode_length, appendNode_length]
    omega
  · rw [appendNode_cursor, appendNode_length]
    omega

theorem whileClose_length (st1 : BState) (topId condId : Nat) :
    (whileClose st1 topId condId).arena.length = st1.arena.length + 1 := by
  show (setBranchChild (setSingleChild st1.arena _ _ ++ [_]) _ _ _).length = _
  rw [length_setBranchChild]
  simp [length_setSingleChild]

theorem whileClose_cursor (st1 : BState) (topId condId : Nat) :
    (whileClose st1 topId condId).currentParent = st1.arena.length := by
  show (setSingleChild st1.arena _ _).length = _
  rw [length_setSingleChild]

theorem whileClose_kind (st1 : BState) (topId condId : Nat) (i : Nat)
    (h : i < st1.arena.length) :
    kindOf (whileClose st1 topId condId).arena i = kindOf st1.arena i := by
  show kindOf (setBranchChild (setSingleChild st1.arena _ _ ++ [_]) _ _ _) i = _
  rw [kindOf_setBranchChild, kindOf_append_lt, kindOf_setSingleChild]
  rw [length_setSingleChild]
  exact h

theorem whileClose_untouched (st1 : BState) (topId condId : Nat) (i : Nat)
    (h : i < st1.arena.length) (hne1 : i ≠ st1.currentParent) (hne2 : i ≠ condId) :
    getNode (whileClose st1 topId condId).arena i = getNode st1.arena i := by
  show getNode (setBranchChild (setSingleChild st1.arena st1.currentParent _ ++ [_]) condId _ _) i = _
  rw [getNode_setBranchChild_ne _ _ _ _ _ hne2, getNode_append_lt,
    getNode_setSingleChild_ne _ _ _ _ hne1]
  rw [length_setSingleChild]
  exact h

/-! ## Shape of each visit method's successful result -/

theorem visitStmt_assign_shape (target : String) (value : Expr) (st st' : BState)
    (hok : visitStmt (.assign target value) st = .ok st') :
    ∃ n, st' = appendNode st n := by
  have fallback : ∀ v : Expr,
      (do
        let rhs ← parseChunk v
        Except.ok (appendNode st (mkVarAssign target rhs))) = Except.ok st' →
      ∃ n, st' = appendNode st n := by
    intro v hv
    cases hp : parseChunk v with
    | error e =>
      rw [hp] at hv
      simp [Bind.bind, Except.bind] at hv
    | ok rhs =>
      rw [hp] at hv
      simp only [Bind.bind, Except.bind] at hv
      exact ⟨_, ((Except.ok.injEq _ _).mp hv).symm⟩
  cases value with
  | call f args =>
    simp only [visitStmt] at hok
    by_cases hf : (f == "input") = true
    · rw [if_pos hf] at hok
      exact ⟨_, ((Except.ok.injEq _ _).mp hok).symm⟩
    · rw [if_neg hf] at hok
      cases args with
      | nil => exact absurd hok (by simp)
      | cons a rest =>
        dsimp only at hok
        split at hok
        · exact ⟨_, ((Except.ok.injEq _ _).mp hok).symm⟩
        · exact fallback _ hok
  | binOp l op r => exact fallback _ (by simp only [visitStmt] at hok; exact hok)
  | num v => exact fallback _ (by simp only [visitStmt] at hok; exact hok)
  | name id => exact fallback _ (by simp only [visitStmt] at hok; exact hok)
  | str s => exact fallback _ (by simp only [visitStmt] at hok; exact hok)
  | boolOp op values => exact fallback _ (by simp only [visitStmt] at hok; exact hok)
  | compare l ops cs => exact fallback _ (by simp only [visitStmt] at hok; exact hok)
  | unsupported l c => exact fallback _ (by simp only [visitStmt] at hok; exact hok)

theorem visitStmt_augAssign_shape (target : String) (op : BinOp) (value : Expr)
    (st st' : BState) (hok : visitStmt (.augAssign target op value) st = .ok st') :
    ∃ n, st' = appendNode st n := by
  simp only [visitStmt] at hok
  cases hp : parseChunk value with
  | error e =>
    rw [hp] at hok
    simp [Bind.bind, Except.bind] at hok
  | ok rhs =>
    rw [hp] at hok
    simp only [Bind.bind, Except.bind] at hok
    exact ⟨_, ((Except.ok.injEq _ _).mp hok).symm⟩

theorem visitStmt_exprStmt_shape (value : Expr) (l c : Nat) (st st' : BState)
    (hok : visitStmt (.exprStmt value l c) st = .ok st') :
    ∃ n, st' = appendNode st n := by
  cases value with
  | call f args =>
    simp only [visitStmt] at hok
    split at hok
    · cases hp : parseArgs args with
      | error e =>
        rw [hp] at hok
        simp [Bind.bind, Except.bind] at hok
      | ok ss =>
        rw [hp] at hok
        simp only [Bind.bind, Except.bind] at hok
        exact ⟨_, ((Except.ok.injEq _ _).mp hok).symm⟩
    · cases hp : parseFunctionCall f args with
      | error e =>
        rw [hp] at hok
        simp [Bind.bind, Except.bind] at hok
      | ok s =>
        rw [hp] at hok
        simp only [Bind.bind, Except.bind] at hok
        exact ⟨_, ((Except.ok.injEq _ _).mp hok).symm⟩
  | binOp a op b => simp only [visitStmt] at hok; exact Except.noConfusion hok
  | num v => simp only [visitStmt] at hok; exact Except.noConfusion hok
  | name id => simp only [visitStmt] at hok; exact Except.noConfusion hok
  | str s => simp only [visitStmt] at hok; exact Except.noConfusion hok
  | boolOp op values => simp only [visitStmt] at hok; exact Except.noConfusion hok
  | compare a ops cs => simp only [visitStmt] at hok; exact Except.noConfusion hok
  | unsupported a b => simp only [visitStmt] at hok; exact Except.noConfusion hok

theorem visitStmt_importFrom_shape (st st' : BState)
    (hok : visitStmt .importFrom st = .ok st') : st' = st := by
  simp only [visitStmt] at hok
  exact ((Except.ok.injEq _ _).mp hok).symm

theorem visitStmt_if_shape (test : Expr) (body orelse : List Stmt) (st st' : BState)
    (hok : visitStmt (.ifStmt test body orelse) st = .ok st') :
    ∃ cond st1 st2,
      parseChunk test = .ok cond ∧
      visitList body (ifSetup cond st) = .ok st1 ∧
      visitList orelse (ifElseSetup st1 st.arena.length) = .ok st2 ∧
      st' = ifJoin st2 st1.currentParent := by
  simp only [visitStmt] at hok
  cases hp : parseChunk test with
  | error e =>
    rw [hp] at hok
    simp [Bind.bind, Except.bind] at hok
  | ok cond =>
    rw [hp] at hok
    simp only [Bind.bind, Except.bind] at hok
    cases h1 : visitList body (ifSetup cond st) with
    | error e =>
      rw [h1] at hok
      simp [Except.bind] at hok
    | ok st1 =>
      rw [h1] at hok
      simp only [Except.bind] at hok
      cases h2 : visitList orelse (ifElseSetup st1 st.arena.length) with
      | error e =>
        rw [h2] at hok
        simp [Except.bind] at hok
      | ok st2 =>
        rw [h2] at hok
        simp only [Except.bind] at hok
        exact ⟨cond, st1, st2, rfl, h1, h2, ((Except.ok.injEq _ _).mp hok).symm⟩

theorem visitStmt_while_shape (test : Expr) (body : List Stmt) (st st' : BState)
    (hok : visitStmt (.whileStmt test body) st = .ok st') :
    ∃ cond st1,
      parseChunk test = .ok cond ∧
      visitList body (whileSetup cond st) = .ok st1 ∧
      st' = whileClose st1 st.arena.length (st.arena.length + 1) := by
  simp only [visitStmt] at hok
  cases hp : parseChunk test with
  | error e =>
    rw [hp] at hok
    simp [Bind.bind, Except.bind] at hok
  | ok cond =>
    rw [hp] at hok
    simp only [Bind.bind, Except.bind] at hok
    cases h1 : visitList body (whileSetup cond st) with
    | error e =>
      rw [h1] at hok
      simp [Except.bind] at hok
    | ok st1 =>
      rw [h1] at hok
      simp only [Except.bind] at hok
      exact ⟨cond, st1, rfl, h1, ((Except.ok.injEq _ _).mp hok).symm⟩

theorem visitList_nil_shape (st st' : BState) (hok : visitList [] st = .ok st') :
    st' = st := by
  simp only [visitList] at hok
  exact ((Except.ok.injEq _ _).mp hok).symm

theorem visitList_cons_shape (s : Stmt) (ss : List Stmt) (st st' : BState)
    (hok : visitList (s :: ss) st = .ok st') :
    ∃ st1, visitStmt s st = .ok st1 ∧ visitList ss st1 = .ok st' := by
  simp only [visitList] at hok
  cases h1 : visitStmt s st with
  | error e =>
    rw [h1] at hok
    simp [Bind.bind, Except.bind] at hok
  | ok st1 =>
    rw [h1] at hok
    simp only [Bind.bind, Except.bind] at hok
    exact ⟨st1, rfl, hok⟩

/-! ## Composite `BuildOk` lemmas for the branching statements -/

theorem buildOk_if (cond : String) (st st1 st2 : BState)
    (B1 : BuildOk (ifSetup cond st) st1)
    (B2 : BuildOk (ifElseSetup st1 st.arena.length) st2) :
    BuildOk st (ifJoin st2 st1.currentParent) := by
  obtain ⟨l1, c1, k1, u1⟩ := B1
  obtain ⟨l2, c2, k2, u2⟩ := B2
  rw [ifSetup_length] at l1
  rw [ifElseSetup_length] at l2
  have hA : (ifSetup cond st).currentParent < (ifSetup cond st).arena.length := by
    rw [ifSetup_length, ifSetup_cursor]
    omega
  have hB : (ifElseSetup st1 st.arena.length).currentParent <
      (ifElseSetup st1 st.arena.length).arena.length := by
    rw [ifElseSetup_length, ifElseSetup_cursor]
    omega
  obtain ⟨hc1v, hc1⟩ := c1 hA
  obtain ⟨hc2v, hc2⟩ := c2 hB
  rw [ifSetup_cursor, ifSetup_length] at hc1
  rw [ifElseSetup_cursor, ifElseSetup_length] at hc2
  have hcur1 : st.arena.length + 1 ≤ st1.currentParent := by
    rcases hc1 with h | h <;> omega
  have hcur2 : st.arena.length + 2 ≤ st2.currentParent := by
    rcases hc2 with h | h <;> omega
  have hc1lt : st1.currentParent < st1.arena.length := hc1v
  have hc2lt : st2.currentParent < st2.arena.length := hc2v
  refine ⟨?_, ?_, ?_, ?_⟩
  · rw [ifJoin_length]
    omega
  · intro _
    rw [ifJoin_length, ifJoin_cursor]
    exact ⟨by omega, Or.inr (by omega)⟩
  · intro i hi
    rw [ifJoin_kind _ _ _ (by omega), k2 i (by rw [ifElseSetup_length]; omega),
      ifElseSetup_kind _ _ _ (by omega), k1 i (by rw [ifSetup_length]; omega),
      ifSetup_kind _ _ _ hi]
  · intro hv i hi hne
    rw [ifJoin_untouched _ _ _ (by omega) (by omega) (by omega),
      u2 hB i (by rw [ifElseSetup_length]; omega) (by rw [ifElseSetup_cursor]; omega),
      ifElseSetup_untouched _ _ _ (by omega) (by omega),
      u1 hA i (by rw [ifSetup_length]; omega) (by rw [ifSetup_cursor]; omega),
      ifSetup_untouched _ _ _ hi hne]

theorem buildOk_while (cond : String) (st st1 : BState)
    (B1 : BuildOk (whileSetup cond st) st1) :
    BuildOk st (whileClose st1 st.arena.length (st.arena.length + 1)) := by
  obtain ⟨l1, c1, k1, u1⟩ := B1
  rw [whileSetup_length] at l1
  have hA : (whileSetup cond st).currentParent < (whileSetup cond st).arena.length := by
    rw [whileSetup_length, whileSetup_cursor]
    omega
  obtain ⟨hc1v, hc1⟩ := c1 hA
  rw [whileSetup_cursor, whileSetup_length] at hc1
  have hcur1 : st.arena.length + 2 ≤ st1.currentParent := by
    rcases hc1 with h | h <;> omega
  refine ⟨?_, ?_, ?_, ?_⟩
  · rw [whileClose_length]
    omega
  · intro _
    rw [whileClose_length, whileClose_cursor]
    exact ⟨by omega, Or.inr (by omega)⟩
  · intro i hi
    rw [whileClose_kind _ _ _ _ (by omega), k1 i (by rw [whileSetup_length]; omega),
      whileSetup_kind _ _ _ hi]
  · intro hv i hi hne
    rw [whileClose_untouched _ _ _ _ (by omega) (by omega) (by omega),
      u1 hA i (by rw [whileSetup_length]; omega) (by rw [whileSetup_cursor]; omega),
      whileSetup_untouched _ _ _ hi hne]

/-! ## The builder facts, by strong induction on statement size -/

theorem sizeOf_stmt_head (s : Stmt) (ss : List Stmt) : sizeOf s < sizeOf (s :: ss) := by
  simp only [List.cons.sizeOf_spec]
  omega

theorem sizeOf_stmt_tail (s : Stmt) (ss : List Stmt) : sizeOf ss < sizeOf (s :: ss) := by
  simp only [List.cons.sizeOf_spec]
  omega

theorem visit_facts (n : Nat) :
    (∀ s st st', sizeOf s ≤ n → visitStmt s st = .ok st' → BuildOk st st') ∧
    (∀ ss st st', sizeOf ss ≤ n → visitList ss st = .ok st' → BuildOk st st') := by
  induction n using Nat.strong_induction_on with
  | _ n ih =>
    constructor
    · intro s st st' hsz hok
      cases s with
      | assign target value =>
        obtain ⟨m, rfl⟩ := visitStmt_assign_shape target value st st' hok
        exact buildOk_appendNode st m
      | augAssign target op value =>
        obtain ⟨m, rfl⟩ := visitStmt_augAssign_shape target op value st st' hok
        exact buildOk_appendNode st m
      | exprStmt value l c =>
        obtain ⟨m, rfl⟩ := visitStmt_exprStmt_shape value l c st st' hok
        exact buildOk_appendNode st m
      | importFrom =>
        rw [visitStmt_importFrom_shape st st' hok]
        exact buildOk_refl st
      | unsupported l c =>
        simp only [visitStmt] at hok
        exact Except.noConfusion hok
      | ifStmt test body orelse =>
        obtain ⟨cond, st1, st2, hp, h1, h2, rfl⟩ :=
          visitStmt_if_shape test body orelse st st' hok
        have hszb : sizeOf body < n :=
          lt_of_lt_of_le (by simp only [Stmt.ifStmt.sizeOf_spec]; omega) hsz
        have hszo : sizeOf orelse < n :=
          lt_of_lt_of_le (by simp only [Stmt.ifStmt.sizeOf_spec]; omega) hsz
        have B1 := (ih (sizeOf body) hszb).2 body _ _ le_rfl h1
        have B2 := (ih (sizeOf orelse) hszo).2 orelse _ _ le_rfl h2
        exact buildOk_if cond st st1 st2 B1 B2
      | whileStmt test body =>
        obtain ⟨cond, st1, hp, h1, rfl⟩ := visitStmt_while_shape test body st st' hok
        have hszb : sizeOf body < n :=
          lt_of_lt_of_le (by simp only [Stmt.whileStmt.sizeOf_spec]; omega) hsz
        have B1 := (ih (sizeOf body) hszb).2 body _ _ le_rfl h1
        exact buildOk_while cond st st1 B1
    · intro ss st st' hsz hok
      cases ss with
      | nil =>
        rw [visitList_nil_shape st st' hok]
        exact buildOk_refl st
      | cons s rest =>
        obtain ⟨st1, h1, h2⟩ := visitList_cons_shape s rest st st' hok
        have hs : sizeOf s < n := lt_of_lt_of_le (sizeOf_stmt_head s rest) hsz
        have hr : sizeOf rest < n := lt_of_lt_of_le (sizeOf_stmt_tail s rest) hsz
        exact buildOk_trans
          ((ih (sizeOf s) hs).1 s st st1 le_rfl h1)
          ((ih (sizeOf rest) hr).2 rest st1 st' le_rfl h2)

/-- `BuildOk` holds across any successful statement-list build. -/
theorem visitList_buildOk (ss : List Stmt) (st st' : BState)
    (hok : visitList ss st = .ok st') : BuildOk st st' :=
  (visit_facts (sizeOf ss)).2 ss st st' le_rfl hok

theorem singleChildOf_congr {a b : Arena} {i : Nat}
    (h : getNode a i = getNode b i) : singleChildOf a i = singleChildOf b i := by
  unfold singleChildOf
  rw [h]

theorem branchChildOf_congr {a b : Arena} {i : Nat} {lbl : Label}
    (h : getNode a i = getNode b i) : branchChildOf a i lbl = branchChildOf b i lbl := by
  unfold branchChildOf
  rw [h]

theorem kindOf_congr {a b : Arena} {i : Nat}
    (h : getNode a i = getNode b i) : kindOf a i = kindOf b i := by
  unfold kindOf
  rw [h]

/-! ## C1: the `visit_If` join step -/

/-- The join behaviour `visit_If` realises: the two branch builds
succeed from the two `DummyMiddle` cursors, and the join step allocates
exactly one node — a `DummyConjunction` — makes both end-of-branch
cursors' children reference it, and leaves the insertion cursor on it. -/
def IfJoinSpec (test : Expr) (body orelse : List Stmt) (st st' : BState) : Prop :=
  ∃ cond st1 st2,
    parseChunk test = .ok cond ∧
    visitList body (ifSetup cond st) = .ok st1 ∧
    visitList orelse (ifElseSetup st1 st.arena.length) = .ok st2 ∧
    st' = ifJoin st2 st1.currentParent ∧
    st'.arena.length = st2.arena.length + 1 ∧
    kindOf st'.arena st2.arena.length = some .dummyConjunction ∧
    singleChildOf st'.arena st1.currentParent = some (some st2.arena.length) ∧
    singleChildOf st'.arena st2.currentParent = some (some st2.arena.length) ∧
    st'.currentParent = st2.arena.length

/-- C1: for every `if` statement the builder processes successfully, the
join step allocates exactly one `DummyConjunction` node; after both
bodies are built, the end-of-then cursor's child and the end-of-else
cursor's child both reference that same join node, and the insertion
cursor is left at the join — for all body lengths, including empty
bodies, where the branch's `DummyMiddle` is the cursor that forwards
directly to the join. -/
theorem c1_if_single_join (test : Expr) (body orelse : List Stmt) (st st' : BState)
    (hok : visitStmt (.ifStmt test body orelse) st = .ok st') :
    IfJoinSpec test body orelse st st' := by
  obtain ⟨cond, st1, st2, hp, h1, h2, hst⟩ := visitStmt_if_shape test body orelse st st' hok
  have B1 := visitList_buildOk body _ _ h1
  have B2 := visitList_buildOk orelse _ _ h2
  have hA : (ifSetup cond st).currentParent < (ifSetup cond st).arena.length := by
    rw [ifSetup_length, ifSetup_cursor]
    omega
  have hB : (ifElseSetup st1 st.arena.length).currentParent <
      (ifElseSetup st1 st.arena.length).arena.length := by
    rw [ifElseSetup_length, ifElseSetup_cursor]
    omega
  have hc1v : st1.currentParent < st1.arena.length := (B1.2.1 hA).1
  have hc2v : st2.currentParent < st2.arena.length := (B2.2.1 hB).1
  have hlen2 : st1.arena.length + 1 ≤ st2.arena.length := by
    have := B2.1
    rw [ifElseSetup_length] at this
    exact this
  have hendbody : st1.currentParent < st2.arena.length := by omega
  refine ⟨cond, st1, st2, hp, h1, h2, hst, ?_, ?_, ?_, ?_, ?_⟩
  · rw [hst, ifJoin_length]
  · rw [hst]
    exact ifJoin_kind_endcap st2 st1.currentParent
  · rw [hst]
    exact ifJoin_child_endbody st2 st1.currentParent hendbody
  · rw [hst]
    exact ifJoin_child_cursor st2 st1.currentParent hc2v
  · rw [hst, ifJoin_cursor]

/-- The state built by `visit_If` for `if x:` with empty branches. -/
def c1ExampleState : BState :=
  { arena := [
      { kind := .start, child := .single (some 1), index := none },
      { kind := .conditional "x", child := .branch (some 3) (some 2), index := none },
      { kind := .dummyMiddle, child := .single (some 4), index := none },
      { kind := .dummyMiddle, child := .single (some 4), index := none },
      { kind := .dummyConjunction, child := .single none, index := none }],
    currentParent := 4 }

theorem c1_if_single_join_witness :
    visitStmt (.ifStmt (.name "x") [] []) initState = .ok c1ExampleState ∧
    IfJoinSpec (.name "x") [] [] initState c1ExampleState :=
  ⟨rfl, c1_if_single_join (.name "x") [] [] initState c1ExampleState rfl⟩

/-! ## C2: the `visit_While` back-edge -/

theorem whileSetup_get_cond (cond : String) (st : BState) :
    getNode (whileSetup cond st).arena (st.arena.length + 1) =
      some { kind := .conditional cond,
             child := .branch none (some (st.arena.length + 2)),
             index := none } := by
  show getNode (setBranchChild ((appendNode (appendNode st _) _).arena ++ [_])
    (appendNode (appendNode st _) _).currentParent .yes
    (some (appendNode (appendNode st _) _).arena.length)) _ = _
  have hcur : (appendNode (appendNode st (mkNode .dummyConjunction))
      (mkNode (.conditional cond))).currentParent = st.arena.length + 1 := by
    rw [appendNode_cursor, appendNode_length]
  have hlen : (appendNode (appendNode st (mkNode .dummyConjunction))
      (mkNode (.conditional cond))).arena.length = st.arena.length + 2 := by
    rw [appendNode_length, appendNode_length]
  rw [hcur, hlen]
  rw [setBranchChild, getNode_modifyNode, if_pos rfl]
  have hget : getNode ((appendNode (appendNode st (mkNode .dummyConjunction))
      (mkNode (.conditional cond))).arena ++ [mkNode .dummyMiddle])
      (st.arena.length + 1) = some (mkNode (.conditional cond)) := by
    rw [getNode_append_lt _ _ _ (by rw [hlen]; omega)]
    show getNode (setSingleChild ((appendNode st _).arena ++ [_])
      (appendNode st _).currentParent _) _ = _
    rw [getNode_setSingleChild_ne _ _ _ _ (by rw [appendNode_cursor]; omega)]
    have : (appendNode st (mkNode .dummyConjunction)).arena.length = st.arena.length + 1 :=
      appendNode_length st _
    rw [← this, getNode_append_self]
  rw [hget]
  rfl

theorem whileClose_child_cursor (st1 : BState) (topId condId : Nat)
    (h : st1.currentParent < st1.arena.length) (hne : st1.currentParent ≠ condId) :
    singleChildOf (whileClose st1 topId condId).arena st1.currentParent =
      some (some topId) := by
  show singleChildOf (setBranchChild (setSingleChild st1.arena st1.currentParent _ ++ [_])
    condId _ _) st1.currentParent = _
  have hg : getNode (setBranchChild (setSingleChild st1.arena st1.currentParent (some topId)
      ++ [mkNode .dummyMiddle]) condId .no
      (some (setSingleChild st1.arena st1.currentParent (some topId)).length))
      st1.currentParent =
      getNode (setSingleChild st1.arena st1.currentParent (some topId)) st1.currentParent := by
    rw [getNode_setBranchChild_ne _ _ _ _ _ hne,
      getNode_append_lt _ _ _ (by rw [length_setSingleChild]; exact h)]
  rw [singleChildOf_congr hg, singleChildOf_setSingleChild_self _ _ _ h]

theorem whileClose_kind_noId (st1 : BState) (topId condId : Nat) :
    kindOf (whileClose st1 topId condId).arena st1.arena.length = some .dummyMiddle := by
  show kindOf (setBranchChild (setSingleChild st1.arena st1.currentParent _ ++ [_])
    condId _ _) st1.arena.length = _
  rw [kindOf_setBranchChild, kindOf]
  have : (setSingleChild st1.arena st1.currentParent (some topId)).length
      = st1.arena.length := length_setSingleChild _ _ _
  rw [← this, getNode_append_self]
  rfl

theorem whileClose_branchChild (st1 : BState) (topId condId : Nat) (n : Node)
    (hne : condId ≠ st1.currentParent) (hc : condId < st1.arena.length)
    (hn : getNode st1.arena condId = some n) (x y : Option Nat)
    (hch : n.child = .branch x y) :
    branchChildOf (whileClose st1 topId condId).arena condId .no =
      some (some st1.arena.length) := by
  obtain ⟨nk, nch, nidx⟩ := n
  simp only at hch
  subst hch
  show branchChildOf (setBranchChild (setSingleChild st1.arena st1.currentParent _ ++ [_])
    condId _ _) condId .no = _
  have hg : getNode (setSingleChild st1.arena st1.currentParent (some topId)
      ++ [mkNode .dummyMiddle]) condId =
      some { kind := nk, child := .branch x y, index := nidx } := by
    rw [getNode_append_lt _ _ _ (by rw [length_setSingleChild]; exact hc),
      getNode_setSingleChild_ne _ _ _ _ hne, hn]
  rw [branchChildOf, setBranchChild, getNode_modifyNode, if_pos rfl, hg]
  have hlen : (setSingleChild st1.arena st1.currentParent (some topId)).length
      = st1.arena.length := length_setSingleChild _ _ _
  simp [hlen]

/-- The back-edge behaviour `visit_While` realises: after the loop body
is built, the body-end cursor's child is set back to the loop-top
`DummyConjunction` (allocated before the conditional; no node is
allocated for the back-edge), and the cursor moves to the one node the
closing step does allocate: a fresh `DummyMiddle` installed as the
conditional's `No` child. -/
def WhileBackedgeSpec (test : Expr) (body : List Stmt) (st st' : BState) : Prop :=
  ∃ cond st1,
    parseChunk test = .ok cond ∧
    visitList body (whileSetup cond st) = .ok st1 ∧
    st' = whileClose st1 st.arena.length (st.arena.length + 1) ∧
    kindOf st'.arena st.arena.length = some .dummyConjunction ∧
    kindOf st'.arena (st.arena.length + 1) = some (.conditional cond) ∧
    singleChildOf st'.arena st1.currentParent = some (some st.arena.length) ∧
    st'.arena.length = st1.arena.length + 1 ∧
    st'.currentParent = st1.arena.length ∧
    kindOf st'.arena st1.arena.length = some .dummyMiddle ∧
    branchChildOf st'.arena (st.arena.length + 1) .no = some (some st1.arena.length)

/-- C2: for every `while` statement the builder processes successfully,
after building the loop body the body-end cursor's child is set to the
very same `DummyConjunction` node appended as the loop header before the
conditional (re-referencing the existing node; the closing step's only
allocation is the `No`-side `DummyMiddle`, none for the back-edge), and
the cursor is moved to that fresh `DummyMiddle` under the conditional's
`No` child. -/
theorem c2_while_backedge (test : Expr) (body : List Stmt) (st st' : BState)
    (hok : visitStmt (.whileStmt test body) st = .ok st') :
    WhileBackedgeSpec test body st st' := by
  obtain ⟨cond, st1, hp, h1, hst⟩ := visitStmt_while_shape test body st st' hok
  have B1 := visitList_buildOk body _ _ h1
  have hA : (whileSetup cond st).currentParent < (whileSetup cond st).arena.length := by
    rw [whileSetup_length, whileSetup_cursor]
    omega
  have hc1v : st1.currentParent < st1.arena.length := (B1.2.1 hA).1
  have hlen1 : st.arena.length + 3 ≤ st1.arena.length := by
    have := B1.1
    rw [whileSetup_length] at this
    exact this
  have hcursor : st1.currentParent = (whileSetup cond st).currentParent ∨
      (whileSetup cond st).arena.length ≤ st1.currentParent := (B1.2.1 hA).2
  rw [whileSetup_cursor, whileSetup_length] at hcursor
  have hcne : st1.currentParent ≠ st.arena.length + 1 := by
    rcases hcursor with h | h <;> omega
  have hkinds : ∀ i, i < (whileSetup cond st).arena.length →
      kindOf st1.arena i = kindOf (whileSetup cond st).arena i := B1.2.2.1
  have huntouched := B1.2.2.2 hA
  refine ⟨cond, st1, hp, h1, hst, ?_, ?_, ?_, ?_, ?_, ?_, ?_⟩
  · rw [hst, whileClose_kind _ _ _ _ (by omega),
      hkinds _ (by rw [whileSetup_length]; omega), whileSetup_kind_top]
  · rw [hst, whileClose_kind _ _ _ _ (by omega),
      hkinds _ (by rw [whileSetup_length]; omega), whileSetup_kind_cond]
  · rw [hst]
    exact whileClose_child_cursor st1 _ _ hc1v hcne
  · rw [hst, whileClose_length]
  · rw [hst, whileClose_cursor]
  · rw [hst]
    exact whileClose_kind_noId st1 _ _
  · rw [hst]
    have hgcond : getNode st1.arena (st.arena.length + 1) =
        some { kind := .conditional cond,
               child := .branch none (some (st.arena.length + 2)),
               index := none } := by
      rw [huntouched _ (by rw [whileSetup_length]; omega)
        (by rw [whileSetup_cursor]; omega), whileSetup_get_cond]
    exact whileClose_branchChild st1 _ _ _ (Ne.symm hcne) (by omega) hgcond _ _ rfl

/-- The state built by `visit_While` for `while x: x -= 1`. -/
def c2ExampleState : BState :=
  { arena := [
      { kind := .start, child := .single (some 1), index := none },
      { kind := .dummyConjunction, child := .single (some 2), index := none },
      { kind := .conditional "x", child := .branch (some 5) (some 3), index := none },
      { kind := .dummyMiddle, child := .single (some 4), index := none },
      { kind := .process "x = x - 1", child := .single (some 1), index := none },
      { kind := .dummyMiddle, child := .single none, index := none }],
    currentParent := 5 }

theorem c2_while_backedge_witness :
    visitStmt (.whileStmt (.name "x") [.augAssign "x" .sub (.num 1)]) initState =
      .ok c2ExampleState ∧
    WhileBackedgeSpec (.name "x") [.augAssign "x" .sub (.num 1)] initState c2ExampleState :=
  ⟨rfl,
    c2_while_backedge (.name "x") [.augAssign "x" .sub (.num 1)] initState c2ExampleState rfl⟩

/-! ## C7 / C10: the `visit_Assign` input-detection heuristic -/

/-- Whether `visit_Assign` routes a right-hand side to an `InputNode`:
a call whose callee is `input`, or a call whose *first* argument is a
call whose callee is `input` (the source checks `args[0]` only, not a
sole argument). -/
def isInputRhs : Expr → Bool
  | .call f args => isInputCall f args
  | _ => false

/-- What `visit_Assign` emits on success: an `InputNode` named after the
target exactly when the input heuristic fires, otherwise a
`VariableAssignmentNode` of the formatted right-hand side. -/
def AssignDispatchSpec (target : String) (value : Expr) (st st' : BState) : Prop :=
  (isInputRhs value = true → st' = appendNode st (mkNode (.input target))) ∧
  (isInputRhs value = false →
    ∃ rhs, parseChunk value = .ok rhs ∧ st' = appendNode st (mkVarAssign target rhs))

theorem visitStmt_assign_dispatch (target : String) (value : Expr) (st st' : BState)
    (hok : visitStmt (.assign target value) st = .ok st') :
    AssignDispatchSpec target value st st' := by
  have fallback : ∀ v : Expr,
      (do
        let rhs ← parseChunk v
        Except.ok (appendNode st (mkVarAssign target rhs))) = Except.ok st' →
      ∃ rhs, parseChunk v = .ok rhs ∧ st' = appendNode st (mkVarAssign target rhs) := by
    intro v hv
    cases hp : parseChunk v with
    | error e =>
      rw [hp] at hv
      simp [Bind.bind, Except.bind] at hv
    | ok rhs =>
      rw [hp] at hv
      simp only [Bind.bind, Except.bind] at hv
      exact ⟨rhs, rfl, ((Except.ok.injEq _ _).mp hv).symm⟩
  cases value with
  | call f args =>
    simp only [visitStmt] at hok
    by_cases hf : (f == "input") = true
    · rw [if_pos hf] at hok
      constructor
      · intro _
        exact ((Except.ok.injEq _ _).mp hok).symm
      · intro hfalse
        have htrue : isInputRhs (.call f args) = true := by
          simp [isInputRhs, isInputCall, hf]
        rw [htrue] at hfalse
        exact Bool.noConfusion hfalse
    · have hf' : (f == "input") = false := by
        cases hb : (f == "input") with
        | true => exact absurd hb hf
        | false => rfl
      rw [if_neg hf] at hok
      cases args with
      | nil => exact absurd hok (by simp)
      | cons a rest =>
        dsimp only at hok
        split at hok
        next hmatch =>
          constructor
          · intro _
            exact ((Except.ok.injEq _ _).mp hok).symm
          · intro hfalse
            cases a with
            | call g gargs =>
              have hm : (g == "input") = true := hmatch
              simp [isInputRhs, isInputCall, hf', hm] at hfalse
            | binOp l op r => exact Bool.noConfusion hmatch
            | num v => exact Bool.noConfusion hmatch
            | name id => exact Bool.noConfusion hmatch
            | str s => exact Bool.noConfusion hmatch
            | boolOp op values => exact Bool.noConfusion hmatch
            | compare l ops cs => exact Bool.noConfusion hmatch
            | unsupported x y => exact Bool.noConfusion hmatch
        next hmatch =>
          constructor
          · intro htrue
            cases a with
            | call g gargs =>
              have hm : (g == "input") = true := by
                simpa [isInputRhs, isInputCall, hf'] using htrue
              exact absurd hm hmatch
            | binOp l op r => simp [isInputRhs, isInputCall, hf'] at htrue
            | num v => simp [isInputRhs, isInputCall, hf'] at htrue
            | name id => simp [isInputRhs, isInputCall, hf'] at htrue
            | str s => simp [isInputRhs, isInputCall, hf'] at htrue
            | boolOp op values => simp [isInputRhs, isInputCall, hf'] at htrue
            | compare l ops cs => simp [isInputRhs, isInputCall, hf'] at htrue
            | unsupported x y => simp [isInputRhs, isInputCall, hf'] at htrue
          · intro _
            exact fallback _ hok
  | binOp l op r =>
    exact ⟨by intro h; exact absurd h (by simp [isInputRhs]),
      fun _ => fallback _ (by simp only [visitStmt] at hok; exact hok)⟩
  | num v =>
    exact ⟨by intro h; exact absurd h (by simp [isInputRhs]),
      fun _ => fallback _ (by simp only [visitStmt] at hok; exact hok)⟩
  | name id =>
    exact ⟨by intro h; exact absurd h (by simp [isInputRhs]),
      fun _ => fallback _ (by simp only [visitStmt] at hok; exact hok)⟩
  | str s =>
    exact ⟨by intro h; exact absurd h (by simp [isInputRhs]),
      fun _ => fallback _ (by simp only [visitStmt] at hok; exact hok)⟩
  | boolOp op values =>
    exact ⟨by intro h; exact absurd h (by simp [isInputRhs]),
      fun _ => fallback _ (by simp only [visitStmt] at hok; exact hok)⟩
  | compare l ops cs =>
    exact ⟨by intro h; exact absurd h (by simp [isInputRhs]),
      fun _ => fallback _ (by simp only [visitStmt] at hok; exact hok)⟩
  | unsupported a b =>
    exact ⟨by intro h; exact absurd h (by simp [isInputRhs]),
      fun _ => fallback _ (by simp only [visitStmt] at hok; exact hok)⟩

/-- C7 (amended): for every assignment that builds successfully, if the
right-hand side is a call to `input`, or a call whose *first* argument
is a call to `input`, an Input node named after the target is emitted;
for every other assignment the right-hand side is formatted and a
VariableAssignment node is emitted. -/
theorem c7_input_detection (target : String) (value : Expr) (st st' : BState)
    (hok : visitStmt (.assign target value) st = .ok st') :
    AssignDispatchSpec target value st st' :=
  visitStmt_assign_dispatch target value st st' hok

/-- C7 counterexample: `x = foo(input(), 3)` — the `input()` call is the
first argument of `foo` but not its sole argument, yet `visit_Assign`
emits an Input node, not the VariableAssignment the claim prescribes for
this shape. -/
theorem c7_first_arg_counterexample :
    visitStmt (.assign "x" (.call "foo" [.call "input" [], .num 3])) initState =
      .ok (appendNode initState (mkNode (.input "x"))) ∧
    parseChunk (.call "foo" [.call "input" [], .num 3]) = .ok "foo(input(), 3)" ∧
    (mkNode (.input "x")).kind ≠ (mkVarAssign "x" "foo(input(), 3)").kind :=
  ⟨rfl, rfl, by decide⟩

theorem c7_input_detection_witness :
    visitStmt (.assign "y" (.call "int" [.call "input" []])) initState =
      .ok (appendNode initState (mkNode (.input "y"))) ∧
    AssignDispatchSpec "y" (.call "int" [.call "input" []]) initState
      (appendNode initState (mkNode (.input "y"))) :=
  ⟨rfl, c7_input_detection "y" (.call "int" [.call "input" []]) initState
    (appendNode initState (mkNode (.input "y"))) rfl⟩

/-- C10: an assignment whose right-hand side calls any function other
than `input` with an empty argument list makes `visit_Assign` evaluate
`node.value.args[0]`, raising `IndexError` — no VariableAssignment or
Process node, and no unsupported-construct report. -/
theorem c10_empty_args_index_error (target f : String) (st : BState)
    (hf : f ≠ "input") :
    visitStmt (.assign target (.call f [])) st = .error .indexError ∧
    BuildError.indexError.pos = none := by
  constructor
  · simp only [visitStmt]
    rw [if_neg (by simpa using hf)]
  · rfl

theorem c10_empty_args_index_error_witness :
    ("foo" : String) ≠ "input" ∧
    (visitStmt (.assign "x" (.call "foo" [])) initState = .error .indexError ∧
      BuildError.indexError.pos = none) :=
  ⟨by decide, c10_empty_args_index_error "x" "foo" initState (by decide)⟩

/-! ## C3 / C4: divergence of `deleteExtraneousNodes`

On `x = input()` followed by `while x: from a import b` the loop body
contributes no node, so the `Yes` path of the conditional reaches the
loop-top `DummyConjunction` whose child is the conditional itself.  The
simplifier hops the placeholders until the conditional's `Yes` entry
points back at the conditional, and then recurses on the conditional
forever: its `index` guard is only written *after* the branch loop, so
the entry check never fires.  In Python this is an uncaught
`RecursionError`; in the fuel embedding, `simplifyF` returns `none` for
every amount of fuel. -/

def c3Program : List Stmt :=
  [.assign "x" (.call "input" []),
   .whileStmt (.name "x") [.importFrom]]

/-- The graph `buildModule c3Program` produces. -/
def c3State : BState :=
  { arena := [
      { kind := .start, child := .single (some 1), index := none },
      { kind := .input "x", child := .single (some 2), index := none },
      { kind := .dummyConjunction, child := .single (some 3), index := none },
      { kind := .conditional "x", child := .branch (some 5) (some 4), index := none },
      { kind := .dummyMiddle, child := .single (some 2), index := none },
      { kind := .dummyMiddle, child := .single (some 6), index := none },
      { kind := .stop, child := .single none, index := none }],
    currentParent := 6 }

/-- State when the simplifier first reaches the conditional (node 3):
start and input are marked, input's child hops over the loop top. -/
def c3ArenaB : Arena :=
  [{ kind := .start, child := .single (some 1), index := some 0 },
   { kind := .input "x", child := .single (some 3), index := some 0 },
   { kind := .dummyConjunction, child := .single (some 3), index := none },
   { kind := .conditional "x", child := .branch (some 5) (some 4), index := none },
   { kind := .dummyMiddle, child := .single (some 2), index := none },
   { kind := .dummyMiddle, child := .single (some 6), index := none },
   { kind := .stop, child := .single none, index := none }]

/-- After the `No` hop: the conditional's `No` child points at the End
node. -/
def c3ArenaC : Arena :=
  [{ kind := .start, child := .single (some 1), index := some 0 },
   { kind := .input "x", child := .single (some 3), index := some 0 },
   { kind := .dummyConjunction, child := .single (some 3), index := none },
   { kind := .conditional "x", child := .branch (some 6) (some 4), index := none },
   { kind := .dummyMiddle, child := .single (some 2), index := none },
   { kind := .dummyMiddle, child := .single (some 6), index := none },
   { kind := .stop, child := .single none, index := none }]

/-- After the first `Yes` hop: the conditional's `Yes` child points at
the loop-top `DummyConjunction`. -/
def c3ArenaD : Arena :=
  [{ kind := .start, child := .single (some 1), index := some 0 },
   { kind := .input "x", child := .single (some 3), index := some 0 },
   { kind := .dummyConjunction, child := .single (some 3), index := none },
   { kind := .conditional "x", child := .branch (some 6) (some 2), index := none },
   { kind := .dummyMiddle, child := .single (some 2), index := none },
   { kind := .dummyMiddle, child := .single (some 6), index := none },
   { kind := .stop, child := .single none, index := none }]

/-- After the second `Yes` hop: the conditional's `Yes` child is the
conditional itself — a self-loop of a non-placeholder node whose index
is never written. -/
def c3ArenaE : Arena :=
  [{ kind := .start, child := .single (some 1), index := some 0 },
   { kind := .input "x", child := .single (some 3), index := some 0 },
   { kind := .dummyConjunction, child := .single (some 3), index := none },
   { kind := .conditional "x", child := .branch (some 6) (some 3), index := none },
   { kind := .dummyMiddle, child := .single (some 2), index := none },
   { kind := .dummyMiddle, child := .single (some 6), index := none },
   { kind := .stop, child := .single none, index := none }]

theorem c3_arenaE_diverges : ∀ n, simplifyF n c3ArenaE 3 = none := by
  intro n
  induction n with
  | zero => rfl
  | succ n ih =>
    cases n with
    | zero => rfl
    | succ m =>
      have e : simplifyF (m + 1 + 1) c3ArenaE 3 =
          (simplifyF (m + 1) c3ArenaE 3).bind
            (fun a2 => some (setIndex a2 3 (some 0))) := rfl
      rw [e, ih]
      rfl

theorem c3_arenaD_diverges : ∀ n, simplifyF n c3ArenaD 3 = none := by
  intro n
  cases n with
  | zero => rfl
  | succ n =>
    cases n with
    | zero => rfl
    | succ m =>
      have e : simplifyF (m + 1 + 1) c3ArenaD 3 =
          (simplifyF (m + 1) c3ArenaE 3).bind
            (fun a2 => some (setIndex a2 3 (some 0))) := rfl
      rw [e, c3_arenaE_diverges (m + 1)]
      rfl

theorem c3_arenaC_diverges : ∀ n, simplifyF n c3ArenaC 3 = none := by
  intro n
  cases n with
  | zero => rfl
  | succ n =>
    cases n with
    | zero => rfl
    | succ m =>
      have e : simplifyF (m + 1 + 1) c3ArenaC 3 =
          (simplifyF (m + 1) c3ArenaD 3).bind
            (fun a2 => some (setIndex a2 3 (some 0))) := rfl
      rw [e, c3_arenaD_diverges (m + 1)]
      rfl

theorem c3_arenaB_diverges : ∀ n, simplifyF n c3ArenaB 3 = none := by
  intro n
  cases n with
  | zero => rfl
  | succ n =>
    have e : simplifyF (n + 1) c3ArenaB 3 =
        (simplifyF n c3ArenaC 3).bind (fun a1 =>
          (simplifyKey (simplifyF n) a1 3 .yes).bind
            (fun a2 => some (setIndex a2 3 (some 0)))) := rfl
    rw [e, c3_arenaC_diverges n]
    rfl

theorem c3_run_diverges : ∀ n, simplifyF n c3State.arena 0 = none := by
  intro n
  cases n with
  | zero => rfl
  | succ n =>
    cases n with
    | zero => rfl
    | succ n =>
      cases n with
      | zero => rfl
      | succ m =>
        have e : simplifyF (m + 1 + 1 + 1) c3State.arena 0 =
            simplifyF m c3ArenaB 3 := rfl
        rw [e]
        exact c3_arenaB_diverges m

/-- C3: building the supported program `x = input(); while x: from
a import b` succeeds and leaves a `DummyConjunction` (node 2) reachable as
node 1's child's successor, but `deleteExtraneousNodes` started from the
Start node never completes — for every amount of fuel the run returns
`none` (in Python, unbounded recursion) — so the simplifier does not
remove the placeholders on this graph, contradicting the claimed
invariant. -/
theorem c3_simplifier_diverges :
    buildModule c3Program = .ok c3State ∧
    kindOf c3State.arena 2 = some .dummyConjunction ∧
    singleChildOf c3State.arena 1 = some (some 2) ∧
    ¬ ∃ a n, simplifyF n c3State.arena 0 = some a := by
  refine ⟨rfl, rfl, rfl, ?_⟩
  rintro ⟨a, n, h⟩
  rw [c3_run_diverges n] at h
  exact Option.noConfusion h

/-- C4 counterexample: on the same graph the whole emission pipeline of
`main` (simplify, then `start.index = 1`, then `generateGraph`) never
completes either, because its simplification phase recurses forever —
the walk's visited marker is written only after a branching node's
children are processed, so it does not bound the traversal. -/
theorem c4_simplify_nontermination :
    buildModule c3Program = .ok c3State ∧
    ¬ ∃ r n, emitAfterSimplify n c3State.arena = some r := by
  refine ⟨rfl, ?_⟩
  rintro ⟨r, n, h⟩
  rw [emitAfterSimplify, c3_run_diverges n] at h
  exact Option.noConfusion h

/-! ## Emission invariants (`generateGraph`) -/

/-- The node declarations among recorded backend calls: the declared
arena reference paired with the numeric index it is declared under. -/
def declsOf (cmds : List GCmd) : List (Nat × Int) :=
  cmds.filterMap fun c =>
    match c with
    | .node id ind _ _ => some (id, ind)
    | _ => none

theorem declsOf_append (x y : List GCmd) :
    declsOf (x ++ y) = declsOf x ++ declsOf y :=
  List.filterMap_append x y _

theorem declsOf_edge (src dst : Int) (lbl : Option String) (tp hp : String)
    (t : List GCmd) : declsOf (.edge src dst lbl tp hp :: t) = declsOf t := rfl

theorem declsOf_node (id : Nat) (ind : Int) (s : String) (sh : Option String)
    (t : List GCmd) :
    declsOf (.node id ind s sh :: t) = (id, ind) :: declsOf t := rfl

/-- Number of nodes whose `index` is falsy (unvisited). -/
def unvisitedCount (a : Arena) : Nat :=
  ((List.range a.length).filter fun j => !truthyIdx (idxAt a j)).length

/-- Child references point inside the arena, and a branching node has
both dict entries populated (an unset entry would crash the walks). -/
def Node.childOk (n : Node) (len : Nat) : Prop :=
  match n.child with
  | .single none => True
  | .single (some c) => c < len
  | .branch no yes => ∃ cn cy, no = some cn ∧ yes = some cy ∧ cn < len ∧ cy < len

def WfArena (a : Arena) : Prop :=
  ∀ j n, getNode a j = some n → n.childOk a.length

def PosArena (a : Arena) : Prop :=
  ∀ j m, idxAt a j = some m → 0 ≤ m

/-- Decidable check for `WfArena` on concrete arenas. -/
def wfB (a : Arena) : Bool :=
  a.all fun n =>
    match n.child with
    | .single none => true
    | .single (some c) => decide (c < a.length)
    | .branch (some cn) (some cy) => decide (cn < a.length) && decide (cy < a.length)
    | .branch _ _ => false

/-- Decidable check for `PosArena` on concrete arenas. -/
def posB (a : Arena) : Bool :=
  a.all fun n =>
    match n.index with
    | none => true
    | some m => decide (0 ≤ m)

theorem wfArena_of_wfB {a : Arena} (h : wfB a = true) : WfArena a := by
  intro j n hj
  have hmem : n ∈ a := List.getElem?_mem (hj : a[j]? = some n)
  have := (List.all_eq_true.mp h) n hmem
  unfold Node.childOk
  cases hc : n.child with
  | single c =>
    cases c with
    | none => trivial
    | some cc =>
      rw [hc] at this
      simpa using this
  | branch no yes =>
    rw [hc] at this
    cases no with
    | none => simp at this
    | some cn =>
      cases yes with
      | none => simp at this
      | some cy =>
        simp at this
        exact ⟨cn, cy, rfl, rfl, this.1, this.2⟩

theorem posArena_of_posB {a : Arena} (h : posB a = true) : PosArena a := by
  intro j m hj
  unfold idxAt at hj
  cases hg : getNode a j with
  | none => rw [hg] at hj; exact Option.noConfusion hj
  | some n =>
    rw [hg] at hj
    dsimp only at hj
    have hmem : n ∈ a := List.getElem?_mem (hg : a[j]? = some n)
    have := (List.all_eq_true.mp h) n hmem
    rw [hj] at this
    simpa using this

theorem idxAt_setIndex_self {a : Arena} {c : Nat} (v : Option Int)
    (h : c < a.length) : idxAt (setIndex a c v) c = v := by
  rw [idxAt, setIndex, getNode_modifyNode, if_pos rfl]
  obtain ⟨n, hn⟩ : ∃ n, getNode a c = some n := by
    cases hg : getNode a c with
    | none =>
      rw [getNode, List.getElem?_eq_getElem h] at hg
      exact Option.noConfusion hg
    | some n => exact ⟨n, rfl⟩
  rw [hn]
  rfl

theorem idxAt_setIndex_ne {a : Arena} {c : Nat} (v : Option Int) (j : Nat)
    (h : j ≠ c) : idxAt (setIndex a c v) j = idxAt a j := by
  rw [idxAt, getNode_setIndex_ne _ _ _ _ h, idxAt]

theorem child_setIndex (a : Arena) (c : Nat) (v : Option Int) (j : Nat) :
    (getNode (setIndex a c v) j).map Node.child = (getNode a j).map Node.child := by
  rw [setIndex, getNode_modifyNode]
  by_cases hji : j = c
  · subst hji
    rw [if_pos rfl]
    cases getNode a j <;> rfl
  · rw [if_neg hji]

theorem kind_setIndex (a : Arena) (c : Nat) (v : Option Int) (j : Nat) :
    (getNode (setIndex a c v) j).map Node.kind = (getNode a j).map Node.kind := by
  rw [setIndex, getNode_modifyNode]
  by_cases hji : j = c
  · subst hji
    rw [if_pos rfl]
    cases getNode a j <;> rfl
  · rw [if_neg hji]

theorem wfArena_of_child_eq {a b : Arena} (hlen : b.length = a.length)
    (hch : ∀ j, (getNode b j).map Node.child = (getNode a j).map Node.child)
    (hwf : WfArena a) : WfArena b := by
  intro j n hj
  have := hch j
  rw [hj] at this
  cases hg : getNode a j with
  | none => rw [hg] at this; exact Option.noConfusion this
  | some m =>
    rw [hg] at this
    have hc : n.child = m.child := by simpa using this
    have := hwf j m hg
    unfold Node.childOk at *
    rw [hc, hlen]
    exact this

/-- What one `generateGraph` call (or one branch iteration) guarantees,
from state `a` to state `a'` with recorded calls `cmds` and return value
`r`.  `rlo` bounds the return value from below, `dlo` the declared
indices.  Children and kinds are never mutated; a truthy index is never
overwritten; declared indices are strictly increasing, each declared
node was unvisited before and carries its declared index afterwards, and
no node is declared twice. -/
structure EmitOk (a a' : Arena) (cmds : List GCmd) (r rlo dlo : Int) : Prop where
  len : a'.length = a.length
  child_eq : ∀ j, (getNode a' j).map Node.child = (getNode a j).map Node.child
  kind_eq : ∀ j, (getNode a' j).map Node.kind = (getNode a j).map Node.kind
  keep : ∀ j m, idxAt a j = some m → m ≠ 0 → idxAt a' j = some m
  pos : ∀ j m, idxAt a' j = some m → 0 ≤ m
  ret_lo : rlo ≤ r
  ret_hi : ∀ j m, idxAt a' j = some m → m ≤ r
  mono : List.Pairwise (fun p q : Nat × Int => p.2 < q.2) (declsOf cmds)
  decl_facts : ∀ p ∈ declsOf cmds, dlo ≤ p.2 ∧ p.2 ≤ r ∧ idxAt a' p.1 = some p.2 ∧
    truthyIdx (idxAt a p.1) = false ∧ p.1 < a.length
  ids_nodup : ((declsOf cmds).map Prod.fst).Nodup

/-- The shape of the `recSpec` hypothesis threaded through the emission
proofs: what a recursive `generateGraph` call guarantees. -/
def GenSpec (rec : Arena → Nat → Option (Arena × List GCmd × Int)) : Prop :=
  ∀ a i k a' cmds r, WfArena a → PosArena a →
    idxAt a i = some k → 1 ≤ k → (∀ j m, idxAt a j = some m → m ≤ k) →
    rec a i = some (a', cmds, r) → EmitOk a a' cmds r k (k + 1)

/-- The fresh-child step shared by `genKeyFresh` and `genLinFresh`:
write index `ind` on the unvisited child `c`, recurse, and prepend the
declaration and edge. -/
theorem fresh_spec (rec : Arena → Nat → Option (Arena × List GCmd × Int))
    (recSpec : GenSpec rec) (a : Arena) (c : Nat) (ind rlo : Int)
    (t : String) (sh : Option String) (e : GCmd) (a2 : Arena)
    (cs : List GCmd) (ret : Int)
    (hwf : WfArena a) (hpos : PosArena a) (hcl : c < a.length)
    (hind : 1 ≤ ind) (hrlo : rlo ≤ ind)
    (hmax : ∀ j m, idxAt a j = some m → m < ind)
    (huntruthy : truthyIdx (idxAt a c) = false)
    (hedge : declsOf [e] = [])
    (hrec : rec (setIndex a c (some ind)) c = some (a2, cs, ret)) :
    EmitOk a a2 (.node c ind t sh :: e :: cs) (ret + 1) rlo ind ∧
    (∀ j m, idxAt a2 j = some m → m < ret + 1) ∧
    (∀ p ∈ declsOf (.node c ind t sh :: e :: cs), p.2 < ret + 1) := by
  set a1 := setIndex a c (some ind) with ha1
  have hlen1 : a1.length = a.length := length_setIndex a c _
  have hch1 : ∀ j, (getNode a1 j).map Node.child = (getNode a j).map Node.child :=
    child_setIndex a c _
  have hk1 : ∀ j, (getNode a1 j).map Node.kind = (getNode a j).map Node.kind :=
    kind_setIndex a c _
  have hidx1c : idxAt a1 c = some ind := idxAt_setIndex_self _ hcl
  have hidx1ne : ∀ j, j ≠ c → idxAt a1 j = idxAt a j := fun j h =>
    idxAt_setIndex_ne _ j h
  have hwf1 : WfArena a1 := wfArena_of_child_eq hlen1 hch1 hwf
  have hpos1 : PosArena a1 := by
    intro j m hj
    by_cases hjc : j = c
    · subst hjc
      rw [hidx1c] at hj
      injection hj with hj
      omega
    · exact hpos j m (by rw [← hidx1ne j hjc]; exact hj)
  have hmax1 : ∀ j m, idxAt a1 j = some m → m ≤ ind := by
    intro j m hj
    by_cases hjc : j = c
    · subst hjc
      rw [hidx1c] at hj
      injection hj with hj
      omega
    · rw [hidx1ne j hjc] at hj
      exact le_of_lt (hmax j m hj)
  have E := recSpec a1 c ind a2 cs ret hwf1 hpos1 hidx1c hind hmax1 hrec
  have hdecls : declsOf (GCmd.node c ind t sh :: e :: cs) = (c, ind) :: declsOf cs := by
    rw [declsOf_node]
    congr 1
    cases e with
    | node id2 ind2 t2 sh2 => exact absurd hedge (by simp [declsOf])
    | edge s d l tp hp => rfl
  have hne_c : ∀ p ∈ declsOf cs, p.1 ≠ c := by
    intro p hp hpc
    have hfacts := E.decl_facts p hp
    rw [hpc] at hfacts
    rw [hidx1c] at hfacts
    have : truthyIdx (some ind) = false := hfacts.2.2.2.1
    rw [truthyIdx] at this
    simp at this
    omega
  have hkeep2c : idxAt a2 c = some ind := E.keep c ind hidx1c (by omega)
  have hstrict2 : ∀ j m, idxAt a2 j = some m → m < ret + 1 := by
    intro j m hj
    have := E.ret_hi j m hj
    omega
  refine ⟨⟨?_, ?_, ?_, ?_, E.pos, ?_, ?_, ?_, ?_, ?_⟩, hstrict2, ?_⟩
  · rw [E.len, hlen1]
  · intro j
    rw [E.child_eq j, hch1 j]
  · intro j
    rw [E.kind_eq j, hk1 j]
  · intro j m hj hm
    by_cases hjc : j = c
    · subst hjc
      exfalso
      rw [idxAt] at *
      rw [hj] at huntruthy
      rw [truthyIdx] at huntruthy
      simp at huntruthy
      exact hm huntruthy
    · exact E.keep j m (by rw [hidx1ne j hjc]; exact hj) hm
  · have := E.ret_lo
    omega
  · intro j m hj
    have := E.ret_hi j m hj
    omega
  · rw [hdecls]
    refine List.Pairwise.cons ?_ E.mono
    intro q hq
    have := (E.decl_facts q hq).1
    omega
  · rw [hdecls]
    intro p hp
    rcases List.mem_cons.mp hp with hp | hp
    · subst hp
      exact ⟨le_refl _, by have := E.ret_lo; omega, hkeep2c, huntruthy, hcl⟩
    · obtain ⟨hdlo, hhi, hidx, htr, hlt⟩ := E.decl_facts p hp
      refine ⟨by omega, by omega, hidx, ?_, by rw [← hlen1]; exact hlt⟩
      rw [← hidx1ne p.1 (hne_c p hp)]
      exact htr
  · rw [hdecls]
    simp only [List.map_cons]
    refine List.Nodup.cons ?_ E.ids_nodup
    intro hmem
    obtain ⟨p, hp, hpfst⟩ := List.mem_map.mp hmem
    exact hne_c p hp hpfst
  · rw [hdecls]
    intro p hp
    rcases List.mem_cons.mp hp with hp | hp
    · subst hp
      have := E.ret_lo
      simp only
      omega
    · have := (E.decl_facts p hp).2.1
      omega

theorem idxAt_eq_index {a : Arena} {c : Nat} {n : Node}
    (h : getNode a c = some n) : idxAt a c = n.index := by
  unfold idxAt
  rw [h]

theorem branchChild_lt {a : Arena} {i c : Nat} {lbl : Label}
    (hwf : WfArena a) (h : branchChildOf a i lbl = some (some c)) : c < a.length := by
  unfold branchChildOf at h
  cases hg : getNode a i with
  | none => rw [hg] at h; exact Option.noConfusion h
  | some n =>
    rw [hg] at h
    obtain ⟨nk, nch, nidx⟩ := n
    have hok := hwf i _ hg
    unfold Node.childOk at hok
    cases nch with
    | single cc => exact Option.noConfusion h
    | branch no yes =>
      obtain ⟨cn, cy, hno, hyes, hlt1, hlt2⟩ := hok
      cases lbl with
      | no =>
        have h2 : no = some c := by injection h
        rw [hno] at h2
        injection h2 with h2
        omega
      | yes =>
        have h2 : yes = some c := by injection h
        rw [hyes] at h2
        injection h2 with h2
        omega

theorem singleChild_lt {a : Arena} {i c : Nat} {n : Node} (hwf : WfArena a)
    (hn : getNode a i = some n) (hch : n.child = .single (some c)) : c < a.length := by
  have hok := hwf i n hn
  unfold Node.childOk at hok
  rw [hch] at hok
  exact hok

theorem genKey_spec (rec : Arena → Nat → Option (Arena × List GCmd × Int))
    (recSpec : GenSpec rec) (a : Arena) (i : Nat) (k ind : Int) (lbl : Label)
    (a' : Arena) (cmds : List GCmd) (r : Int)
    (hwf : WfArena a) (hpos : PosArena a) (hind : 1 ≤ ind)
    (hmax : ∀ j m, idxAt a j = some m → m < ind)
    (h : genKey rec a i k ind lbl = some (a', cmds, r)) :
    EmitOk a a' cmds r ind ind ∧
    (∀ j m, idxAt a' j = some m → m < r) ∧
    (∀ p ∈ declsOf cmds, p.2 < r) := by
  unfold genKey at h
  cases hbc : branchChildOf a i lbl with
  | none => rw [hbc] at h; exact Option.noConfusion h
  | some copt =>
    rw [hbc] at h
    cases copt with
    | none => exact Option.noConfusion h
    | some c =>
      dsimp only at h
      have hcl : c < a.length := branchChild_lt hwf hbc
      cases hg : getNode a c with
      | none => rw [hg] at h; exact Option.noConfusion h
      | some childN =>
        rw [hg] at h
        dsimp only at h
        have hfresh : ∀ a2 cs ret,
            genKeyFresh rec a k ind lbl c childN = some (a2, cs, ret) →
            truthyIdx (idxAt a c) = false →
            EmitOk a a2 cs ret ind ind ∧
            (∀ j m, idxAt a2 j = some m → m < ret) ∧
            (∀ p ∈ declsOf cs, p.2 < ret) := by
          intro a2 cs ret hf huntruthy
          unfold genKeyFresh at hf
          cases hrec : rec (setIndex a c (some ind)) c with
          | none => rw [hrec] at hf; exact Option.noConfusion hf
          | some q =>
            rw [hrec] at hf
            simp only [Option.some_bind, Option.some.injEq, Prod.mk.injEq] at hf
            obtain ⟨rfl, rfl, rfl⟩ := hf
            exact fresh_spec rec recSpec a c ind ind _ _ _ q.1 q.2.1 q.2.2
              hwf hpos hcl hind (le_refl _) hmax huntruthy rfl hrec
        cases hi : childN.index with
        | some m =>
          rw [hi] at h
          dsimp only at h
          by_cases hm : (m != 0) = true
          · rw [if_pos hm] at h
            simp only [Option.some.injEq, Prod.mk.injEq] at h
            obtain ⟨rfl, rfl, rfl⟩ := h
            refine ⟨⟨rfl, fun _ => rfl, fun _ => rfl, fun _ _ hx _ => hx, hpos,
              le_refl _, fun j m2 hj => le_of_lt (hmax j m2 hj),
              by simp [declsOf], by simp [declsOf], by simp [declsOf]⟩,
              fun j m2 hj => hmax j m2 hj, by simp [declsOf]⟩
          · rw [if_neg hm] at h
            have hm0 : m = 0 := by simpa using hm
            have huntruthy : truthyIdx (idxAt a c) = false := by
              rw [idxAt_eq_index hg, hi, hm0]
              rfl
            obtain ⟨E, hs, hd⟩ := hfresh a' cmds r h huntruthy
            exact ⟨E, hs, hd⟩
        | none =>
          rw [hi] at h
          dsimp only at h
          have huntruthy : truthyIdx (idxAt a c) = false := by
            rw [idxAt_eq_index hg, hi]
            rfl
          obtain ⟨E, hs, hd⟩ := hfresh a' cmds r h huntruthy
          exact ⟨E, hs, hd⟩

theorem truthy_back {a a' : Arena}
    (keep : ∀ j m, idxAt a j = some m → m ≠ 0 → idxAt a' j = some m) (j : Nat)
    (h : truthyIdx (idxAt a' j) = false) : truthyIdx (idxAt a j) = false := by
  cases hx : idxAt a j with
  | none => rfl
  | some m =>
    by_cases hm : m = 0
    · rw [hm]
      rfl
    · rw [keep j m hx hm] at h
      rw [truthyIdx] at h
      simp at h
      exact absurd h hm

/-- The emission invariant: every successful `generateGraph fuel` call
satisfies `EmitOk` relative to its entry node's index. -/
theorem genGraph_spec (fuel : Nat) : GenSpec (genGraph fuel) := by
  induction fuel with
  | zero =>
    intro a i k a' cmds r _ _ _ _ _ h
    exact Option.noConfusion h
  | succ fuel ih =>
    intro a i k a' cmds r hwf hpos hidx hk hmax h
    rw [genGraph] at h
    cases hg : getNode a i with
    | none => rw [hg] at h; exact Option.noConfusion h
    | some node =>
      rw [hg] at h
      dsimp only at h
      obtain ⟨nk, nch, nidx⟩ := node
      have hni : nidx = some k := by
        have := idxAt_eq_index hg
        rw [hidx] at this
        exact this.symm
      subst hni
      cases nch with
      | branch no yes =>
        dsimp only at h
        cases h1 : genKey (genGraph fuel) a i k (k + 1) .no with
        | none => rw [h1] at h; exact Option.noConfusion h
        | some r1 =>
          rw [h1] at h
          dsimp only [Option.some_bind] at h
          cases h2 : genKey (genGraph fuel) r1.1 i k r1.2.2 .yes with
          | none => rw [h2] at h; exact Option.noConfusion h
          | some r2 =>
            rw [h2] at h
            simp only [Option.some_bind, Option.some.injEq, Prod.mk.injEq] at h
            obtain ⟨rfl, rfl, rfl⟩ := h
            obtain ⟨E1, S1, D1⟩ := genKey_spec (genGraph fuel) ih a i k (k + 1) .no
              r1.1 r1.2.1 r1.2.2 hwf hpos (by omega)
              (fun j m hj => by have := hmax j m hj; omega) (by rw [h1])
            have hwf1 : WfArena r1.1 := wfArena_of_child_eq E1.len E1.child_eq hwf
            obtain ⟨E2, S2, D2⟩ := genKey_spec (genGraph fuel) ih r1.1 i k r1.2.2 .yes
              r2.1 r2.2.1 r2.2.2 hwf1 E1.pos (by have := E1.ret_lo; omega)
              S1 (by rw [h2])
            have hd1lt : ∀ p ∈ declsOf r1.2.1, p.1 < a.length ∧
                idxAt r1.1 p.1 = some p.2 ∧ (k + 1 : Int) ≤ p.2 := by
              intro p hp
              obtain ⟨hdlo, _, hidxp, _, hlt⟩ := E1.decl_facts p hp
              exact ⟨hlt, hidxp, hdlo⟩
            refine ⟨?_, ?_, ?_, ?_, E2.pos, ?_, E2.ret_hi, ?_, ?_, ?_⟩
            · rw [E2.len, E1.len]
            · intro j
              rw [E2.child_eq j, E1.child_eq j]
            · intro j
              rw [E2.kind_eq j, E1.kind_eq j]
            · intro j m hj hm
              exact E2.keep j m (E1.keep j m hj hm) hm
            · have := E1.ret_lo
              have := E2.ret_lo
              omega
            · rw [declsOf_append]
              rw [List.pairwise_append]
              refine ⟨E1.mono, E2.mono, ?_⟩
              intro p hp q hq
              have h1' := D1 p hp
              have h2' := (E2.decl_facts q hq).1
              omega
            · rw [declsOf_append]
              intro p hp
              rcases List.mem_append.mp hp with hp | hp
              · obtain ⟨hlt, hidxp, hdlo⟩ := hd1lt p hp
                have hne0 : p.2 ≠ 0 := by omega
                refine ⟨hdlo, ?_, E2.keep p.1 p.2 hidxp hne0, ?_, hlt⟩
                · have := D1 p hp
                  have := E2.ret_lo
                  omega
                · exact (E1.decl_facts p hp).2.2.2.1
              · obtain ⟨hdlo, hhi, hidxp, htr, hlt⟩ := E2.decl_facts p hp
                refine ⟨by have := E1.ret_lo; omega, hhi, hidxp, ?_, by rw [← E1.len]; exact hlt⟩
                exact truthy_back E1.keep p.1 htr
            · rw [declsOf_append, List.map_append]
              refine List.Nodup.append E1.ids_nodup E2.ids_nodup ?_
              intro x hx1 hx2
              obtain ⟨p, hp, hpx⟩ := List.mem_map.mp hx1
              obtain ⟨q, hq, hqx⟩ := List.mem_map.mp hx2
              obtain ⟨_, hidxp, hdlo⟩ := hd1lt p hp
              have htr2 : truthyIdx (idxAt r1.1 q.1) = false :=
                (E2.decl_facts q hq).2.2.2.1
              rw [hqx, ← hpx] at htr2
              rw [hidxp] at htr2
              rw [truthyIdx] at htr2
              simp at htr2
              omega
      | single copt =>
        dsimp only at h
        cases copt with
        | none =>
          simp only [Option.some.injEq, Prod.mk.injEq] at h
          obtain ⟨rfl, rfl, rfl⟩ := h
          exact ⟨rfl, fun _ => rfl, fun _ => rfl, fun _ _ hx _ => hx, hpos,
            le_refl _, hmax, by simp [declsOf], by simp [declsOf], by simp [declsOf]⟩
        | some c =>
          dsimp only at h
          have hcl : c < a.length :=
            singleChild_lt hwf hg rfl
          cases hgc : getNode a c with
          | none => rw [hgc] at h; exact Option.noConfusion h
          | some childN =>
            rw [hgc] at h
            dsimp only at h
            cases hi : childN.index with
            | some m =>
              rw [hi] at h
              dsimp only at h
              by_cases hm : (m != 0) = true
              · rw [if_pos hm] at h
                simp only [Option.some.injEq, Prod.mk.injEq] at h
                obtain ⟨rfl, rfl, rfl⟩ := h
                exact ⟨rfl, fun _ => rfl, fun _ => rfl, fun _ _ hx _ => hx, hpos,
                  by omega, fun j m2 hj => by have := hmax j m2 hj; omega,
                  by simp [declsOf], by simp [declsOf], by simp [declsOf]⟩
              · rw [if_neg hm] at h
                have hm0 : m = 0 := by simpa using hm
                have huntruthy : truthyIdx (idxAt a c) = false := by
                  rw [idxAt_eq_index hgc, hi, hm0]
                  rfl
                unfold genLinFresh at h
                cases hrec : genGraph fuel (setIndex a c (some (k + 1))) c with
                | none => rw [hrec] at h; exact Option.noConfusion h
                | some q =>
                  rw [hrec] at h
                  simp only [Option.some_bind, Option.some.injEq, Prod.mk.injEq] at h
                  obtain ⟨rfl, rfl, rfl⟩ := h
                  exact (fresh_spec (genGraph fuel) ih a c (k + 1) k
                    childN.kind.text childN.kind.shape (.edge k (k + 1) none "s" "n")
                    q.1 q.2.1 q.2.2 hwf hpos hcl (by omega) (by omega)
                    (fun j m2 hj => by have := hmax j m2 hj; omega)
                    huntruthy rfl hrec).1
            | none =>
              rw [hi] at h
              dsimp only at h
              have huntruthy : truthyIdx (idxAt a c) = false := by
                rw [idxAt_eq_index hgc, hi]
                rfl
              unfold genLinFresh at h
              cases hrec : genGraph fuel (setIndex a c (some (k + 1))) c with
              | none => rw [hrec] at h; exact Option.noConfusion h
              | some q =>
                rw [hrec] at h
                simp only [Option.some_bind, Option.some.injEq, Prod.mk.injEq] at h
                obtain ⟨rfl, rfl, rfl⟩ := h
                exact (fresh_spec (genGraph fuel) ih a c (k + 1) k
                  childN.kind.text childN.kind.shape (.edge k (k + 1) none "s" "n")
                  q.1 q.2.1 q.2.2 hwf hpos hcl (by omega) (by omega)
                  (fun j m2 hj => by have := hmax j m2 hj; omega)
                  huntruthy rfl hrec).1

/-! ## Termination of the emission walk -/

theorem countP_lt_of_pointwise {α} (l : List α) (p q : α → Bool)
    (hpq : ∀ x ∈ l, q x = true → p x = true) (c : α) (hc : c ∈ l)
    (hqc : q c = false) (hpc : p c = true) : l.countP q < l.countP p := by
  induction l with
  | nil => cases hc
  | cons x t ih =>
    rw [List.countP_cons, List.countP_cons]
    rcases List.mem_cons.mp hc with hcx | hct
    · subst hcx
      rw [hqc, hpc]
      have hm : t.countP q ≤ t.countP p :=
        List.countP_mono_left fun y hy => hpq y (List.mem_cons_of_mem _ hy)
      simp only [Bool.false_eq_true, if_false, if_true]
      omega
    · have hx : q x = true → p x = true := hpq x (List.mem_cons_self x t)
      have ht := ih (fun y hy => hpq y (List.mem_cons_of_mem _ hy)) hct
      by_cases hq : q x = true
      · rw [hq, hx hq]
        simp only [if_true]
        omega
      · rw [Bool.eq_false_iff.mpr hq]
        simp only [Bool.false_eq_true, if_false]
        cases hp : p x <;> simp only [Bool.false_eq_true, if_false, if_true] <;> omega

theorem unvisited_eq_countP (a : Arena) :
    unvisitedCount a = (List.range a.length).countP fun j => !truthyIdx (idxAt a j) := by
  rw [unvisitedCount, List.countP_eq_length_filter]

theorem unvisited_le_of_keep {a a' : Arena} (hlen : a'.length = a.length)
    (keep : ∀ j m, idxAt a j = some m → m ≠ 0 → idxAt a' j = some m) :
    unvisitedCount a' ≤ unvisitedCount a := by
  rw [unvisited_eq_countP, unvisited_eq_countP, hlen]
  refine List.countP_mono_left fun j _ h => ?_
  dsimp only at h ⊢
  have h' : truthyIdx (idxAt a' j) = false := by
    cases hb : truthyIdx (idxAt a' j)
    · rfl
    · rw [hb] at h
      exact Bool.noConfusion h
  rw [truthy_back keep j h']
  rfl

theorem unvisited_setIndex_lt {a : Arena} {c : Nat} {ind : Int}
    (hcl : c < a.length) (huntruthy : truthyIdx (idxAt a c) = false)
    (hind : ind ≠ 0) :
    unvisitedCount (setIndex a c (some ind)) < unvisitedCount a := by
  rw [unvisited_eq_countP, unvisited_eq_countP, length_setIndex]
  refine countP_lt_of_pointwise _ _ _ ?_ c (List.mem_range.mpr hcl) ?_ ?_
  · intro j _ h
    dsimp only at h ⊢
    by_cases hjc : j = c
    · subst hjc
      rw [huntruthy]
      rfl
    · rw [← idxAt_setIndex_ne (some ind) j hjc]
      exact h
  · dsimp only
    rw [idxAt_setIndex_self _ hcl]
    rw [truthyIdx]
    simp [hind]
  · dsimp only
    rw [huntruthy]
    rfl

theorem getNode_of_idxAt {a : Arena} {i : Nat} {k : Int}
    (h : idxAt a i = some k) : ∃ n, getNode a i = some n ∧ n.index = some k := by
  unfold idxAt at h
  cases hg : getNode a i with
  | none => rw [hg] at h; exact Option.noConfusion h
  | some n =>
    rw [hg] at h
    exact ⟨n, rfl, h⟩

theorem branchChildOf_of_child_eq {a a' : Arena} {i : Nat} (lbl : Label)
    (h : (getNode a' i).map Node.child = (getNode a i).map Node.child) :
    branchChildOf a' i lbl = branchChildOf a i lbl := by
  unfold branchChildOf
  cases hg : getNode a i with
  | none =>
    rw [hg] at h
    cases hg' : getNode a' i with
    | none => rfl
    | some n' => rw [hg'] at h; exact Option.noConfusion h
  | some n =>
    rw [hg] at h
    cases hg' : getNode a' i with
    | none => rw [hg'] at h; exact Option.noConfusion h
    | some n' =>
      rw [hg'] at h
      have h2 : n'.child = n.child := by simpa using h
      obtain ⟨k1, c1, i1⟩ := n'
      obtain ⟨k2, c2, i2⟩ := n
      simp only at h2
      subst h2
      rfl

theorem branchChildOf_some {a : Arena} {i : Nat} {n : Node} {no yes : Option Nat}
    (hwf : WfArena a) (hg : getNode a i = some n)
    (hch : n.child = .branch no yes) (lbl : Label) :
    ∃ c, branchChildOf a i lbl = some (some c) := by
  have hok := hwf i n hg
  unfold Node.childOk at hok
  rw [hch] at hok
  obtain ⟨cn, cy, hno, hyes, _, _⟩ := hok
  obtain ⟨nk2, nch2, nidx2⟩ := n
  simp only at hch
  subst hch
  unfold branchChildOf
  rw [hg]
  cases lbl with
  | no => exact ⟨cn, by rw [hno]⟩
  | yes => exact ⟨cy, by rw [hyes]⟩

/-- The totality statement for `generateGraph`: fuel exceeding the number
of unvisited nodes suffices. -/
def GenTotal (fuel : Nat) : Prop :=
  ∀ a i k, WfArena a → PosArena a →
    idxAt a i = some k → 1 ≤ k → (∀ j m, idxAt a j = some m → m ≤ k) →
    unvisitedCount a < fuel → ∃ out, genGraph fuel a i = some out

theorem genKey_total (fuel : Nat) (tot_ih : GenTotal fuel)
    (a : Arena) (i : Nat) (k ind : Int) (lbl : Label) (c : Nat)
    (hwf : WfArena a) (hpos : PosArena a) (hind : 1 ≤ ind)
    (hmax : ∀ j m, idxAt a j = some m → m < ind)
    (hbc : branchChildOf a i lbl = some (some c))
    (hfa : unvisitedCount a ≤ fuel) :
    ∃ out, genKey (genGraph fuel) a i k ind lbl = some out := by
  have hcl : c < a.length := branchChild_lt hwf hbc
  obtain ⟨childN, hgc⟩ : ∃ n, getNode a c = some n := by
    cases hg : getNode a c with
    | none =>
      rw [getNode, List.getElem?_eq_getElem hcl] at hg
      exact Option.noConfusion hg
    | some n => exact ⟨n, rfl⟩
  unfold genKey
  rw [hbc]
  dsimp only
  rw [hgc]
  dsimp only
  have hfreshTotal : truthyIdx (idxAt a c) = false →
      ∃ out, genKeyFresh (genGraph fuel) a k ind lbl c childN = some out := by
    intro huntruthy
    have hwf1 : WfArena (setIndex a c (some ind)) :=
      wfArena_of_child_eq (length_setIndex a c _) (child_setIndex a c _) hwf
    have hpos1 : PosArena (setIndex a c (some ind)) := by
      intro j m hj
      by_cases hjc : j = c
      · subst hjc
        rw [idxAt_setIndex_self _ hcl] at hj
        injection hj with hj
        omega
      · exact hpos j m (by rw [← idxAt_setIndex_ne (some ind) j hjc]; exact hj)
    have hmax1 : ∀ j m, idxAt (setIndex a c (some ind)) j = some m → m ≤ ind := by
      intro j m hj
      by_cases hjc : j = c
      · subst hjc
        rw [idxAt_setIndex_self _ hcl] at hj
        injection hj with hj
        omega
      · rw [idxAt_setIndex_ne (some ind) j hjc] at hj
        exact le_of_lt (hmax j m hj)
    have hdec : unvisitedCount (setIndex a c (some ind)) < unvisitedCount a :=
      unvisited_setIndex_lt hcl huntruthy (by omega)
    obtain ⟨out, hout⟩ := tot_ih (setIndex a c (some ind)) c ind hwf1 hpos1
      (idxAt_setIndex_self _ hcl) hind hmax1 (by omega)
    exact ⟨_, by unfold genKeyFresh; rw [hout]; rfl⟩
  cases hi : childN.index with
  | some m =>
    dsimp only
    by_cases hm : (m != 0) = true
    · rw [if_pos hm]
      exact ⟨_, rfl⟩
    · rw [if_neg hm]
      have hm0 : m = 0 := by simpa using hm
      exact hfreshTotal (by rw [idxAt_eq_index hgc, hi, hm0]; rfl)
  | none =>
    dsimp only
    exact hfreshTotal (by rw [idxAt_eq_index hgc, hi]; rfl)

theorem genGraph_total (fuel : Nat) : GenTotal fuel := by
  induction fuel with
  | zero =>
    intro a i k _ _ _ _ _ hfa
    omega
  | succ fuel ih =>
    intro a i k hwf hpos hidx hk hmax hfa
    obtain ⟨node, hg, hni⟩ := getNode_of_idxAt hidx
    rw [genGraph, hg]
    dsimp only
    obtain ⟨nk, nch, nidx⟩ := node
    simp only at hni
    subst hni
    cases nch with
    | branch no yes =>
      dsimp only
      obtain ⟨cn, hbcn⟩ := branchChildOf_some hwf hg rfl .no
      obtain ⟨out1, h1⟩ := genKey_total fuel ih a i k (k + 1) .no cn hwf hpos
        (by omega) (fun j m hj => by have := hmax j m hj; omega) hbcn (by omega)
      rw [h1]
      dsimp only [Option.some_bind]
      obtain ⟨E1, S1, D1⟩ := genKey_spec (genGraph fuel) (genGraph_spec fuel)
        a i k (k + 1) .no out1.1 out1.2.1 out1.2.2 hwf hpos (by omega)
        (fun j m hj => by have := hmax j m hj; omega) (by rw [h1])
      have hwf1 : WfArena out1.1 := wfArena_of_child_eq E1.len E1.child_eq hwf
      obtain ⟨cy, hbcy⟩ := branchChildOf_some hwf hg rfl .yes
      have hbcy2 : branchChildOf out1.1 i .yes = some (some cy) := by
        rw [branchChildOf_of_child_eq .yes (E1.child_eq i)]
        exact hbcy
      obtain ⟨out2, h2⟩ := genKey_total fuel ih out1.1 i k out1.2.2 .yes cy
        hwf1 E1.pos (by have := E1.ret_lo; omega) S1 hbcy2
        (le_trans (unvisited_le_of_keep E1.len E1.keep) (by omega))
      rw [h2]
      exact ⟨_, rfl⟩
    | single copt =>
      dsimp only
      cases copt with
      | none => exact ⟨_, rfl⟩
      | some c =>
        dsimp only
        have hcl : c < a.length := singleChild_lt hwf hg rfl
        obtain ⟨childN, hgc⟩ : ∃ n, getNode a c = some n := by
          cases hgx : getNode a c with
          | none =>
            rw [getNode, List.getElem?_eq_getElem hcl] at hgx
            exact Option.noConfusion hgx
          | some n => exact ⟨n, rfl⟩
        rw [hgc]
        dsimp only
        have hfreshTotal : truthyIdx (idxAt a c) = false →
            ∃ out, genLinFresh (genGraph fuel) a k c childN = some out := by
          intro huntruthy
          have hwf1 : WfArena (setIndex a c (some (k + 1))) :=
            wfArena_of_child_eq (length_setIndex a c _) (child_setIndex a c _) hwf
          have hpos1 : PosArena (setIndex a c (some (k + 1))) := by
            intro j m hj
            by_cases hjc : j = c
            · subst hjc
              rw [idxAt_setIndex_self _ hcl] at hj
              injection hj with hj
              omega
            · exact hpos j m (by rw [← idxAt_setIndex_ne (some (k + 1)) j hjc]; exact hj)
          have hmax1 : ∀ j m, idxAt (setIndex a c (some (k + 1))) j = some m →
              m ≤ k + 1 := by
            intro j m hj
            by_cases hjc : j = c
            · subst hjc
              rw [idxAt_setIndex_self _ hcl] at hj
              injection hj with hj
              omega
            · rw [idxAt_setIndex_ne (some (k + 1)) j hjc] at hj
              have := hmax j m hj
              omega
          have hdec : unvisitedCount (setIndex a c (some (k + 1))) < unvisitedCount a :=
            unvisited_setIndex_lt hcl huntruthy (by omega)
          obtain ⟨out, hout⟩ := ih (setIndex a c (some (k + 1))) c (k + 1) hwf1 hpos1
            (idxAt_setIndex_self _ hcl) (by omega) hmax1 (by omega)
          exact ⟨_, by unfold genLinFresh; rw [hout]; rfl⟩
        cases hi : childN.index with
        | some m =>
          dsimp only
          by_cases hm : (m != 0) = true
          · rw [if_pos hm]
            exact ⟨_, rfl⟩
          · rw [if_neg hm]
            have hm0 : m = 0 := by simpa using hm
            exact hfreshTotal (by rw [idxAt_eq_index hgc, hi, hm0]; rfl)
        | none =>
          dsimp only
          exact hfreshTotal (by rw [idxAt_eq_index hgc, hi]; rfl)

/-- Decidable check that every index present in the arena is at most
`k`. -/
def maxIdxB (a : Arena) (k : Int) : Bool :=
  a.all fun n =>
    match n.index with
    | none => true
    | some m => decide (m ≤ k)

theorem maxIdx_of_B {a : Arena} {k : Int} (h : maxIdxB a k = true) :
    ∀ j m, idxAt a j = some m → m ≤ k := by
  intro j m hj
  unfold idxAt at hj
  cases hg : getNode a j with
  | none => rw [hg] at hj; exact Option.noConfusion hj
  | some n =>
    rw [hg] at hj
    dsimp only at hj
    have hmem : n ∈ a := List.getElem?_mem (hg : a[j]? = some n)
    have := (List.all_eq_true.mp h) n hmem
    rw [hj] at this
    simpa using this

/-! ## C4 (amended): the graphviz emission walk terminates -/

/-- C4 (amended, positive part): for every well-formed arena whose
indices are nonnegative and whose entry node carries the largest index,
which is at least 1 (`main` establishes this with `start.index = 1`),
`generateGraph` completes with fuel one more than the number of
unvisited nodes: the index check before each descent bounds the
traversal by the number of nodes, not the number of paths. -/
theorem c4_emission_terminates (a : Arena) (i : Nat) (k : Int)
    (hwf : wfB a = true) (hpos : posB a = true)
    (hidx : idxAt a i = some k) (hk : 1 ≤ k) (hmax : maxIdxB a k = true) :
    ∃ out, genGraph (unvisitedCount a + 1) a i = some out :=
  genGraph_total (unvisitedCount a + 1) a i k (wfArena_of_wfB hwf)
    (posArena_of_posB hpos) hidx hk (maxIdx_of_B hmax) (by omega)

/-- A simplified loop graph (the output of `deleteExtraneousNodes` on
`while x > 0: x = x - 1`, with `start.index = 1` as `main` sets it). -/
def c4ExampleArena : Arena :=
  [{ kind := .start, child := .single (some 2), index := some 1 },
   { kind := .dummyConjunction, child := .single (some 2), index := none },
   { kind := .conditional "(x > 0)", child := .branch (some 6) (some 4), index := some 0 },
   { kind := .dummyMiddle, child := .single (some 4), index := none },
   { kind := .process "x = (x - 1)", child := .single (some 2), index := some 0 },
   { kind := .dummyMiddle, child := .single (some 6), index := none },
   { kind := .stop, child := .single none, index := none }]

theorem c4_emission_terminates_witness :
    (wfB c4ExampleArena = true ∧ posB c4ExampleArena = true ∧
      idxAt c4ExampleArena 0 = some 1 ∧ maxIdxB c4ExampleArena 1 = true) ∧
    ∃ out, genGraph (unvisitedCount c4ExampleArena + 1) c4ExampleArena 0 = some out :=
  ⟨⟨by decide, by decide, by decide, by decide⟩,
    c4_emission_terminates c4ExampleArena 0 1 (by decide) (by decide)
      (by decide) (by decide) (by decide)⟩

/-! ## C5: unique, monotonically increasing emission indices -/

/-- C5: in a successful emission run, node declarations are issued with
strictly increasing indices in depth-first discovery order, no node is
declared twice (each declared node was unvisited when declared, and its
id appears only once), and a node that already carries a truthy index is
never redeclared — its index survives untouched (only edges reference
it). -/
theorem c5_emission_indices (fuel : Nat) (a : Arena) (i : Nat) (k : Int)
    (a' : Arena) (cmds : List GCmd) (r : Int)
    (hwf : wfB a = true) (hpos : posB a = true)
    (hidx : idxAt a i = some k) (hk : 1 ≤ k) (hmax : maxIdxB a k = true)
    (h : genGraph fuel a i = some (a', cmds, r)) :
    List.Pairwise (fun p q : Nat × Int => p.2 < q.2) (declsOf cmds) ∧
    ((declsOf cmds).map Prod.fst).Nodup ∧
    (∀ p ∈ declsOf cmds, truthyIdx (idxAt a p.1) = false ∧
      idxAt a' p.1 = some p.2 ∧ k < p.2) ∧
    (∀ j m, idxAt a j = some m → m ≠ 0 → idxAt a' j = some m) := by
  have E := genGraph_spec fuel a i k a' cmds r (wfArena_of_wfB hwf)
    (posArena_of_posB hpos) hidx hk (maxIdx_of_B hmax) h
  refine ⟨E.mono, E.ids_nodup, ?_, E.keep⟩
  intro p hp
  obtain ⟨hdlo, _, hidxp, htr, _⟩ := E.decl_facts p hp
  exact ⟨htr, hidxp, by omega⟩

/-- The arena after the witness emission run. -/
def c5OutArena : Arena :=
  [{ kind := .start, child := .single (some 2), index := some 1 },
   { kind := .dummyConjunction, child := .single (some 2), index := none },
   { kind := .conditional "(x > 0)", child := .branch (some 6) (some 4), index := some 2 },
   { kind := .dummyMiddle, child := .single (some 4), index := none },
   { kind := .process "x = (x - 1)", child := .single (some 2), index := some 4 },
   { kind := .dummyMiddle, child := .single (some 6), index := none },
   { kind := .stop, child := .single none, index := some 3 }]

/-- The backend calls of the witness emission run. -/
def c5OutCmds : List GCmd :=
  [.node 2 2 "(x > 0)" (some "diamond"),
   .edge 1 2 none "s" "n",
   .node 6 3 "Stop" (some "ellipse"),
   .edge 2 3 (some "No") "s" "n",
   .node 4 4 "x = (x - 1)" (some "rectangle"),
   .edge 2 4 (some "Yes") "e" "n",
   .edge 4 2 none "s" "n"]

theorem c5_emission_indices_witness :
    genGraph 7 c4ExampleArena 0 = some (c5OutArena, c5OutCmds, 7) ∧
    (List.Pairwise (fun p q : Nat × Int => p.2 < q.2) (declsOf c5OutCmds) ∧
      ((declsOf c5OutCmds).map Prod.fst).Nodup ∧
      (∀ p ∈ declsOf c5OutCmds, truthyIdx (idxAt c4ExampleArena p.1) = false ∧
        idxAt c5OutArena p.1 = some p.2 ∧ (1 : Int) < p.2) ∧
      (∀ j m, idxAt c4ExampleArena j = some m → m ≠ 0 →
        idxAt c5OutArena j = some m)) :=
  ⟨rfl, c5_emission_indices 7 c4ExampleArena 0 1 c5OutArena c5OutCmds 7
    (by decide) (by decide) (by decide) (by decide) (by decide) rfl⟩

/-! ## C6: the simplifier's marker is treated as unset by emission -/

/-- C6: the visited test of `generateGraph` is Python truthiness of the
`index` field, under which the simplifier's marker `0` counts as unset
(`truthyIdx (some 0) = false`); consequently every index an emission run
assigns through a node declaration is at least 1 — never the marker —
and each declared node was unvisited (marker or `None`) beforehand, its
marker overwritten by the fresh index. -/
theorem c6_marker_treated_unset :
    truthyIdx (some 0) = false ∧
    (∀ fuel a i k a' cmds r, wfB a = true → posB a = true →
      idxAt a i = some k → 1 ≤ k → maxIdxB a k = true →
      genGraph fuel a i = some (a', cmds, r) →
      ∀ p ∈ declsOf cmds, 1 ≤ p.2 ∧ idxAt a' p.1 = some p.2 ∧
        truthyIdx (idxAt a p.1) = false) := by
  refine ⟨rfl, ?_⟩
  intro fuel a i k a' cmds r hwf hpos hidx hk hmax h p hp
  have E := genGraph_spec fuel a i k a' cmds r (wfArena_of_wfB hwf)
    (posArena_of_posB hpos) hidx hk (maxIdx_of_B hmax) h
  obtain ⟨hdlo, _, hidxp, htr, _⟩ := E.decl_facts p hp
  exact ⟨by omega, hidxp, htr⟩

theorem c6_marker_treated_unset_witness :
    idxAt c4ExampleArena 2 = some 0 ∧
    genGraph 7 c4ExampleArena 0 = some (c5OutArena, c5OutCmds, 7) ∧
    (∀ p ∈ declsOf c5OutCmds, 1 ≤ p.2 ∧ idxAt c5OutArena p.1 = some p.2 ∧
      truthyIdx (idxAt c4ExampleArena p.1) = false) :=
  ⟨by decide, rfl,
    c6_marker_treated_unset.2 7 c4ExampleArena 0 1 c5OutArena c5OutCmds 7
      (by decide) (by decide) (by decide) (by decide) (by decide) rfl⟩

/-! ## C8: unsupported constructs -/

mutual

/-- Whether an expression contains an `unsupported` node at a position
the formatter actually parses. -/
def exprUnsup : Expr → Bool
  | .binOp l _ r => exprUnsup l || exprUnsup r
  | .num _ => false
  | .name _ => false
  | .str _ => false
  | .call _ args => exprListUnsup args
  | .boolOp _ values => exprListUnsup values
  | .compare l ops cs => exprUnsup l || exprZipUnsup ops cs
  | .unsupported _ _ => true

/-- `exprUnsup` over an argument list. -/
def exprListUnsup : List Expr → Bool
  | [] => false
  | e :: es => exprUnsup e || exprListUnsup es

/-- `exprUnsup` over the comparators that `parseCompare`'s loop actually
indexes (the first `len ops` of them). -/
def exprZipUnsup : List CmpOp → List Expr → Bool
  | [], _ => false
  | _ :: ops, c :: cs => exprUnsup c || exprZipUnsup ops cs
  | _ :: _, [] => false

end

/-- The unsupported-shape test `visit_Assign` effectively applies to a
right-hand side that escaped the input heuristic: an empty-argument call
raises IndexError before any parsing, every other shape is parsed. -/
def assignRhsUnsup : Expr → Bool
  | .call _ [] => false
  | v => exprUnsup v

/-- The unsupported-shape test `visit_Expr` applies to its value: a call
has its arguments parsed, any other shape raises directly. -/
def exprStmtValUnsup : Expr → Bool
  | .call _ args => exprListUnsup args
  | _ => true

mutual

/-- Whether a statement contains an unsupported statement or expression
shape at a position the visitor actually examines.  Positions the
visitor skips are excluded: the arguments of an assignment's right-hand
side once the input heuristic fires (it returns before parsing them),
and anything after an earlier statement in the same body.  A non-call
expression statement is itself an unsupported shape. -/
def stmtUnsupV : Stmt → Bool
  | .assign _ value =>
    if isInputRhs value then false else assignRhsUnsup value
  | .augAssign _ _ value => exprUnsup value
  | .exprStmt value _ _ => exprStmtValUnsup value
  | .ifStmt test body orelse => exprUnsup test || listUnsupV body || listUnsupV orelse
  | .whileStmt test body => exprUnsup test || listUnsupV body
  | .importFrom => false
  | .unsupported _ _ => true

/-- `stmtUnsupV` over a statement list. -/
def listUnsupV : List Stmt → Bool
  | [] => false
  | s :: ss => stmtUnsupV s || listUnsupV ss

end

theorem sizeOf_expr_head (e : Expr) (es : List Expr) : sizeOf e < sizeOf (e :: es) := by
  simp only [List.cons.sizeOf_spec]
  omega

theorem sizeOf_expr_tail (e : Expr) (es : List Expr) : sizeOf es < sizeOf (e :: es) := by
  simp only [List.cons.sizeOf_spec]
  omega

/-- Containing an unsupported expression at a parsed position makes the
formatter raise. -/
theorem unsup_parse_err (n : Nat) :
    (∀ e, sizeOf e ≤ n → exprUnsup e = true → ∃ err, parseChunk e = .error err) ∧
    (∀ es, sizeOf es ≤ n → exprListUnsup es = true → ∃ err, parseArgs es = .error err) ∧
    (∀ ops cs, sizeOf cs ≤ n → exprZipUnsup ops cs = true →
      ∃ err, parseCompareAux ops cs = .error err) := by
  induction n using Nat.strong_induction_on with
  | _ n ih =>
    refine ⟨?_, ?_, ?_⟩
    · intro e hsz hu
      cases e with
      | binOp l op r =>
        rw [exprUnsup] at hu
        rw [parseChunk]
        rcases Bool.or_eq_true_iff.mp hu with hl | hr
        · obtain ⟨err, herr⟩ := (ih (sizeOf l)
            (lt_of_lt_of_le (by simp only [Expr.binOp.sizeOf_spec]; omega) hsz)).1
            l le_rfl hl
          exact ⟨err, by rw [herr]; rfl⟩
        · cases hp : parseChunk l with
          | error err => exact ⟨err, rfl⟩
          | ok ls =>
            obtain ⟨err, herr⟩ := (ih (sizeOf r)
              (lt_of_lt_of_le (by simp only [Expr.binOp.sizeOf_spec]; omega) hsz)).1
              r le_rfl hr
            exact ⟨err, by simp [Bind.bind, Except.bind, herr]⟩
      | num v => rw [exprUnsup] at hu; exact Bool.noConfusion hu
      | name id => rw [exprUnsup] at hu; exact Bool.noConfusion hu
      | str s => rw [exprUnsup] at hu; exact Bool.noConfusion hu
      | call f args =>
        rw [exprUnsup] at hu
        obtain ⟨err, herr⟩ := (ih (sizeOf args)
          (lt_of_lt_of_le (by simp only [Expr.call.sizeOf_spec]; omega) hsz)).2.1
          args le_rfl hu
        rw [parseChunk]
        exact ⟨err, by rw [herr]; rfl⟩
      | boolOp op values =>
        rw [exprUnsup] at hu
        obtain ⟨err, herr⟩ := (ih (sizeOf values)
          (lt_of_lt_of_le (by simp only [Expr.boolOp.sizeOf_spec]; omega) hsz)).2.1
          values le_rfl hu
        rw [parseChunk]
        exact ⟨err, by rw [herr]; rfl⟩
      | compare l ops cs =>
        rw [exprUnsup] at hu
        rw [parseChunk]
        rcases Bool.or_eq_true_iff.mp hu with hl | hz
        · obtain ⟨err, herr⟩ := (ih (sizeOf l)
            (lt_of_lt_of_le (by simp only [Expr.compare.sizeOf_spec]; omega) hsz)).1
            l le_rfl hl
          exact ⟨err, by rw [herr]; rfl⟩
        · cases hp : parseChunk l with
          | error err => exact ⟨err, rfl⟩
          | ok ls =>
            obtain ⟨err, herr⟩ := (ih (sizeOf cs)
              (lt_of_lt_of_le (by simp only [Expr.compare.sizeOf_spec]; omega) hsz)).2.2
              ops cs le_rfl hz
            exact ⟨err, by simp [Bind.bind, Except.bind, herr]⟩
      | unsupported l c => exact ⟨.unknownParse l c, rfl⟩
    · intro es hsz hu
      cases es with
      | nil => rw [exprListUnsup] at hu; exact Bool.noConfusion hu
      | cons e rest =>
        rw [exprListUnsup] at hu
        rw [parseArgs]
        rcases Bool.or_eq_true_iff.mp hu with he | hrest
        · obtain ⟨err, herr⟩ := (ih (sizeOf e)
            (lt_of_lt_of_le (sizeOf_expr_head e rest) hsz)).1 e le_rfl he
          exact ⟨err, by rw [herr]; rfl⟩
        · cases hp : parseChunk e with
          | error err => exact ⟨err, rfl⟩
          | ok s =>
            obtain ⟨err, herr⟩ := (ih (sizeOf rest)
              (lt_of_lt_of_le (sizeOf_expr_tail e rest) hsz)).2.1 rest le_rfl hrest
            exact ⟨err, by simp [Bind.bind, Except.bind, herr]⟩
    · intro ops cs hsz hu
      cases ops with
      | nil => rw [exprZipUnsup] at hu; exact Bool.noConfusion hu
      | cons op ops' =>
        cases cs with
        | nil => rw [exprZipUnsup] at hu; exact Bool.noConfusion hu
        | cons c cs' =>
          rw [exprZipUnsup] at hu
          rw [parseCompareAux]
          rcases Bool.or_eq_true_iff.mp hu with hc | hrest
          · obtain ⟨err, herr⟩ := (ih (sizeOf c)
              (lt_of_lt_of_le (sizeOf_expr_head c cs') hsz)).1 c le_rfl hc
            exact ⟨err, by rw [herr]; rfl⟩
          · cases hp : parseChunk c with
            | error err => exact ⟨err, rfl⟩
            | ok s =>
              obtain ⟨err, herr⟩ := (ih (sizeOf cs')
                (lt_of_lt_of_le (sizeOf_expr_tail c cs') hsz)).2.2 ops' cs' le_rfl hrest
              exact ⟨err, by simp [Bind.bind, Except.bind, herr]⟩

/-- Containing an unsupported construct at a position the visitor
examines makes the visit raise: part one of the induction handles a
single statement, part two a statement list. -/
theorem unsup_visit_err (n : Nat) :
    (∀ s st, sizeOf s ≤ n → stmtUnsupV s = true → ∃ e, visitStmt s st = .error e) ∧
    (∀ ss st, sizeOf ss ≤ n → listUnsupV ss = true → ∃ e, visitList ss st = .error e) := by
  induction n using Nat.strong_induction_on with
  | _ n ih =>
    constructor
    · intro s st hsz hu
      cases s with
      | assign target value =>
        rw [stmtUnsupV] at hu
        by_cases hin : isInputRhs value = true
        · rw [if_pos hin] at hu
          exact Bool.noConfusion hu
        · have hin0 : isInputRhs value = false := by
            cases hb : isInputRhs value with
            | true => exact absurd hb hin
            | false => rfl
          rw [if_neg hin] at hu
          have hu2 : exprUnsup value = true := by
            cases value with
            | call f args =>
              cases args with
              | nil => exact Bool.noConfusion hu
              | cons a rest => exact hu
            | binOp l op r => exact hu
            | num v => exact hu
            | name id => exact hu
            | str v => exact hu
            | boolOp op values => exact hu
            | compare l ops cs => exact hu
            | unsupported a b => exact hu
          cases hres : visitStmt (.assign target value) st with
          | error e => exact ⟨e, rfl⟩
          | ok st2 =>
            exfalso
            obtain ⟨rhs, hrhs, -⟩ :=
              (visitStmt_assign_dispatch target value st st2 hres).2 hin0
            obtain ⟨err, herr⟩ := (unsup_parse_err (sizeOf value)).1 value le_rfl hu2
            rw [herr] at hrhs
            exact Except.noConfusion hrhs
      | augAssign target op value =>
        rw [stmtUnsupV] at hu
        obtain ⟨err, herr⟩ := (unsup_parse_err (sizeOf value)).1 value le_rfl hu
        exact ⟨err, by simp [visitStmt, Bind.bind, Except.bind, herr]⟩
      | exprStmt value lineno col =>
        rw [stmtUnsupV] at hu
        cases value with
        | call f args =>
          have hu2 : exprListUnsup args = true := hu
          obtain ⟨err, herr⟩ := (unsup_parse_err (sizeOf args)).2.1 args le_rfl hu2
          by_cases hp : (f == "print" || f == "pprint") = true
          · exact ⟨err, by simp [visitStmt, hp, Bind.bind, Except.bind, herr]⟩
          · have hp0 : (f == "print" || f == "pprint") = false := by
              cases hb : (f == "print" || f == "pprint") with
              | true => exact absurd hb hp
              | false => rfl
            exact ⟨err, by
              simp [visitStmt, hp0, parseFunctionCall, Bind.bind, Except.bind, herr]⟩
        | binOp l op r => exact ⟨.unknownExprStmt lineno col, rfl⟩
        | num v => exact ⟨.unknownExprStmt lineno col, rfl⟩
        | name id => exact ⟨.unknownExprStmt lineno col, rfl⟩
        | str v => exact ⟨.unknownExprStmt lineno col, rfl⟩
        | boolOp op values => exact ⟨.unknownExprStmt lineno col, rfl⟩
        | compare l ops cs => exact ⟨.unknownExprStmt lineno col, rfl⟩
        | unsupported a b => exact ⟨.unknownExprStmt lineno col, rfl⟩
      | ifStmt test body orelse =>
        rw [stmtUnsupV] at hu
        have hb : sizeOf body < n :=
          lt_of_lt_of_le
            (by simp only [Stmt.ifStmt.sizeOf_spec]; omega : sizeOf body < sizeOf (Stmt.ifStmt test body orelse)) hsz
        have ho : sizeOf orelse < n :=
          lt_of_lt_of_le
            (by simp only [Stmt.ifStmt.sizeOf_spec]; omega : sizeOf orelse < sizeOf (Stmt.ifStmt test body orelse)) hsz
        rcases Bool.or_eq_true_iff.mp hu with h12 | h3
        · rcases Bool.or_eq_true_iff.mp h12 with h1 | h2
          · obtain ⟨err, herr⟩ := (unsup_parse_err (sizeOf test)).1 test le_rfl h1
            exact ⟨err, by simp [visitStmt, Bind.bind, Except.bind, herr]⟩
          · cases hp : parseChunk test with
            | error e => exact ⟨e, by simp [visitStmt, Bind.bind, Except.bind, hp]⟩
            | ok cond =>
              obtain ⟨e1, he1⟩ := (ih (sizeOf body) hb).2 body (ifSetup cond st) le_rfl h2
              exact ⟨e1, by simp [visitStmt, Bind.bind, Except.bind, hp, he1]⟩
        · cases hp : parseChunk test with
          | error e => exact ⟨e, by simp [visitStmt, Bind.bind, Except.bind, hp]⟩
          | ok cond =>
            cases h1 : visitList body (ifSetup cond st) with
            | error e => exact ⟨e, by simp [visitStmt, Bind.bind, Except.bind, hp, h1]⟩
            | ok st1 =>
              obtain ⟨e2, he2⟩ :=
                (ih (sizeOf orelse) ho).2 orelse (ifElseSetup st1 st.arena.length) le_rfl h3
              exact ⟨e2, by simp [visitStmt, Bind.bind, Except.bind, hp, h1, he2]⟩
      | whileStmt test body =>
        rw [stmtUnsupV] at hu
        have hb : sizeOf body < n :=
          lt_of_lt_of_le
            (by simp only [Stmt.whileStmt.sizeOf_spec]; omega : sizeOf body < sizeOf (Stmt.whileStmt test body)) hsz
        rcases Bool.or_eq_true_iff.mp hu with h1 | h2
        · obtain ⟨err, herr⟩ := (unsup_parse_err (sizeOf test)).1 test le_rfl h1
          exact ⟨err, by simp [visitStmt, Bind.bind, Except.bind, herr]⟩
        · cases hp : parseChunk test with
          | error e => exact ⟨e, by simp [visitStmt, Bind.bind, Except.bind, hp]⟩
          | ok cond =>
            obtain ⟨e1, he1⟩ := (ih (sizeOf body) hb).2 body (whileSetup cond st) le_rfl h2
            exact ⟨e1, by simp [visitStmt, Bind.bind, Except.bind, hp, he1]⟩
      | importFrom =>
        rw [stmtUnsupV] at hu
        exact Bool.noConfusion hu
      | unsupported l c => exact ⟨.unknownStmt l c, rfl⟩
    · intro ss st hsz hu
      cases ss with
      | nil =>
        rw [listUnsupV] at hu
        exact Bool.noConfusion hu
      | cons s rest =>
        rw [listUnsupV] at hu
        rcases Bool.or_eq_true_iff.mp hu with h1 | h2
        · obtain ⟨e, he⟩ :=
            (ih (sizeOf s) (lt_of_lt_of_le (sizeOf_stmt_head s rest) hsz)).1 s st le_rfl h1
          exact ⟨e, by simp [visitList, Bind.bind, Except.bind, he]⟩
        · cases hv : visitStmt s st with
          | error e => exact ⟨e, by simp [visitList, Bind.bind, Except.bind, hv]⟩
          | ok st1 =>
            obtain ⟨e, he⟩ :=
              (ih (sizeOf rest) (lt_of_lt_of_le (sizeOf_stmt_tail s rest) hsz)).2 rest st1 le_rfl h2
            exact ⟨e, by simp [visitList, Bind.bind, Except.bind, hv, he]⟩

/-- A module with an unsupported construct at an examined position fails
to build. -/
theorem unsup_build_err (prog : List Stmt) (hu : listUnsupV prog = true) :
    ∃ e, buildModule prog = .error e := by
  obtain ⟨e, he⟩ := (unsup_visit_err (sizeOf prog)).2 prog initState le_rfl hu
  exact ⟨e, by simp [buildModule, Bind.bind, Except.bind, he]⟩

/-- C8 (amended): a module containing an unsupported statement or
expression shape at a position the builder actually examines fails to
build (so no diagram is emitted), and an unsupported statement raises an
error carrying its line and column.  Positions the builder skips — the
arguments of a right-hand side once the input heuristic fires — do not
cause failure (see the counterexample). -/
theorem c8_unsupported_fails (prog : List Stmt) (hu : listUnsupV prog = true)
    (l c : Nat) (st : BState) :
    (∃ e, buildModule prog = .error e) ∧
    visitStmt (.unsupported l c) st = .error (.unknownStmt l c) ∧
    (BuildError.unknownStmt l c).pos = some (l, c) :=
  ⟨unsup_build_err prog hu, rfl, rfl⟩

theorem c8_unsupported_fails_witness :
    listUnsupV [Stmt.unsupported 3 0] = true ∧
    ((∃ e, buildModule [Stmt.unsupported 3 0] = .error e) ∧
      visitStmt (.unsupported 3 0) initState = .error (.unknownStmt 3 0) ∧
      (BuildError.unknownStmt 3 0).pos = some (3, 0)) :=
  ⟨rfl, c8_unsupported_fails [Stmt.unsupported 3 0] rfl 3 0 initState⟩

/-- C8 counterexample: `x = f(input(), <unsupported construct>)` contains
an expression shape the formatter cannot parse, yet the build succeeds:
`visit_Assign`'s typecast heuristic returns after seeing `input` in the
first argument, before the arguments are ever parsed.  So "for every
input containing an unsupported construct the build fails" is false. -/
theorem c8_skipped_unsupported_counterexample :
    (∃ st, buildModule [Stmt.assign "x" (.call "f" [.call "input" [], .unsupported 1 10])]
        = .ok st) ∧
    parseChunk (.unsupported 1 10) = .error (.unknownParse 1 10) :=
  ⟨⟨_, rfl⟩, rfl⟩

/-! ## C9: the surface-syntax round trip

The repository contains no parser of its own output: `main` relies on
Python's `ast.parse` to produce the trees the formatter prints.  To
state the round-trip claim we model the lexical and expression grammar
of the supported Python subset; the definitions below marked "modelled
from the spec" follow the spec's description of that surface syntax
rather than code in `src/`. -/

/-- Modelled from the spec: token alphabet of the supported expression
surface syntax.  A bare `=` is deliberately absent: Python's expression
grammar has `==` but no binary `=`, so the formatter's output for `Eq`
has no token. -/
inductive Tok where
  | lparen
  | rparen
  | comma
  | op (s : String)
  | name (s : String)
  | num (n : Nat)
  | str (s : String)
deriving DecidableEq, Repr

/-- Modelled from the spec: ASCII decimal digit. -/
def isDigitC (c : Char) : Bool := 48 ≤ c.toNat && c.toNat ≤ 57

/-- Modelled from the spec: ASCII letter or underscore, the characters
that may open an identifier. -/
def isAlphaC (c : Char) : Bool :=
  (65 ≤ c.toNat && c.toNat ≤ 90) || (97 ≤ c.toNat && c.toNat ≤ 122) || c.toNat == 95

/-- Modelled from the spec: identifier continuation character. -/
def isIdentC (c : Char) : Bool := isAlphaC c || isDigitC c

/-- Value of a decimal digit run, most significant digit first. -/
def digitsVal (cs : List Char) : Nat :=
  cs.foldl (fun a c => 10 * a + (c.toNat - 48)) 0

/-- Modelled from the spec: the lexer of the supported surface syntax,
one maximal-munch token per recursive call.  Fuel bounds the recursion
depth; every call consumes at least one character, so the input length
is always enough fuel. -/
def lexAux : Nat → List Char → Option (List Tok)
  | _, [] => some []
  | 0, _ :: _ => none
  | fuel+1, c :: cs =>
    if c = ' ' then lexAux fuel cs
    else if c = '(' then (lexAux fuel cs).map (Tok.lparen :: ·)
    else if c = ')' then (lexAux fuel cs).map (Tok.rparen :: ·)
    else if c = ',' then (lexAux fuel cs).map (Tok.comma :: ·)
    else if c = '*' then (lexAux fuel cs).map (Tok.op "*" :: ·)
    else if c = '+' then (lexAux fuel cs).map (Tok.op "+" :: ·)
    else if c = '-' then (lexAux fuel cs).map (Tok.op "-" :: ·)
    else if c = '/' then (lexAux fuel cs).map (Tok.op "/" :: ·)
    else if c = '>' then (lexAux fuel cs).map (Tok.op ">" :: ·)
    else if c = '<' then (lexAux fuel cs).map (Tok.op "<" :: ·)
    else if c = '!' then
      match cs with
      | d :: cs2 => if d = '=' then (lexAux fuel cs2).map (Tok.op "!=" :: ·) else none
      | [] => none
    else if c = Char.ofNat 39 then
      match cs.dropWhile (· != Char.ofNat 39) with
      | _ :: rest =>
        (lexAux fuel rest).map
          (Tok.str (String.mk (cs.takeWhile (· != Char.ofNat 39))) :: ·)
      | [] => none
    else if isDigitC c then
      (lexAux fuel (cs.dropWhile isDigitC)).map
        (Tok.num (digitsVal (c :: cs.takeWhile isDigitC)) :: ·)
    else if isAlphaC c then
      (lexAux fuel (cs.dropWhile isIdentC)).map
        ((if String.mk (c :: cs.takeWhile isIdentC) = "and" ||
              String.mk (c :: cs.takeWhile isIdentC) = "or"
          then Tok.op (String.mk (c :: cs.takeWhile isIdentC))
          else Tok.name (String.mk (c :: cs.takeWhile isIdentC))) :: ·)
    else none

/-- Modelled from the spec: lex a whole string. -/
def lex (s : String) : Option (List Tok) := lexAux s.data.length s.data

mutual

/-- The token stream of a formatted expression. -/
def toksOf : Expr → List Tok
  | .binOp l w r => .lparen :: (toksOf l ++ .op w.sym :: toksOf r ++ [.rparen])
  | .num n => [.num n.toNat]
  | .name x => [.name x]
  | .str s => [.str s]
  | .call f args => .name f :: .lparen :: (toksArgs args ++ [.rparen])
  | .boolOp w vs => .lparen :: (toksBool w.sym vs ++ [.rparen])
  | .compare l ops cs => .lparen :: (toksOf l ++ toksCmp ops cs ++ [.rparen])
  | .unsupported _ _ => []

/-- Token stream of a comma-joined argument list. -/
def toksArgs : List Expr → List Tok
  | [] => []
  | e :: es => toksOf e ++ argsTailToks es

/-- Continuation of `toksArgs` after the first argument. -/
def argsTailToks : List Expr → List Tok
  | [] => []
  | e :: es => .comma :: (toksOf e ++ argsTailToks es)

/-- Token stream of an operator-joined boolean chain. -/
def toksBool (w : String) : List Expr → List Tok
  | [] => []
  | e :: es => toksOf e ++ boolTailToks w es

/-- Continuation of `toksBool` after the first operand. -/
def boolTailToks (w : String) : List Expr → List Tok
  | [] => []
  | e :: es => .op w :: (toksOf e ++ boolTailToks w es)

/-- Token stream of a comparison chain's operator-comparator suffix. -/
def toksCmp : List CmpOp → List Expr → List Tok
  | w :: ops, c :: cs => .op w.sym :: (toksOf c ++ toksCmp ops cs)
  | _, _ => []

end

/-- Modelled from the spec: a plausible Python identifier that is not a
boolean keyword — a letter or underscore followed by letters, digits and
underscores, and not the keyword `and` or `or`. -/
def identOk (x : String) : Bool :=
  (match x.data with
   | [] => false
   | c :: cs => isAlphaC c && cs.all isIdentC) &&
  !(x == "and") && !(x == "or")

/-- Modelled from the spec: a string literal body that `repr` quotes
verbatim — no quote character inside, matching the unescaped model in
`pyRepr`. -/
def strOk (s : String) : Bool := s.data.all (· != Char.ofNat 39)

/-- A comparison operator whose printed form Python's expression grammar
accepts; `Eq` prints as `=`, which it does not. -/
def cmpOk (w : CmpOp) : Bool :=
  match w with
  | .eq => false
  | _ => true

mutual

/-- Well-formed expression for the round trip: the shapes an actual
Python parse can hand the formatter — non-negative numeric literals,
plausible identifiers, quote-free string bodies, boolean chains of at
least two operands, comparison chains pairing one comparator with each
operator — restricted to comparison operators other than `Eq`. -/
def wfE : Expr → Bool
  | .binOp l _ r => wfE l && wfE r
  | .num n => (match n with | .ofNat _ => true | .negSucc _ => false)
  | .name x => identOk x
  | .str s => strOk s
  | .call f args => identOk f && wfArgs args
  | .boolOp _ vs =>
    (match vs with
     | _ :: _ :: _ => true
     | _ => false) && wfArgs vs
  | .compare l ops cs =>
    wfE l &&
    (match ops with
     | [] => false
     | _ => true) && wfZip ops cs
  | .unsupported _ _ => false

/-- `wfE` over a list of operands. -/
def wfArgs : List Expr → Bool
  | [] => true
  | e :: es => wfE e && wfArgs es

/-- `wfE` over a comparison chain: comparators in bijection with the
operators, no `Eq`. -/
def wfZip : List CmpOp → List Expr → Bool
  | [], [] => true
  | w :: ops, c :: cs => cmpOk w && wfE c && wfZip ops cs
  | _, _ => false

end

/-- The `operators` table inverted on the arithmetic symbols. -/
def binOpOfSym (s : String) : Option BinOp :=
  if s = "*" then some .mult
  else if s = "+" then some .add
  else if s = "-" then some .sub
  else if s = "/" then some .div
  else none

/-- The `operators` table inverted on the comparison symbols Python's
expression grammar accepts; `=` has no preimage. -/
def cmpOfSym (s : String) : Option CmpOp :=
  if s = ">" then some .gt
  else if s = "<" then some .lt
  else if s = "!=" then some .neq
  else none

mutual

/-- Modelled from the spec: recursive-descent parser for the supported
expression subset — atoms, calls, and the parenthesized binary, boolean
and comparison forms the formatter prints.  Fuel bounds the recursion
depth. -/
def parseE : Nat → List Tok → Option (Expr × List Tok)
  | 0, _ => none
  | fuel+1, ts =>
    match ts with
    | .num n :: r => some (.num (Int.ofNat n), r)
    | .str s :: r => some (.str s, r)
    | .name x :: .lparen :: r =>
      (parseCallArgs fuel r).bind fun p => some (.call x p.1, p.2)
    | .name x :: r => some (.name x, r)
    | .lparen :: r =>
      (parseE fuel r).bind fun p =>
      (match p.2 with
       | .op o :: r2 =>
         if o = "and" then
           (parseBoolChain fuel "and" p.2).bind fun q =>
             some (.boolOp .band (p.1 :: q.1), q.2)
         else if o = "or" then
           (parseBoolChain fuel "or" p.2).bind fun q =>
             some (.boolOp .bor (p.1 :: q.1), q.2)
         else
           match cmpOfSym o with
           | some _ =>
             (parseCmpChain fuel p.2).bind fun q =>
               some (.compare p.1 q.1 q.2.1, q.2.2)
           | none =>
             match binOpOfSym o with
             | some w =>
               (parseE fuel r2).bind fun q =>
               (match q.2 with
                | .rparen :: r3 => some (.binOp p.1 w q.1, r3)
                | _ => none)
             | none => none
       | _ => none)
    | _ => none

/-- Argument-list parser entered right after a call's `(`. -/
def parseCallArgs : Nat → List Tok → Option (List Expr × List Tok)
  | 0, _ => none
  | fuel+1, ts =>
    match ts with
    | .rparen :: r => some ([], r)
    | _ =>
      (parseE fuel ts).bind fun p =>
      (parseArgsTail fuel p.2).bind fun q => some (p.1 :: q.1, q.2)

/-- Argument-list continuation: `, expr` repetitions up to `)`. -/
def parseArgsTail : Nat → List Tok → Option (List Expr × List Tok)
  | 0, _ => none
  | _fuel+1, .rparen :: r => some ([], r)
  | fuel+1, .comma :: ts =>
    (parseE fuel ts).bind fun p =>
    (parseArgsTail fuel p.2).bind fun q => some (p.1 :: q.1, q.2)
  | _+1, _ => none

/-- Boolean-chain continuation: `op expr` repetitions of one operator up
to `)`. -/
def parseBoolChain : Nat → String → List Tok → Option (List Expr × List Tok)
  | 0, _, _ => none
  | _fuel+1, _, .rparen :: r => some ([], r)
  | fuel+1, w, .op o :: ts =>
    if o = w then
      (parseE fuel ts).bind fun p =>
      (parseBoolChain fuel w p.2).bind fun q => some (p.1 :: q.1, q.2)
    else none
  | _+1, _, _ => none

/-- Comparison-chain continuation: `cmp expr` repetitions up to `)`. -/
def parseCmpChain : Nat → List Tok → Option (List CmpOp × List Expr × List Tok)
  | 0, _ => none
  | _fuel+1, .rparen :: r => some ([], [], r)
  | fuel+1, .op o :: ts =>
    (match cmpOfSym o with
     | some w =>
       (parseE fuel ts).bind fun p =>
       (parseCmpChain fuel p.2).bind fun q => some (w :: q.1, p.1 :: q.2.1, q.2.2)
     | none => none)
  | _+1, _ => none

end

/-- Whether the first character (if any) fails the predicate: the run of
`p`-characters cannot continue into this suffix. -/
def headFails (p : Char → Bool) : List Char → Bool
  | [] => true
  | c :: _ => !p c

/-- Boundary characters that may follow a complete printed
subexpression: space, comma, closing parenthesis. -/
def boundC (c : Char) : Bool := c == ' ' || c == ',' || c == ')'

/-- A character list a complete printed subexpression may be followed
by: empty, or opening with a boundary character. -/
def bnd : List Char → Bool
  | [] => true
  | c :: _ => boundC c

theorem takeWhile_append_run (p : Char → Bool) (l rest : List Char)
    (hl : l.all p = true) (hr : headFails p rest = true) :
    (l ++ rest).takeWhile p = l := by
  induction l with
  | nil =>
    cases rest with
    | nil => rfl
    | cons c cs =>
      have hc : p c = false := by
        have := hr
        rw [headFails] at this
        cases hpc : p c with
        | false => rfl
        | true => rw [hpc] at this; exact Bool.noConfusion this
      simp [List.takeWhile_cons, hc]
  | cons a l ih =>
    have ha : p a = true := by
      rw [List.all_cons] at hl
      exact (Bool.and_eq_true_iff.mp hl).1
    have hl2 : l.all p = true := by
      rw [List.all_cons] at hl
      exact (Bool.and_eq_true_iff.mp hl).2
    simp [List.takeWhile_cons, ha, ih hl2]

theorem dropWhile_append_run (p : Char → Bool) (l rest : List Char)
    (hl : l.all p = true) (hr : headFails p rest = true) :
    (l ++ rest).dropWhile p = rest := by
  induction l with
  | nil =>
    cases rest with
    | nil => rfl
    | cons c cs =>
      have hc : p c = false := by
        have := hr
        rw [headFails] at this
        cases hpc : p c with
        | false => rfl
        | true => rw [hpc] at this; exact Bool.noConfusion this
      simp [List.dropWhile_cons, hc]
  | cons a l ih =>
    have ha : p a = true := by
      rw [List.all_cons] at hl
      exact (Bool.and_eq_true_iff.mp hl).1
    have hl2 : l.all p = true := by
      rw [List.all_cons] at hl
      exact (Bool.and_eq_true_iff.mp hl).2
    simp [List.dropWhile_cons, ha, ih hl2]

theorem digitsVal_append_one (l : List Char) (c : Char) :
    digitsVal (l ++ [c]) = 10 * digitsVal l + (c.toNat - 48) := by
  simp [digitsVal, List.foldl_append]

theorem digitChar_spec (k : Nat) (hk : k < 10) :
    isDigitC (Nat.digitChar k) = true ∧ (Nat.digitChar k).toNat - 48 = k := by
  interval_cases k <;> exact ⟨rfl, rfl⟩

theorem toDigitsCore_spec :
    ∀ fuel n ds, n < fuel →
      ∃ cs, Nat.toDigitsCore 10 fuel n ds = cs ++ ds ∧ cs ≠ [] ∧
        cs.all isDigitC = true ∧ digitsVal cs = n := by
  intro fuel
  induction fuel with
  | zero => intro n ds h; omega
  | succ fuel ih =>
    intro n ds h
    have e0 : Nat.toDigitsCore 10 (fuel+1) n ds =
        if n / 10 = 0 then (n % 10).digitChar :: ds
        else Nat.toDigitsCore 10 fuel (n / 10) ((n % 10).digitChar :: ds) := rfl
    rw [e0]
    by_cases h0 : n / 10 = 0
    · rw [if_pos h0]
      have hn : n < 10 := by omega
      have hd := digitChar_spec (n % 10) (Nat.mod_lt _ (by omega))
      refine ⟨[(n % 10).digitChar], rfl, by simp, ?_, ?_⟩
      · simp [List.all_cons, hd.1]
      · have : digitsVal [(n % 10).digitChar] = (n % 10).digitChar.toNat - 48 := by
          simp [digitsVal]
        rw [this, hd.2]
        omega
    · rw [if_neg h0]
      have hpos : 0 < n := by
        by_contra hle
        have : n = 0 := by omega
        subst this
        exact h0 rfl
      have hlt : n / 10 < fuel := by
        have := Nat.div_lt_self hpos (by omega : 1 < 10)
        omega
      obtain ⟨cs, hcs, hne, hall, hval⟩ := ih (n / 10) ((n % 10).digitChar :: ds) hlt
      have hd := digitChar_spec (n % 10) (Nat.mod_lt _ (by omega))
      refine ⟨cs ++ [(n % 10).digitChar], by rw [hcs]; simp, by simp, ?_, ?_⟩
      · simp [List.all_append, hall, hd.1]
      · rw [digitsVal_append_one, hval, hd.2]
        omega

theorem nat_repr_digits (m : Nat) :
    ∃ d ds, (Nat.repr m).data = d :: ds ∧ isDigitC d = true ∧
      ds.all isDigitC = true ∧ digitsVal (d :: ds) = m := by
  obtain ⟨cs, hcs, hne, hall, hval⟩ := toDigitsCore_spec (m+1) m [] (Nat.lt_succ_self m)
  rw [List.append_nil] at hcs
  have hdata : (Nat.repr m).data = cs := by
    show (Nat.toDigits 10 m).asString.data = cs
    rw [show Nat.toDigits 10 m = Nat.toDigitsCore 10 (m+1) m [] from rfl, hcs]
    rfl
  cases cs with
  | nil => exact absurd rfl hne
  | cons d ds =>
    rw [List.all_cons] at hall
    exact ⟨d, ds, hdata, (Bool.and_eq_true_iff.mp hall).1,
      (Bool.and_eq_true_iff.mp hall).2, hval⟩

theorem boundC_classes (c : Char) (hc : boundC c = true) :
    isDigitC c = false ∧ isIdentC c = false ∧ (c = Char.ofNat 39) = False := by
  rw [boundC, Bool.or_eq_true, Bool.or_eq_true] at hc
  rcases hc with (h | h) | h <;>
    (rw [show c = _ from beq_iff_eq.mp h]; exact ⟨rfl, rfl, by simp⟩)

theorem bnd_headFails_digit (rest : List Char) (h : bnd rest = true) :
    headFails isDigitC rest = true := by
  cases rest with
  | nil => rfl
  | cons c cs =>
    rw [headFails, (boundC_classes c h).1]
    rfl

theorem bnd_headFails_ident (rest : List Char) (h : bnd rest = true) :
    headFails isIdentC rest = true := by
  cases rest with
  | nil => rfl
  | cons c cs =>
    rw [headFails, (boundC_classes c h).2.1]
    rfl

theorem ne_digit_char {d c : Char} (hd : isDigitC d = true) (hc : isDigitC c = false) :
    ¬(d = c) :=
  fun h => by rw [h, hc] at hd; exact Bool.noConfusion hd

theorem alpha_not_digit (c : Char) (h : isAlphaC c = true) : isDigitC c = false := by
  cases hd : isDigitC c with
  | false => rfl
  | true =>
    exfalso
    rw [isDigitC] at hd
    rw [isAlphaC] at h
    simp only [Bool.or_eq_true, Bool.and_eq_true, decide_eq_true_eq, beq_iff_eq] at h hd
    omega

theorem ne_alpha_char {d c : Char} (hd : isAlphaC d = true) (hc : isAlphaC c = false) :
    ¬(d = c) :=
  fun h => by rw [h, hc] at hd; exact Bool.noConfusion hd

theorem lex_space (f : Nat) (cs : List Char) : lexAux (f+1) (' ' :: cs) = lexAux f cs := rfl

theorem lex_lparen (f : Nat) (cs : List Char) :
    lexAux (f+1) ('(' :: cs) = (lexAux f cs).map (Tok.lparen :: ·) := rfl

theorem lex_rparen (f : Nat) (cs : List Char) :
    lexAux (f+1) (')' :: cs) = (lexAux f cs).map (Tok.rparen :: ·) := rfl

theorem lex_comma (f : Nat) (cs : List Char) :
    lexAux (f+1) (',' :: cs) = (lexAux f cs).map (Tok.comma :: ·) := rfl

theorem lex_mult (f : Nat) (cs : List Char) :
    lexAux (f+1) ('*' :: cs) = (lexAux f cs).map (Tok.op "*" :: ·) := rfl

theorem lex_add (f : Nat) (cs : List Char) :
    lexAux (f+1) ('+' :: cs) = (lexAux f cs).map (Tok.op "+" :: ·) := rfl

theorem lex_sub (f : Nat) (cs : List Char) :
    lexAux (f+1) ('-' :: cs) = (lexAux f cs).map (Tok.op "-" :: ·) := rfl

theorem lex_div (f : Nat) (cs : List Char) :
    lexAux (f+1) ('/' :: cs) = (lexAux f cs).map (Tok.op "/" :: ·) := rfl

theorem lex_gt (f : Nat) (cs : List Char) :
    lexAux (f+1) ('>' :: cs) = (lexAux f cs).map (Tok.op ">" :: ·) := rfl

theorem lex_lt (f : Nat) (cs : List Char) :
    lexAux (f+1) ('<' :: cs) = (lexAux f cs).map (Tok.op "<" :: ·) := rfl

theorem lex_neq (f : Nat) (cs : List Char) :
    lexAux (f+1) ('!' :: '=' :: cs) = (lexAux f cs).map (Tok.op "!=" :: ·) := rfl

theorem lexAux_cons (fuel : Nat) (c : Char) (cs : List Char) :
    lexAux (fuel+1) (c :: cs) =
      (if c = ' ' then lexAux fuel cs
       else if c = '(' then (lexAux fuel cs).map (Tok.lparen :: ·)
       else if c = ')' then (lexAux fuel cs).map (Tok.rparen :: ·)
       else if c = ',' then (lexAux fuel cs).map (Tok.comma :: ·)
       else if c = '*' then (lexAux fuel cs).map (Tok.op "*" :: ·)
       else if c = '+' then (lexAux fuel cs).map (Tok.op "+" :: ·)
       else if c = '-' then (lexAux fuel cs).map (Tok.op "-" :: ·)
       else if c = '/' then (lexAux fuel cs).map (Tok.op "/" :: ·)
       else if c = '>' then (lexAux fuel cs).map (Tok.op ">" :: ·)
       else if c = '<' then (lexAux fuel cs).map (Tok.op "<" :: ·)
       else if c = '!' then
         match cs with
         | d :: cs2 => if d = '=' then (lexAux fuel cs2).map (Tok.op "!=" :: ·) else none
         | [] => none
       else if c = Char.ofNat 39 then
         match cs.dropWhile (· != Char.ofNat 39) with
         | _ :: rest =>
           (lexAux fuel rest).map
             (Tok.str (String.mk (cs.takeWhile (· != Char.ofNat 39))) :: ·)
         | [] => none
       else if isDigitC c then
         (lexAux fuel (cs.dropWhile isDigitC)).map
           (Tok.num (digitsVal (c :: cs.takeWhile isDigitC)) :: ·)
       else if isAlphaC c then
         (lexAux fuel (cs.dropWhile isIdentC)).map
           ((if String.mk (c :: cs.takeWhile isIdentC) = "and" ||
                 String.mk (c :: cs.takeWhile isIdentC) = "or"
             then Tok.op (String.mk (c :: cs.takeWhile isIdentC))
             else Tok.name (String.mk (c :: cs.takeWhile isIdentC))) :: ·)
       else none) := rfl

theorem lex_digit_run (f : Nat) (d : Char) (ds rest : List Char)
    (hd : isDigitC d = true) (hds : ds.all isDigitC = true)
    (hrest : headFails isDigitC rest = true) :
    lexAux (f+1) (d :: (ds ++ rest)) =
      (lexAux f rest).map (Tok.num (digitsVal (d :: ds)) :: ·) := by
  rw [lexAux_cons]
  rw [if_neg (ne_digit_char hd (by decide)), if_neg (ne_digit_char hd (by decide)),
    if_neg (ne_digit_char hd (by decide)), if_neg (ne_digit_char hd (by decide)),
    if_neg (ne_digit_char hd (by decide)), if_neg (ne_digit_char hd (by decide)),
    if_neg (ne_digit_char hd (by decide)), if_neg (ne_digit_char hd (by decide)),
    if_neg (ne_digit_char hd (by decide)), if_neg (ne_digit_char hd (by decide)),
    if_neg (ne_digit_char hd (by decide)), if_neg (ne_digit_char hd (by decide)),
    if_pos hd, takeWhile_append_run isDigitC ds rest hds hrest,
    dropWhile_append_run isDigitC ds rest hds hrest]

theorem lex_ident_run (f : Nat) (c : Char) (ds rest : List Char)
    (hc : isAlphaC c = true) (hds : ds.all isIdentC = true)
    (hrest : headFails isIdentC rest = true) :
    lexAux (f+1) (c :: (ds ++ rest)) =
      (lexAux f rest).map
        ((if String.mk (c :: ds) = "and" || String.mk (c :: ds) = "or"
          then Tok.op (String.mk (c :: ds))
          else Tok.name (String.mk (c :: ds))) :: ·) := by
  rw [lexAux_cons]
  rw [if_neg (ne_alpha_char hc (by decide)), if_neg (ne_alpha_char hc (by decide)),
    if_neg (ne_alpha_char hc (by decide)), if_neg (ne_alpha_char hc (by decide)),
    if_neg (ne_alpha_char hc (by decide)), if_neg (ne_alpha_char hc (by decide)),
    if_neg (ne_alpha_char hc (by decide)), if_neg (ne_alpha_char hc (by decide)),
    if_neg (ne_alpha_char hc (by decide)), if_neg (ne_alpha_char hc (by decide)),
    if_neg (ne_alpha_char hc (by decide)), if_neg (ne_alpha_char hc (by decide)),
    alpha_not_digit c hc]
  simp only [Bool.false_eq_true, if_false]
  rw [if_pos hc, takeWhile_append_run isIdentC ds rest hds hrest,
    dropWhile_append_run isIdentC ds rest hds hrest]

theorem lex_str_run (f : Nat) (s : String) (rest : List Char) (hs : strOk s = true) :
    lexAux (f+1) ((pyRepr s).data ++ rest) = (lexAux f rest).map (Tok.str s :: ·) := by
  have hdata : (pyRepr s).data ++ rest =
      Char.ofNat 39 :: (s.data ++ (Char.ofNat 39 :: rest)) := by
    simp [pyRepr, String.data_append, String.singleton]
  rw [hdata]
  rw [lexAux_cons]
  rw [if_neg (by decide : ¬(Char.ofNat 39 = ' ')),
    if_neg (by decide : ¬(Char.ofNat 39 = '(')),
    if_neg (by decide : ¬(Char.ofNat 39 = ')')),
    if_neg (by decide : ¬(Char.ofNat 39 = ',')),
    if_neg (by decide : ¬(Char.ofNat 39 = '*')),
    if_neg (by decide : ¬(Char.ofNat 39 = '+')),
    if_neg (by decide : ¬(Char.ofNat 39 = '-')),
    if_neg (by decide : ¬(Char.ofNat 39 = '/')),
    if_neg (by decide : ¬(Char.ofNat 39 = '>')),
    if_neg (by decide : ¬(Char.ofNat 39 = '<')),
    if_neg (by decide : ¬(Char.ofNat 39 = '!')),
    if_pos rfl]
  have hall : s.data.all (· != Char.ofNat 39) = true := hs
  have hhf : headFails (· != Char.ofNat 39) (Char.ofNat 39 :: rest) = true := by
    rw [headFails]
    simp
  rw [dropWhile_append_run _ _ _ hall hhf, takeWhile_append_run _ _ _ hall hhf]

theorem lex_name_run (f : Nat) (x : String) (rest : List Char)
    (hx : identOk x = true) (hrest : headFails isIdentC rest = true) :
    lexAux (f+1) (x.data ++ rest) = (lexAux f rest).map (Tok.name x :: ·) := by
  rw [identOk, Bool.and_eq_true, Bool.and_eq_true] at hx
  obtain ⟨⟨hshape, hand⟩, hor⟩ := hx
  cases hxd : x.data with
  | nil => rw [hxd] at hshape; exact Bool.noConfusion hshape
  | cons c ds =>
    rw [hxd] at hshape
    rw [Bool.and_eq_true] at hshape
    have hmk : String.mk (c :: ds) = x := by rw [← hxd]
    have hne1 : ¬(String.mk (c :: ds) = "and") := by
      rw [hmk]
      intro h
      rw [h] at hand
      exact Bool.noConfusion hand
    have hne2 : ¬(String.mk (c :: ds) = "or") := by
      rw [hmk]
      intro h
      rw [h] at hor
      exact Bool.noConfusion hor
    rw [List.cons_append, lex_ident_run f c ds rest hshape.1 hshape.2 hrest,
      if_neg (by simp [hne1, hne2]), hmk]

theorem lex_kw_and (f : Nat) (rest : List Char) (hrest : headFails isIdentC rest = true) :
    lexAux (f+1) ("and".data ++ rest) = (lexAux f rest).map (Tok.op "and" :: ·) := by
  rw [show "and".data ++ rest = 'a' :: (['n', 'd'] ++ rest) from rfl,
    lex_ident_run f 'a' ['n', 'd'] rest (by decide) (by decide) hrest]
  rw [if_pos (by simp : (String.mk ['a', 'n', 'd'] = "and" || String.mk ['a', 'n', 'd'] = "or") = true)]

theorem lex_kw_or (f : Nat) (rest : List Char) (hrest : headFails isIdentC rest = true) :
    lexAux (f+1) ("or".data ++ rest) = (lexAux f rest).map (Tok.op "or" :: ·) := by
  rw [show "or".data ++ rest = 'o' :: (['r'] ++ rest) from rfl,
    lex_ident_run f 'o' ['r'] rest (by decide) (by decide) hrest]
  rw [if_pos (by simp : (String.mk ['o', 'r'] = "and" || String.mk ['o', 'r'] = "or") = true)]

theorem lexAux_nil (g : Nat) : lexAux g [] = some [] := by
  cases g <;> rfl

theorem dropWhile_length_le (p : Char → Bool) (l : List Char) :
    (l.dropWhile p).length ≤ l.length := by
  induction l with
  | nil => exact le_rfl
  | cons c cs ih =>
    rw [List.dropWhile_cons]
    by_cases hc : p c = true
    · rw [if_pos hc]
      exact le_trans ih (by simp)
    · rw [if_neg hc]

theorem lexAux_fuel :
    ∀ f cs ts, lexAux f cs = some ts → ∀ g, cs.length ≤ g → lexAux g cs = some ts := by
  intro f
  induction f with
  | zero =>
    intro cs ts h g hg
    cases cs with
    | nil =>
      rw [lexAux_nil] at h
      rw [lexAux_nil, h]
    | cons c cs2 => exact absurd h (by rw [show lexAux 0 (c :: cs2) = none from rfl]; simp)
  | succ f ih =>
    intro cs ts h g hg
    cases cs with
    | nil =>
      rw [lexAux_nil] at h
      rw [lexAux_nil, h]
    | cons c cs2 =>
      obtain ⟨g2, rfl⟩ : ∃ g2, g = g2 + 1 := by
        refine ⟨g - 1, ?_⟩
        have : 1 ≤ g := le_trans (by simp) hg
        omega
      have hlen : cs2.length ≤ g2 := by
        simp only [List.length_cons] at hg
        omega
      rw [lexAux_cons] at h
      rw [lexAux_cons]
      have step : ∀ (k : List Tok → List Tok) (X : List Char), X.length ≤ g2 →
          (lexAux f X).map k = some ts → (lexAux g2 X).map k = some ts := by
        intro k X hX hmap
        obtain ⟨ts0, h0, hk⟩ := Option.map_eq_some'.mp hmap
        rw [ih X ts0 h0 g2 hX]
        simp [hk]
      by_cases h1 : c = ' '
      · rw [if_pos h1] at h ⊢
        exact ih cs2 ts h g2 hlen
      · rw [if_neg h1] at h ⊢
        by_cases h2 : c = '('
        · rw [if_pos h2] at h ⊢
          exact step _ _ hlen h
        · rw [if_neg h2] at h ⊢
          by_cases h3 : c = ')'
          · rw [if_pos h3] at h ⊢
            exact step _ _ hlen h
          · rw [if_neg h3] at h ⊢
            by_cases h4 : c = ','
            · rw [if_pos h4] at h ⊢
              exact step _ _ hlen h
            · rw [if_neg h4] at h ⊢
              by_cases h5 : c = '*'
              · rw [if_pos h5] at h ⊢
                exact step _ _ hlen h
              · rw [if_neg h5] at h ⊢
                by_cases h6 : c = '+'
                · rw [if_pos h6] at h ⊢
                  exact step _ _ hlen h
                · rw [if_neg h6] at h ⊢
                  by_cases h7 : c = '-'
                  · rw [if_pos h7] at h ⊢
                    exact step _ _ hlen h
                  · rw [if_neg h7] at h ⊢
                    by_cases h8 : c = '/'
                    · rw [if_pos h8] at h ⊢
                      exact step _ _ hlen h
                    · rw [if_neg h8] at h ⊢
                      by_cases h9 : c = '>'
                      · rw [if_pos h9] at h ⊢
                        exact step _ _ hlen h
                      · rw [if_neg h9] at h ⊢
                        by_cases h10 : c = '<'
                        · rw [if_pos h10] at h ⊢
                          exact step _ _ hlen h
                        · rw [if_neg h10] at h ⊢
                          by_cases h11 : c = '!'
                          · rw [if_pos h11] at h ⊢
                            cases cs2 with
                            | nil => exact absurd h (by simp)
                            | cons d cs3 =>
                              dsimp only at h ⊢
                              by_cases hd : d = '='
                              · rw [if_pos hd] at h ⊢
                                refine step _ _ ?_ h
                                simp only [List.length_cons] at hlen
                                omega
                              · rw [if_neg hd] at h
                                exact absurd h (by simp)
                          · rw [if_neg h11] at h ⊢
                            by_cases h12 : c = Char.ofNat 39
                            · rw [if_pos h12] at h ⊢
                              cases hdw : cs2.dropWhile (· != Char.ofNat 39) with
                              | nil =>
                                rw [hdw] at h
                                exact absurd h (by simp)
                              | cons q rest =>
                                rw [hdw] at h
                                dsimp only at h ⊢
                                refine step _ _ ?_ h
                                have hd2 := dropWhile_length_le (· != Char.ofNat 39) cs2
                                rw [hdw] at hd2
                                simp only [List.length_cons] at hd2
                                omega
                            · rw [if_neg h12] at h ⊢
                              by_cases h13 : isDigitC c = true
                              · rw [if_pos h13] at h ⊢
                                exact step _ _
                                  (le_trans (dropWhile_length_le isDigitC cs2) hlen) h
                              · rw [if_neg h13] at h ⊢
                                by_cases h14 : isAlphaC c = true
                                · rw [if_pos h14] at h ⊢
                                  exact step _ _
                                    (le_trans (dropWhile_length_le isIdentC cs2) hlen) h
                                · rw [if_neg h14] at h
                                  exact absurd h (by simp)

/-- The tail of a separator-joined list: `sep ++ element` repeated. -/
def joinTail (sep : String) : List String → String
  | [] => ""
  | a :: as => sep ++ a ++ joinTail sep as

theorem intercalate_go_eq (l : List String) :
    ∀ a sep, String.intercalate.go a sep l = a ++ joinTail sep l := by
  induction l with
  | nil =>
    intro a sep
    show a = a ++ ""
    rw [String.append_empty]
  | cons b l ih =>
    intro a sep
    show String.intercalate.go (a ++ sep ++ b) sep l = a ++ joinTail sep (b :: l)
    rw [ih]
    show a ++ sep ++ b ++ joinTail sep l = a ++ (sep ++ b ++ joinTail sep l)
    simp [String.append_assoc]

theorem intercalate_cons (sep a : String) (l : List String) :
    String.intercalate sep (a :: l) = a ++ joinTail sep l :=
  intercalate_go_eq l a sep

theorem lex_binop_sym (f : Nat) (w : BinOp) (cs : List Char) :
    lexAux (f+1) (w.sym.data ++ cs) = (lexAux f cs).map (Tok.op w.sym :: ·) := by
  cases w
  · exact lex_mult f cs
  · exact lex_add f cs
  · exact lex_sub f cs
  · exact lex_div f cs

theorem lex_cmp_sym (f : Nat) (w : CmpOp) (cs : List Char) (hw : cmpOk w = true) :
    lexAux (f+1) (w.sym.data ++ cs) = (lexAux f cs).map (Tok.op w.sym :: ·) := by
  cases w
  · exact lex_gt f cs
  · exact lex_lt f cs
  · exact Bool.noConfusion hw
  · exact lex_neq f cs

theorem lex_boolsep (f : Nat) (w : BoolOp) (cs : List Char) :
    lexAux (f+3) ((" " ++ w.sym ++ " ").data ++ cs) = (lexAux f cs).map (Tok.op w.sym :: ·) := by
  cases w
  · have s1 : lexAux (f+1) (' ' :: cs) = lexAux f cs := lex_space f cs
    have s2 : lexAux (f+2) ("or".data ++ (' ' :: cs)) =
        (lexAux (f+1) (' ' :: cs)).map (Tok.op "or" :: ·) := lex_kw_or (f+1) _ rfl
    have s3 : lexAux (f+3) (' ' :: ("or".data ++ (' ' :: cs))) =
        lexAux (f+2) ("or".data ++ (' ' :: cs)) := lex_space (f+2) _
    show lexAux (f+3) (' ' :: ("or".data ++ (' ' :: cs))) = (lexAux f cs).map (Tok.op "or" :: ·)
    rw [s3, s2, s1]
  · have s1 : lexAux (f+1) (' ' :: cs) = lexAux f cs := lex_space f cs
    have s2 : lexAux (f+2) ("and".data ++ (' ' :: cs)) =
        (lexAux (f+1) (' ' :: cs)).map (Tok.op "and" :: ·) := lex_kw_and (f+1) _ rfl
    have s3 : lexAux (f+3) (' ' :: ("and".data ++ (' ' :: cs))) =
        lexAux (f+2) ("and".data ++ (' ' :: cs)) := lex_space (f+2) _
    show lexAux (f+3) (' ' :: ("and".data ++ (' ' :: cs))) = (lexAux f cs).map (Tok.op "and" :: ·)
    rw [s3, s2, s1]

theorem bnd_boolsep (w : BoolOp) (X : List Char) :
    bnd ((" " ++ w.sym ++ " ").data ++ X) = true := by
  cases w <;> rfl

theorem joinTail_cons_eq (sep a : String) (l : List String) :
    joinTail sep (a :: l) = sep ++ String.intercalate sep (a :: l) := by
  rw [intercalate_cons]
  show sep ++ a ++ joinTail sep l = sep ++ (a ++ joinTail sep l)
  rw [String.append_assoc]

theorem inter_single (sep a : String) : String.intercalate sep [a] = a := by
  rw [intercalate_cons]
  show a ++ "" = a
  rw [String.append_empty]

theorem wfE_boolOp_args (w : BoolOp) (vs : List Expr)
    (h : wfE (Expr.boolOp w vs) = true) : wfArgs vs = true := by
  cases vs with
  | nil => exact Bool.noConfusion h
  | cons a l =>
    cases l with
    | nil => exact Bool.noConfusion h
    | cons b l2 =>
      have h2 : (true && wfArgs (a :: b :: l2)) = true := h
      simpa using h2

theorem wfE_boolOp_shape (w : BoolOp) (vs : List Expr)
    (h : wfE (Expr.boolOp w vs) = true) : ∃ a b l, vs = a :: b :: l := by
  cases vs with
  | nil => exact Bool.noConfusion h
  | cons a l =>
    cases l with
    | nil => exact Bool.noConfusion h
    | cons b l2 => exact ⟨a, b, l2, rfl⟩

theorem wfE_compare_parts (l : Expr) (ops : List CmpOp) (cs : List Expr)
    (h : wfE (Expr.compare l ops cs) = true) :
    wfE l = true ∧ wfZip ops cs = true := by
  cases ops with
  | nil =>
    have h2 : ((wfE l && false) && wfZip ([] : List CmpOp) cs) = true := h
    simp at h2
  | cons w ops2 =>
    have h2 : ((wfE l && true) && wfZip (w :: ops2) cs) = true := h
    simp only [Bool.and_true, Bool.and_eq_true] at h2
    exact h2

/-- Lexing a formatted expression: formatting succeeds on well-formed
expressions and the lexer turns the output, followed by any boundary
suffix, into the expression token stream followed by the suffix tokens.
Stated for single expressions, comma-joined argument lists,
boolean-operator-joined chains and comparison suffixes together. -/
theorem fmt_lex (n : Nat) :
    (∀ e, sizeOf e ≤ n → wfE e = true → ∀ rest f ts, bnd rest = true →
      lexAux f rest = some ts →
      ∃ s, parseChunk e = .ok s ∧
        ∃ g, lexAux g (s.data ++ rest) = some (toksOf e ++ ts)) ∧
    (∀ es, sizeOf es ≤ n → wfArgs es = true → ∀ rest f ts, bnd rest = true →
      lexAux f rest = some ts →
      ∃ ss, parseArgs es = .ok ss ∧ ss.length = es.length ∧
        ∃ g, lexAux g ((String.intercalate ", " ss).data ++ rest) =
          some (toksArgs es ++ ts)) ∧
    (∀ vs, sizeOf vs ≤ n → wfArgs vs = true → ∀ (w : BoolOp) rest f ts, bnd rest = true →
      lexAux f rest = some ts →
      ∃ ss, parseArgs vs = .ok ss ∧ ss.length = vs.length ∧
        ∃ g, lexAux g ((String.intercalate (" " ++ w.sym ++ " ") ss).data ++ rest) =
          some (toksBool w.sym vs ++ ts)) ∧
    (∀ ops cs, sizeOf cs ≤ n → wfZip ops cs = true → ∀ rest f ts, bnd rest = true →
      lexAux f rest = some ts →
      ∃ s, parseCompareAux ops cs = .ok s ∧ bnd (s.data ++ rest) = true ∧
        ∃ g, lexAux g (s.data ++ rest) = some (toksCmp ops cs ++ ts)) := by
  induction n using Nat.strong_induction_on with
  | _ n ih =>
    refine ⟨?_, ?_, ?_, ?_⟩
    · intro e hsz hwf rest f ts hbnd hrest
      cases e with
      | num v =>
        cases v with
        | negSucc m => exact Bool.noConfusion hwf
        | ofNat m =>
          obtain ⟨d, ds, hdd, hd1, hds, hval⟩ := nat_repr_digits m
          refine ⟨toString (Int.ofNat m), rfl, f+1, ?_⟩
          have hdata : (toString (Int.ofNat m)).data ++ rest = d :: (ds ++ rest) := by
            rw [show toString (Int.ofNat m) = Nat.repr m from rfl, hdd]
            rfl
          rw [hdata,
            lex_digit_run f d ds rest hd1 hds (bnd_headFails_digit rest hbnd), hrest, hval]
          rfl
      | name x =>
        refine ⟨x, rfl, f+1, ?_⟩
        rw [lex_name_run f x rest hwf (bnd_headFails_ident rest hbnd), hrest]
        rfl
      | str v =>
        refine ⟨pyRepr v, rfl, f+1, ?_⟩
        rw [lex_str_run f v rest hwf, hrest]
        rfl
      | binOp l w r =>
        have hwf2 : (wfE l && wfE r) = true := hwf
        obtain ⟨hwl, hwr⟩ := Bool.and_eq_true_iff.mp hwf2
        have h0 : lexAux (f+1) (')' :: rest) = some (Tok.rparen :: ts) := by
          rw [lex_rparen, hrest]
          rfl
        obtain ⟨sr, hpr, g1, hg1⟩ :=
          (ih (sizeOf r) (lt_of_lt_of_le
            (by simp only [Expr.binOp.sizeOf_spec]; omega :
              sizeOf r < sizeOf (Expr.binOp l w r)) hsz)).1
            r le_rfl hwr (')' :: rest) (f+1) (Tok.rparen :: ts) rfl h0
        have h2 : lexAux (g1+1) (' ' :: (sr.data ++ (')' :: rest))) =
            some (toksOf r ++ (Tok.rparen :: ts)) := by
          rw [lex_space]
          exact hg1
        have h3 : lexAux (g1+1+1) (w.sym.data ++ (' ' :: (sr.data ++ (')' :: rest)))) =
            some (Tok.op w.sym :: (toksOf r ++ (Tok.rparen :: ts))) := by
          rw [lex_binop_sym, h2]
          rfl
        have h4 : lexAux (g1+1+1+1)
            (' ' :: (w.sym.data ++ (' ' :: (sr.data ++ (')' :: rest))))) =
            some (Tok.op w.sym :: (toksOf r ++ (Tok.rparen :: ts))) := by
          rw [lex_space]
          exact h3
        obtain ⟨sl, hpl, g2, hg2⟩ :=
          (ih (sizeOf l) (lt_of_lt_of_le
            (by simp only [Expr.binOp.sizeOf_spec]; omega :
              sizeOf l < sizeOf (Expr.binOp l w r)) hsz)).1
            l le_rfl hwl
            (' ' :: (w.sym.data ++ (' ' :: (sr.data ++ (')' :: rest))))) (g1+1+1+1)
            (Tok.op w.sym :: (toksOf r ++ (Tok.rparen :: ts))) rfl h4
        refine ⟨"(" ++ sl ++ " " ++ w.sym ++ " " ++ sr ++ ")", ?_, g2+1, ?_⟩
        · simp [parseChunk, hpl, hpr, Bind.bind, Except.bind]
          rfl
        · have hdata : ("(" ++ sl ++ " " ++ w.sym ++ " " ++ sr ++ ")").data ++ rest =
              '(' :: (sl.data ++ (' ' :: (w.sym.data ++ (' ' :: (sr.data ++ (')' :: rest)))))) := by
            simp [String.data_append, List.append_assoc]
          rw [hdata, lex_lparen, hg2]
          show some (Tok.lparen ::
              (toksOf l ++ (Tok.op w.sym :: (toksOf r ++ (Tok.rparen :: ts))))) =
            some (toksOf (Expr.binOp l w r) ++ ts)
          simp [toksOf, List.append_assoc]
      | call fn args =>
        have hwf2 : (identOk fn && wfArgs args) = true := hwf
        obtain ⟨hfn, hargs⟩ := Bool.and_eq_true_iff.mp hwf2
        have h0 : lexAux (f+1) (')' :: rest) = some (Tok.rparen :: ts) := by
          rw [lex_rparen, hrest]
          rfl
        obtain ⟨ss, hps, hlen, g1, hg1⟩ :=
          (ih (sizeOf args) (lt_of_lt_of_le
            (by simp only [Expr.call.sizeOf_spec]; omega :
              sizeOf args < sizeOf (Expr.call fn args)) hsz)).2.1
            args le_rfl hargs (')' :: rest) (f+1) (Tok.rparen :: ts) rfl h0
        have h2 : lexAux (g1+1)
            ('(' :: ((String.intercalate ", " ss).data ++ (')' :: rest))) =
            some (Tok.lparen :: (toksArgs args ++ (Tok.rparen :: ts))) := by
          rw [lex_lparen, hg1]
          rfl
        have h3 : lexAux (g1+1+1)
            (fn.data ++ ('(' :: ((String.intercalate ", " ss).data ++ (')' :: rest)))) =
            some (Tok.name fn :: (Tok.lparen :: (toksArgs args ++ (Tok.rparen :: ts)))) := by
          rw [lex_name_run (g1+1) fn
            ('(' :: ((String.intercalate ", " ss).data ++ (')' :: rest))) hfn rfl, h2]
          rfl
        refine ⟨fn ++ "(" ++ String.intercalate ", " ss ++ ")", ?_, g1+1+1, ?_⟩
        · simp [parseChunk, hps, Bind.bind, Except.bind]
          rfl
        · have hdata : (fn ++ "(" ++ String.intercalate ", " ss ++ ")").data ++ rest =
              fn.data ++ ('(' :: ((String.intercalate ", " ss).data ++ (')' :: rest))) := by
            simp [String.data_append, List.append_assoc]
          rw [hdata, h3]
          show some (Tok.name fn :: (Tok.lparen :: (toksArgs args ++ (Tok.rparen :: ts)))) =
            some (toksOf (Expr.call fn args) ++ ts)
          simp [toksOf, List.append_assoc]
      | boolOp w vs =>
        have hargs : wfArgs vs = true := wfE_boolOp_args w vs hwf
        have h0 : lexAux (f+1) (')' :: rest) = some (Tok.rparen :: ts) := by
          rw [lex_rparen, hrest]
          rfl
        obtain ⟨ss, hps, hlen, g1, hg1⟩ :=
          (ih (sizeOf vs) (lt_of_lt_of_le
            (by simp only [Expr.boolOp.sizeOf_spec]; omega :
              sizeOf vs < sizeOf (Expr.boolOp w vs)) hsz)).2.2.1
            vs le_rfl hargs w (')' :: rest) (f+1) (Tok.rparen :: ts) rfl h0
        refine ⟨"(" ++ String.intercalate (" " ++ w.sym ++ " ") ss ++ ")", ?_, g1+1, ?_⟩
        · simp [parseChunk, hps, Bind.bind, Except.bind]
          rfl
        · have hdata :
              ("(" ++ String.intercalate (" " ++ w.sym ++ " ") ss ++ ")").data ++ rest =
              '(' :: ((String.intercalate (" " ++ w.sym ++ " ") ss).data ++ (')' :: rest)) := by
            simp [String.data_append, List.append_assoc]
          rw [hdata, lex_lparen, hg1]
          show some (Tok.lparen :: (toksBool w.sym vs ++ (Tok.rparen :: ts))) =
            some (toksOf (Expr.boolOp w vs) ++ ts)
          simp [toksOf, List.append_assoc]
      | compare l ops cs =>
        obtain ⟨hwl, hz⟩ := wfE_compare_parts l ops cs hwf
        have h0 : lexAux (f+1) (')' :: rest) = some (Tok.rparen :: ts) := by
          rw [lex_rparen, hrest]
          rfl
        obtain ⟨srest, hp4, hb4, g1, hg1⟩ :=
          (ih (sizeOf cs) (lt_of_lt_of_le
            (by simp only [Expr.compare.sizeOf_spec]; omega :
              sizeOf cs < sizeOf (Expr.compare l ops cs)) hsz)).2.2.2
            ops cs le_rfl hz (')' :: rest) (f+1) (Tok.rparen :: ts) rfl h0
        obtain ⟨sl, hpl, g2, hg2⟩ :=
          (ih (sizeOf l) (lt_of_lt_of_le
            (by simp only [Expr.compare.sizeOf_spec]; omega :
              sizeOf l < sizeOf (Expr.compare l ops cs)) hsz)).1
            l le_rfl hwl (srest.data ++ (')' :: rest)) g1
            (toksCmp ops cs ++ (Tok.rparen :: ts)) hb4 hg1
        refine ⟨"(" ++ sl ++ srest ++ ")", ?_, g2+1, ?_⟩
        · simp [parseChunk, hpl, hp4, Bind.bind, Except.bind]
          rfl
        · have hdata : ("(" ++ sl ++ srest ++ ")").data ++ rest =
              '(' :: (sl.data ++ (srest.data ++ (')' :: rest))) := by
            simp [String.data_append, List.append_assoc]
          rw [hdata, lex_lparen, hg2]
          show some (Tok.lparen :: (toksOf l ++ (toksCmp ops cs ++ (Tok.rparen :: ts)))) =
            some (toksOf (Expr.compare l ops cs) ++ ts)
          simp [toksOf, List.append_assoc]
      | unsupported a b => exact Bool.noConfusion hwf
    · intro es hsz hwf rest f ts hbnd hrest
      cases es with
      | nil =>
        refine ⟨[], rfl, rfl, f, ?_⟩
        show lexAux f (("" : String).data ++ rest) = some (toksArgs [] ++ ts)
        simpa [toksArgs] using hrest
      | cons e es2 =>
        have hwf2 : (wfE e && wfArgs es2) = true := hwf
        obtain ⟨hwe, hwes⟩ := Bool.and_eq_true_iff.mp hwf2
        cases es2 with
        | nil =>
          obtain ⟨s, hp, g1, hg1⟩ :=
            (ih (sizeOf e) (lt_of_lt_of_le (sizeOf_expr_head e []) hsz)).1
              e le_rfl hwe rest f ts hbnd hrest
          refine ⟨[s], ?_, rfl, g1, ?_⟩
          · simp [parseArgs, hp, Bind.bind, Except.bind]
            rfl
          · rw [inter_single]
            have htk : toksArgs [e] = toksOf e := by simp [toksArgs, argsTailToks]
            rw [htk]
            exact hg1
        | cons e2 es3 =>
          obtain ⟨ss1, hp1, hlen1, g1, hg1⟩ :=
            (ih (sizeOf (e2 :: es3))
              (lt_of_lt_of_le (sizeOf_expr_tail e (e2 :: es3)) hsz)).2.1
              (e2 :: es3) le_rfl hwes rest f ts hbnd hrest
          cases ss1 with
          | nil => exact absurd hlen1 (by simp)
          | cons s2 ss2 =>
            have hA : lexAux (g1+1)
                (' ' :: ((String.intercalate ", " (s2 :: ss2)).data ++ rest)) =
                some (toksArgs (e2 :: es3) ++ ts) := by
              rw [lex_space]
              exact hg1
            have hB : lexAux (g1+1+1)
                (',' :: (' ' :: ((String.intercalate ", " (s2 :: ss2)).data ++ rest))) =
                some (Tok.comma :: (toksArgs (e2 :: es3) ++ ts)) := by
              rw [lex_comma, hA]
              rfl
            obtain ⟨s, hp, g2, hg2⟩ :=
              (ih (sizeOf e) (lt_of_lt_of_le (sizeOf_expr_head e (e2 :: es3)) hsz)).1
                e le_rfl hwe
                (',' :: (' ' :: ((String.intercalate ", " (s2 :: ss2)).data ++ rest)))
                (g1+1+1) (Tok.comma :: (toksArgs (e2 :: es3) ++ ts)) rfl hB
            refine ⟨s :: s2 :: ss2, ?_, ?_, g2, ?_⟩
            · rw [parseArgs, hp, hp1]
              rfl
            · simp only [List.length_cons] at hlen1 ⊢
              omega
            · have hdata : (String.intercalate ", " (s :: s2 :: ss2)).data ++ rest =
                  s.data ++
                    (',' :: (' ' :: ((String.intercalate ", " (s2 :: ss2)).data ++ rest))) := by
                rw [intercalate_cons, joinTail_cons_eq]
                simp [String.data_append, List.append_assoc]
              rw [hdata, hg2]
              show some (toksOf e ++ (Tok.comma :: (toksArgs (e2 :: es3) ++ ts))) =
                some (toksArgs (e :: e2 :: es3) ++ ts)
              simp [toksArgs, argsTailToks, List.append_assoc]
    · intro vs hsz hwf w rest f ts hbnd hrest
      cases vs with
      | nil =>
        refine ⟨[], rfl, rfl, f, ?_⟩
        show lexAux f (("" : String).data ++ rest) = some (toksBool w.sym [] ++ ts)
        simpa [toksBool] using hrest
      | cons v vs2 =>
        have hwf2 : (wfE v && wfArgs vs2) = true := hwf
        obtain ⟨hwv, hwvs⟩ := Bool.and_eq_true_iff.mp hwf2
        cases vs2 with
        | nil =>
          obtain ⟨s, hp, g1, hg1⟩ :=
            (ih (sizeOf v) (lt_of_lt_of_le (sizeOf_expr_head v []) hsz)).1
              v le_rfl hwv rest f ts hbnd hrest
          refine ⟨[s], ?_, rfl, g1, ?_⟩
          · simp [parseArgs, hp, Bind.bind, Except.bind]
            rfl
          · rw [inter_single]
            have htk : toksBool w.sym [v] = toksOf v := by simp [toksBool, boolTailToks]
            rw [htk]
            exact hg1
        | cons v2 vs3 =>
          obtain ⟨ss1, hp1, hlen1, g1, hg1⟩ :=
            (ih (sizeOf (v2 :: vs3))
              (lt_of_lt_of_le (sizeOf_expr_tail v (v2 :: vs3)) hsz)).2.2.1
              (v2 :: vs3) le_rfl hwvs w rest f ts hbnd hrest
          cases ss1 with
          | nil => exact absurd hlen1 (by simp)
          | cons s2 ss2 =>
            have hB : lexAux (g1+3)
                ((" " ++ w.sym ++ " ").data ++
                  ((String.intercalate (" " ++ w.sym ++ " ") (s2 :: ss2)).data ++ rest)) =
                some (Tok.op w.sym :: (toksBool w.sym (v2 :: vs3) ++ ts)) := by
              rw [lex_boolsep, hg1]
              rfl
            obtain ⟨s, hp, g2, hg2⟩ :=
              (ih (sizeOf v) (lt_of_lt_of_le (sizeOf_expr_head v (v2 :: vs3)) hsz)).1
                v le_rfl hwv
                ((" " ++ w.sym ++ " ").data ++
                  ((String.intercalate (" " ++ w.sym ++ " ") (s2 :: ss2)).data ++ rest))
                (g1+3) (Tok.op w.sym :: (toksBool w.sym (v2 :: vs3) ++ ts))
                (bnd_boolsep w _) hB
            refine ⟨s :: s2 :: ss2, ?_, ?_, g2, ?_⟩
            · rw [parseArgs, hp, hp1]
              rfl
            · simp only [List.length_cons] at hlen1 ⊢
              omega
            · have hdata :
                  (String.intercalate (" " ++ w.sym ++ " ") (s :: s2 :: ss2)).data ++ rest =
                  s.data ++
                    ((" " ++ w.sym ++ " ").data ++
                      ((String.intercalate (" " ++ w.sym ++ " ") (s2 :: ss2)).data ++ rest)) := by
                rw [intercalate_cons, joinTail_cons_eq]
                simp [String.data_append, List.append_assoc]
              rw [hdata, hg2]
              show some (toksOf v ++ (Tok.op w.sym :: (toksBool w.sym (v2 :: vs3) ++ ts))) =
                some (toksBool w.sym (v :: v2 :: vs3) ++ ts)
              simp [toksBool, boolTailToks, List.append_assoc]
    · intro ops cs hsz hwf rest f ts hbnd hrest
      cases ops with
      | nil =>
        cases cs with
        | nil =>
          refine ⟨"", rfl, ?_, f, ?_⟩
          · show bnd (("" : String).data ++ rest) = true
            simpa using hbnd
          · show lexAux f (("" : String).data ++ rest) = some (toksCmp [] [] ++ ts)
            simpa [toksCmp] using hrest
        | cons c cs2 => exact Bool.noConfusion hwf
      | cons w ops2 =>
        cases cs with
        | nil => exact Bool.noConfusion hwf
        | cons c cs2 =>
          have hwf2 : ((cmpOk w && wfE c) && wfZip ops2 cs2) = true := hwf
          obtain ⟨h12, hz⟩ := Bool.and_eq_true_iff.mp hwf2
          obtain ⟨hcw, hwc⟩ := Bool.and_eq_true_iff.mp h12
          obtain ⟨srest, hp4, hb4, g1, hg1⟩ :=
            (ih (sizeOf cs2) (lt_of_lt_of_le (sizeOf_expr_tail c cs2) hsz)).2.2.2
              ops2 cs2 le_rfl hz rest f ts hbnd hrest
          obtain ⟨sc, hpc, g2, hg2⟩ :=
            (ih (sizeOf c) (lt_of_lt_of_le (sizeOf_expr_head c cs2) hsz)).1
              c le_rfl hwc (srest.data ++ rest) g1 (toksCmp ops2 cs2 ++ ts) hb4 hg1
          have hA : lexAux (g2+1) (' ' :: (sc.data ++ (srest.data ++ rest))) =
              some (toksOf c ++ (toksCmp ops2 cs2 ++ ts)) := by
            rw [lex_space]
            exact hg2
          have hB : lexAux (g2+1+1)
              (w.sym.data ++ (' ' :: (sc.data ++ (srest.data ++ rest)))) =
              some (Tok.op w.sym :: (toksOf c ++ (toksCmp ops2 cs2 ++ ts))) := by
            rw [lex_cmp_sym (g2+1) w _ hcw, hA]
            rfl
          have hC : lexAux (g2+1+1+1)
              (' ' :: (w.sym.data ++ (' ' :: (sc.data ++ (srest.data ++ rest))))) =
              some (Tok.op w.sym :: (toksOf c ++ (toksCmp ops2 cs2 ++ ts))) := by
            rw [lex_space]
            exact hB
          have hdata : (" " ++ w.sym ++ " " ++ sc ++ srest).data ++ rest =
              ' ' :: (w.sym.data ++ (' ' :: (sc.data ++ (srest.data ++ rest)))) := by
            simp [String.data_append, List.append_assoc]
          refine ⟨" " ++ w.sym ++ " " ++ sc ++ srest, ?_, ?_, g2+1+1+1, ?_⟩
          · simp [parseCompareAux, hpc, hp4, Bind.bind, Except.bind]
            rfl
          · rw [hdata]
            rfl
          · rw [hdata, hC]
            show some (Tok.op w.sym :: (toksOf c ++ (toksCmp ops2 cs2 ++ ts))) =
              some (toksCmp (w :: ops2) (c :: cs2) ++ ts)
            simp [toksCmp, List.append_assoc]

/-- Tokens that may open an expression. -/
def startT : Tok → Bool
  | .num _ => true
  | .str _ => true
  | .name _ => true
  | .lparen => true
  | _ => false

/-- Tokens that may directly follow a complete expression. -/
def sepT : Tok → Bool
  | .comma => true
  | .rparen => true
  | .op _ => true
  | _ => false

/-- Token suffixes that may follow a complete expression. -/
def restT : List Tok → Bool
  | [] => true
  | t :: _ => sepT t

theorem toksOf_start (e : Expr) (hwf : wfE e = true) :
    ∃ t ts2, toksOf e = t :: ts2 ∧ startT t = true := by
  cases e with
  | binOp l w r => exact ⟨_, _, rfl, rfl⟩
  | num v => exact ⟨_, _, rfl, rfl⟩
  | name x => exact ⟨_, _, rfl, rfl⟩
  | str v => exact ⟨_, _, rfl, rfl⟩
  | call fn args => exact ⟨_, _, rfl, rfl⟩
  | boolOp w vs => exact ⟨_, _, rfl, rfl⟩
  | compare l ops cs => exact ⟨_, _, rfl, rfl⟩
  | unsupported a b => exact Bool.noConfusion hwf

theorem argsTail_restT (l : List Expr) (X : List Tok) :
    restT (argsTailToks l ++ (Tok.rparen :: X)) = true := by
  cases l <;> rfl

theorem boolTail_restT (w : String) (l : List Expr) (X : List Tok) :
    restT (boolTailToks w l ++ (Tok.rparen :: X)) = true := by
  cases l <;> rfl

theorem cmpToks_restT (ops : List CmpOp) (cs : List Expr) (X : List Tok) :
    restT (toksCmp ops cs ++ (Tok.rparen :: X)) = true := by
  cases ops with
  | nil => cases cs <;> rfl
  | cons w ops2 =>
    cases cs with
    | nil => rfl
    | cons c cs2 => rfl

theorem parseE_num (g : Nat) (m : Nat) (r : List Tok) :
    parseE (g+1) (Tok.num m :: r) = some (.num (Int.ofNat m), r) := rfl

theorem parseE_str (g : Nat) (v : String) (r : List Tok) :
    parseE (g+1) (Tok.str v :: r) = some (.str v, r) := rfl

theorem parseE_name_nil (g : Nat) (x : String) :
    parseE (g+1) [Tok.name x] = some (.name x, []) := rfl

theorem parseE_name_cons (g : Nat) (x : String) (t : Tok) (r : List Tok)
    (ht : sepT t = true) :
    parseE (g+1) (Tok.name x :: t :: r) = some (.name x, t :: r) := by
  cases t
  · exact Bool.noConfusion ht
  · rfl
  · rfl
  · rfl
  · exact Bool.noConfusion ht
  · exact Bool.noConfusion ht
  · exact Bool.noConfusion ht

theorem parseE_call (g : Nat) (x : String) (r : List Tok) :
    parseE (g+1) (Tok.name x :: Tok.lparen :: r) =
      (parseCallArgs g r).bind fun p => some (.call x p.1, p.2) := rfl

theorem parseE_lparen (g : Nat) (r : List Tok) :
    parseE (g+1) (Tok.lparen :: r) =
      ((parseE g r).bind fun p =>
      (match p.2 with
       | .op o :: r2 =>
         if o = "and" then
           (parseBoolChain g "and" p.2).bind fun q =>
             some (.boolOp .band (p.1 :: q.1), q.2)
         else if o = "or" then
           (parseBoolChain g "or" p.2).bind fun q =>
             some (.boolOp .bor (p.1 :: q.1), q.2)
         else
           match cmpOfSym o with
           | some _ =>
             (parseCmpChain g p.2).bind fun q =>
               some (.compare p.1 q.1 q.2.1, q.2.2)
           | none =>
             match binOpOfSym o with
             | some w =>
               (parseE g r2).bind fun q =>
               (match q.2 with
                | .rparen :: r3 => some (.binOp p.1 w q.1, r3)
                | _ => none)
             | none => none
       | _ => none)) := rfl

theorem parseCallArgs_rparen (g : Nat) (r : List Tok) :
    parseCallArgs (g+1) (Tok.rparen :: r) = some ([], r) := rfl

theorem parseCallArgs_start (g : Nat) (t : Tok) (ht : startT t = true) (ts : List Tok) :
    parseCallArgs (g+1) (t :: ts) =
      (parseE g (t :: ts)).bind fun p =>
      (parseArgsTail g p.2).bind fun q => some (p.1 :: q.1, q.2) := by
  cases t
  · rfl
  · exact Bool.noConfusion ht
  · exact Bool.noConfusion ht
  · exact Bool.noConfusion ht
  · rfl
  · rfl
  · rfl

theorem parseArgsTail_rparen (g : Nat) (r : List Tok) :
    parseArgsTail (g+1) (Tok.rparen :: r) = some ([], r) := rfl

theorem parseArgsTail_comma (g : Nat) (ts : List Tok) :
    parseArgsTail (g+1) (Tok.comma :: ts) =
      (parseE g ts).bind fun p =>
      (parseArgsTail g p.2).bind fun q => some (p.1 :: q.1, q.2) := rfl

theorem parseBoolChain_rparen (g : Nat) (w : String) (r : List Tok) :
    parseBoolChain (g+1) w (Tok.rparen :: r) = some ([], r) := rfl

theorem parseBoolChain_op (g : Nat) (w o : String) (ts : List Tok) :
    parseBoolChain (g+1) w (Tok.op o :: ts) =
      (if o = w then
        (parseE g ts).bind fun p =>
        (parseBoolChain g w p.2).bind fun q => some (p.1 :: q.1, q.2)
      else none) := rfl

theorem parseCmpChain_rparen (g : Nat) (r : List Tok) :
    parseCmpChain (g+1) (Tok.rparen :: r) = some ([], [], r) := rfl

theorem parseCmpChain_op (g : Nat) (o : String) (ts : List Tok) :
    parseCmpChain (g+1) (Tok.op o :: ts) =
      (match cmpOfSym o with
       | some w =>
         (parseE g ts).bind fun p =>
         (parseCmpChain g p.2).bind fun q => some (w :: q.1, p.1 :: q.2.1, q.2.2)
       | none => none) := rfl

theorem binOpOfSym_sym (w : BinOp) : binOpOfSym w.sym = some w := by
  cases w <;> rfl

theorem binOp_cmpOfSym (w : BinOp) : cmpOfSym w.sym = none := by
  cases w <;> rfl

theorem binOp_sym_ne_and (w : BinOp) : ¬(w.sym = "and") := by
  cases w <;> decide

theorem binOp_sym_ne_or (w : BinOp) : ¬(w.sym = "or") := by
  cases w <;> decide

theorem cmpOfSym_sym (w : CmpOp) (hw : cmpOk w = true) : cmpOfSym w.sym = some w := by
  cases w
  · rfl
  · rfl
  · exact Bool.noConfusion hw
  · rfl

theorem cmp_sym_ne_and (w : CmpOp) : ¬(w.sym = "and") := by
  cases w <;> decide

theorem cmp_sym_ne_or (w : CmpOp) : ¬(w.sym = "or") := by
  cases w <;> decide

theorem toksOf_len_pos (e : Expr) (hwf : wfE e = true) : 1 ≤ (toksOf e).length := by
  obtain ⟨t, ts2, h, _⟩ := toksOf_start e hwf
  rw [h]
  simp

theorem wfE_compare_shape (l : Expr) (ops : List CmpOp) (cs : List Expr)
    (h : wfE (Expr.compare l ops cs) = true) : ∃ w1 ops2, ops = w1 :: ops2 := by
  cases ops with
  | nil =>
    have h2 : ((wfE l && false) && wfZip ([] : List CmpOp) cs) = true := h
    simp at h2
  | cons a b => exact ⟨a, b, rfl⟩

/-- Parsing the token stream of a well-formed formatted expression,
followed by any separator-headed suffix, returns exactly the original
expression and the suffix.  Stated together with the three chain
continuations. -/
theorem parse_toks (n : Nat) :
    (∀ e, sizeOf e ≤ n → wfE e = true → ∀ rest, restT rest = true →
      ∀ g, (toksOf e).length ≤ g → parseE g (toksOf e ++ rest) = some (e, rest)) ∧
    (∀ es, sizeOf es ≤ n → wfArgs es = true → ∀ rest g,
      (argsTailToks es).length + 1 ≤ g →
      parseArgsTail g (argsTailToks es ++ (Tok.rparen :: rest)) = some (es, rest)) ∧
    (∀ vs, sizeOf vs ≤ n → wfArgs vs = true → ∀ (w : String) rest g,
      (boolTailToks w vs).length + 1 ≤ g →
      parseBoolChain g w (boolTailToks w vs ++ (Tok.rparen :: rest)) = some (vs, rest)) ∧
    (∀ ops cs, sizeOf cs ≤ n → wfZip ops cs = true → ∀ rest g,
      (toksCmp ops cs).length + 1 ≤ g →
      parseCmpChain g (toksCmp ops cs ++ (Tok.rparen :: rest)) = some (ops, cs, rest)) := by
  induction n using Nat.strong_induction_on with
  | _ n ih =>
    refine ⟨?_, ?_, ?_, ?_⟩
    · intro e hsz hwf rest hrt g hg
      obtain ⟨g2, rfl⟩ : ∃ g2, g = g2 + 1 := by
        have := toksOf_len_pos e hwf
        exact ⟨g - 1, by omega⟩
      cases e with
      | num v =>
        cases v with
        | negSucc m => exact Bool.noConfusion hwf
        | ofNat m => exact parseE_num g2 m rest
      | name x =>
        cases rest with
        | nil => exact parseE_name_nil g2 x
        | cons t r => exact parseE_name_cons g2 x t r hrt
      | str v => exact parseE_str g2 v rest
      | binOp l w r =>
        have hwf2 : (wfE l && wfE r) = true := hwf
        obtain ⟨hwl, hwr⟩ := Bool.and_eq_true_iff.mp hwf2
        have hlen : (toksOf l).length ≤ g2 ∧ (toksOf r).length ≤ g2 := by
          have h := hg
          simp [toksOf] at h
          omega
        have h2 : parseE g2 (toksOf r ++ (Tok.rparen :: rest)) =
            some (r, Tok.rparen :: rest) :=
          (ih (sizeOf r) (lt_of_lt_of_le
            (by simp only [Expr.binOp.sizeOf_spec]; omega :
              sizeOf r < sizeOf (Expr.binOp l w r)) hsz)).1
            r le_rfl hwr (Tok.rparen :: rest) rfl g2 hlen.2
        have h1 : parseE g2 (toksOf l ++ (Tok.op w.sym :: (toksOf r ++ (Tok.rparen :: rest)))) =
            some (l, Tok.op w.sym :: (toksOf r ++ (Tok.rparen :: rest))) :=
          (ih (sizeOf l) (lt_of_lt_of_le
            (by simp only [Expr.binOp.sizeOf_spec]; omega :
              sizeOf l < sizeOf (Expr.binOp l w r)) hsz)).1
            l le_rfl hwl (Tok.op w.sym :: (toksOf r ++ (Tok.rparen :: rest))) rfl g2 hlen.1
        have heq : toksOf (Expr.binOp l w r) ++ rest =
            Tok.lparen :: (toksOf l ++ (Tok.op w.sym :: (toksOf r ++ (Tok.rparen :: rest)))) := by
          simp [toksOf, List.append_assoc]
        rw [heq, parseE_lparen, h1, Option.some_bind]
        dsimp only
        rw [if_neg (binOp_sym_ne_and w), if_neg (binOp_sym_ne_or w), binOp_cmpOfSym w]
        dsimp only
        rw [binOpOfSym_sym w]
        dsimp only
        rw [h2, Option.some_bind]
      | call fn args =>
        have hwf2 : (identOk fn && wfArgs args) = true := hwf
        have hargs := (Bool.and_eq_true_iff.mp hwf2).2
        have heq : toksOf (Expr.call fn args) ++ rest =
            Tok.name fn :: (Tok.lparen :: (toksArgs args ++ (Tok.rparen :: rest))) := by
          simp [toksOf, List.append_assoc]
        have hca : parseCallArgs g2 (toksArgs args ++ (Tok.rparen :: rest)) =
            some (args, rest) := by
          obtain ⟨g3, rfl⟩ : ∃ g3, g2 = g3 + 1 := by
            have h := hg
            simp [toksOf] at h
            exact ⟨g2 - 1, by omega⟩
          cases args with
          | nil => exact parseCallArgs_rparen g3 rest
          | cons e1 args2 =>
            have hwf3 : (wfE e1 && wfArgs args2) = true := hargs
            obtain ⟨hwe1, hwa2⟩ := Bool.and_eq_true_iff.mp hwf3
            obtain ⟨t, ts2, hts, hst⟩ := toksOf_start e1 hwe1
            have hexp : toksArgs (e1 :: args2) ++ (Tok.rparen :: rest) =
                t :: (ts2 ++ (argsTailToks args2 ++ (Tok.rparen :: rest))) := by
              simp [toksArgs, hts, List.append_assoc]
            have hexp2 : t :: (ts2 ++ (argsTailToks args2 ++ (Tok.rparen :: rest))) =
                toksOf e1 ++ (argsTailToks args2 ++ (Tok.rparen :: rest)) := by
              rw [hts]
              rfl
            have hlen2 : (toksOf e1).length ≤ g3 ∧ (argsTailToks args2).length + 1 ≤ g3 := by
              have h := hg
              simp [toksOf, toksArgs] at h
              omega
            have he1 : parseE g3 (toksOf e1 ++ (argsTailToks args2 ++ (Tok.rparen :: rest))) =
                some (e1, argsTailToks args2 ++ (Tok.rparen :: rest)) :=
              (ih (sizeOf e1) (lt_of_lt_of_le
                (by simp only [Expr.call.sizeOf_spec, List.cons.sizeOf_spec]; omega :
                  sizeOf e1 < sizeOf (Expr.call fn (e1 :: args2))) hsz)).1
                e1 le_rfl hwe1 (argsTailToks args2 ++ (Tok.rparen :: rest))
                (argsTail_restT args2 rest) g3 hlen2.1
            have ha2 : parseArgsTail g3 (argsTailToks args2 ++ (Tok.rparen :: rest)) =
                some (args2, rest) :=
              (ih (sizeOf args2) (lt_of_lt_of_le
                (by simp only [Expr.call.sizeOf_spec, List.cons.sizeOf_spec]; omega :
                  sizeOf args2 < sizeOf (Expr.call fn (e1 :: args2))) hsz)).2.1
                args2 le_rfl hwa2 rest g3 hlen2.2
            rw [hexp, parseCallArgs_start g3 t hst, hexp2, he1, Option.some_bind]
            dsimp only
            rw [ha2, Option.some_bind]
        rw [heq, parseE_call, hca, Option.some_bind]
      | boolOp w vs =>
        obtain ⟨v1, v2, vs3, rfl⟩ := wfE_boolOp_shape w vs hwf
        have hargs := wfE_boolOp_args w _ hwf
        have hwf3 : (wfE v1 && wfArgs (v2 :: vs3)) = true := hargs
        obtain ⟨hwv1, hwvs⟩ := Bool.and_eq_true_iff.mp hwf3
        have hlen2 : (toksOf v1).length ≤ g2 ∧
            (boolTailToks w.sym (v2 :: vs3)).length + 1 ≤ g2 := by
          have h := hg
          simp [toksOf, toksBool] at h
          omega
        have h1 : parseE g2
            (toksOf v1 ++ (boolTailToks w.sym (v2 :: vs3) ++ (Tok.rparen :: rest))) =
            some (v1, boolTailToks w.sym (v2 :: vs3) ++ (Tok.rparen :: rest)) :=
          (ih (sizeOf v1) (lt_of_lt_of_le
            (by simp only [Expr.boolOp.sizeOf_spec, List.cons.sizeOf_spec]; omega :
              sizeOf v1 < sizeOf (Expr.boolOp w (v1 :: v2 :: vs3))) hsz)).1
            v1 le_rfl hwv1 (boolTailToks w.sym (v2 :: vs3) ++ (Tok.rparen :: rest))
            (boolTail_restT w.sym (v2 :: vs3) rest) g2 hlen2.1
        have hch : parseBoolChain g2 w.sym
            (boolTailToks w.sym (v2 :: vs3) ++ (Tok.rparen :: rest)) =
            some (v2 :: vs3, rest) :=
          (ih (sizeOf (v2 :: vs3)) (lt_of_lt_of_le
            (by simp only [Expr.boolOp.sizeOf_spec, List.cons.sizeOf_spec]; omega :
              sizeOf (v2 :: vs3) < sizeOf (Expr.boolOp w (v1 :: v2 :: vs3))) hsz)).2.2.1
            (v2 :: vs3) le_rfl hwvs w.sym rest g2 hlen2.2
        have heq : toksOf (Expr.boolOp w (v1 :: v2 :: vs3)) ++ rest =
            Tok.lparen ::
              (toksOf v1 ++ (boolTailToks w.sym (v2 :: vs3) ++ (Tok.rparen :: rest))) := by
          simp [toksOf, toksBool, List.append_assoc]
        have hexp : boolTailToks w.sym (v2 :: vs3) ++ (Tok.rparen :: rest) =
            Tok.op w.sym ::
              ((toksOf v2 ++ boolTailToks w.sym vs3) ++ (Tok.rparen :: rest)) := by
          simp [boolTailToks, List.append_assoc]
        rw [heq, parseE_lparen, h1, Option.some_bind, hexp]
        dsimp only
        cases w with
        | band =>
          rw [if_pos (show BoolOp.band.sym = "and" from rfl)]
          have hchX : parseBoolChain g2 "and"
              (boolTailToks BoolOp.band.sym (v2 :: vs3) ++ (Tok.rparen :: rest)) =
              some (v2 :: vs3, rest) := hch
          rw [← hexp, hchX, Option.some_bind]
        | bor =>
          rw [if_neg (show ¬(BoolOp.bor.sym = "and") from by decide),
            if_pos (show BoolOp.bor.sym = "or" from rfl)]
          have hchX : parseBoolChain g2 "or"
              (boolTailToks BoolOp.bor.sym (v2 :: vs3) ++ (Tok.rparen :: rest)) =
              some (v2 :: vs3, rest) := hch
          rw [← hexp, hchX, Option.some_bind]
      | compare l ops cs =>
        obtain ⟨hwl, hz⟩ := wfE_compare_parts l ops cs hwf
        obtain ⟨w1, ops2, rfl⟩ := wfE_compare_shape l ops cs hwf
        cases cs with
        | nil => exact Bool.noConfusion hz
        | cons c1 cs2 =>
          have hz2 : ((cmpOk w1 && wfE c1) && wfZip ops2 cs2) = true := hz
          obtain ⟨h12, hz3⟩ := Bool.and_eq_true_iff.mp hz2
          obtain ⟨hcw, hwc⟩ := Bool.and_eq_true_iff.mp h12
          have hlen2 : (toksOf l).length ≤ g2 ∧
              (toksCmp (w1 :: ops2) (c1 :: cs2)).length + 1 ≤ g2 := by
            have h := hg
            simp [toksOf] at h
            omega
          have h1 : parseE g2
              (toksOf l ++ (toksCmp (w1 :: ops2) (c1 :: cs2) ++ (Tok.rparen :: rest))) =
              some (l, toksCmp (w1 :: ops2) (c1 :: cs2) ++ (Tok.rparen :: rest)) :=
            (ih (sizeOf l) (lt_of_lt_of_le
              (by simp only [Expr.compare.sizeOf_spec]; omega :
                sizeOf l < sizeOf (Expr.compare l (w1 :: ops2) (c1 :: cs2))) hsz)).1
              l le_rfl hwl (toksCmp (w1 :: ops2) (c1 :: cs2) ++ (Tok.rparen :: rest))
              (cmpToks_restT (w1 :: ops2) (c1 :: cs2) rest) g2 hlen2.1
          have hch : parseCmpChain g2
              (toksCmp (w1 :: ops2) (c1 :: cs2) ++ (Tok.rparen :: rest)) =
              some (w1 :: ops2, c1 :: cs2, rest) :=
            (ih (sizeOf (c1 :: cs2)) (lt_of_lt_of_le
              (by simp only [Expr.compare.sizeOf_spec]; omega :
                sizeOf (c1 :: cs2) < sizeOf (Expr.compare l (w1 :: ops2) (c1 :: cs2))) hsz)).2.2.2
              (w1 :: ops2) (c1 :: cs2) le_rfl hz rest g2 hlen2.2
          have heq : toksOf (Expr.compare l (w1 :: ops2) (c1 :: cs2)) ++ rest =
              Tok.lparen ::
                (toksOf l ++ (toksCmp (w1 :: ops2) (c1 :: cs2) ++ (Tok.rparen :: rest))) := by
            simp [toksOf, List.append_assoc]
          have hexp : toksCmp (w1 :: ops2) (c1 :: cs2) ++ (Tok.rparen :: rest) =
              Tok.op w1.sym ::
                ((toksOf c1 ++ toksCmp ops2 cs2) ++ (Tok.rparen :: rest)) := by
            simp [toksCmp, List.append_assoc]
          rw [heq, parseE_lparen, h1, Option.some_bind, hexp]
          dsimp only
          rw [if_neg (cmp_sym_ne_and w1), if_neg (cmp_sym_ne_or w1), cmpOfSym_sym w1 hcw]
          dsimp only
          rw [← hexp, hch, Option.some_bind]
      | unsupported a b => exact Bool.noConfusion hwf
    · intro es hsz hwf rest g hg
      cases es with
      | nil =>
        obtain ⟨g3, rfl⟩ : ∃ g3, g = g3 + 1 := ⟨g - 1, by omega⟩
        exact parseArgsTail_rparen g3 rest
      | cons e1 es2 =>
        obtain ⟨g3, rfl⟩ : ∃ g3, g = g3 + 1 := ⟨g - 1, by omega⟩
        have hwf2 : (wfE e1 && wfArgs es2) = true := hwf
        obtain ⟨hwe1, hwa2⟩ := Bool.and_eq_true_iff.mp hwf2
        have hlen2 : (toksOf e1).length ≤ g3 ∧ (argsTailToks es2).length + 1 ≤ g3 := by
          have h := hg
          simp [argsTailToks] at h
          omega
        have he1 : parseE g3 (toksOf e1 ++ (argsTailToks es2 ++ (Tok.rparen :: rest))) =
            some (e1, argsTailToks es2 ++ (Tok.rparen :: rest)) :=
          (ih (sizeOf e1) (lt_of_lt_of_le (sizeOf_expr_head e1 es2) hsz)).1
            e1 le_rfl hwe1 (argsTailToks es2 ++ (Tok.rparen :: rest))
            (argsTail_restT es2 rest) g3 hlen2.1
        have ha2 : parseArgsTail g3 (argsTailToks es2 ++ (Tok.rparen :: rest)) =
            some (es2, rest) :=
          (ih (sizeOf es2) (lt_of_lt_of_le (sizeOf_expr_tail e1 es2) hsz)).2.1
            es2 le_rfl hwa2 rest g3 hlen2.2
        have heq : argsTailToks (e1 :: es2) ++ (Tok.rparen :: rest) =
            Tok.comma :: (toksOf e1 ++ (argsTailToks es2 ++ (Tok.rparen :: rest))) := by
          simp [argsTailToks, List.append_assoc]
        rw [heq, parseArgsTail_comma, he1, Option.some_bind]
        dsimp only
        rw [ha2, Option.some_bind]
    · intro vs hsz hwf w rest g hg
      cases vs with
      | nil =>
        obtain ⟨g3, rfl⟩ : ∃ g3, g = g3 + 1 := ⟨g - 1, by omega⟩
        exact parseBoolChain_rparen g3 w rest
      | cons v1 vs2 =>
        obtain ⟨g3, rfl⟩ : ∃ g3, g = g3 + 1 := ⟨g - 1, by omega⟩
        have hwf2 : (wfE v1 && wfArgs vs2) = true := hwf
        obtain ⟨hwv1, hwa2⟩ := Bool.and_eq_true_iff.mp hwf2
        have hlen2 : (toksOf v1).length ≤ g3 ∧ (boolTailToks w vs2).length + 1 ≤ g3 := by
          have h := hg
          simp [boolTailToks] at h
          omega
        have hv1 : parseE g3 (toksOf v1 ++ (boolTailToks w vs2 ++ (Tok.rparen :: rest))) =
            some (v1, boolTailToks w vs2 ++ (Tok.rparen :: rest)) :=
          (ih (sizeOf v1) (lt_of_lt_of_le (sizeOf_expr_head v1 vs2) hsz)).1
            v1 le_rfl hwv1 (boolTailToks w vs2 ++ (Tok.rparen :: rest))
            (boolTail_restT w vs2 rest) g3 hlen2.1
        have ha2 : parseBoolChain g3 w (boolTailToks w vs2 ++ (Tok.rparen :: rest)) =
            some (vs2, rest) :=
          (ih (sizeOf vs2) (lt_of_lt_of_le (sizeOf_expr_tail v1 vs2) hsz)).2.2.1
            vs2 le_rfl hwa2 w rest g3 hlen2.2
        have heq : boolTailToks w (v1 :: vs2) ++ (Tok.rparen :: rest) =
            Tok.op w :: (toksOf v1 ++ (boolTailToks w vs2 ++ (Tok.rparen :: rest))) := by
          simp [boolTailToks, List.append_assoc]
        rw [heq, parseBoolChain_op, if_pos rfl, hv1, Option.some_bind]
        dsimp only
        rw [ha2, Option.some_bind]
    · intro ops cs hsz hwf rest g hg
      cases ops with
      | nil =>
        cases cs with
        | nil =>
          obtain ⟨g3, rfl⟩ : ∃ g3, g = g3 + 1 := ⟨g - 1, by omega⟩
          exact parseCmpChain_rparen g3 rest
        | cons c1 cs2 => exact Bool.noConfusion hwf
      | cons w1 ops2 =>
        cases cs with
        | nil => exact Bool.noConfusion hwf
        | cons c1 cs2 =>
          obtain ⟨g3, rfl⟩ : ∃ g3, g = g3 + 1 := ⟨g - 1, by omega⟩
          have hwf2 : ((cmpOk w1 && wfE c1) && wfZip ops2 cs2) = true := hwf
          obtain ⟨h12, hz3⟩ := Bool.and_eq_true_iff.mp hwf2
          obtain ⟨hcw, hwc⟩ := Bool.and_eq_true_iff.mp h12
          have hlen2 : (toksOf c1).length ≤ g3 ∧ (toksCmp ops2 cs2).length + 1 ≤ g3 := by
            have h := hg
            simp [toksCmp] at h
            omega
          have hc1 : parseE g3 (toksOf c1 ++ (toksCmp ops2 cs2 ++ (Tok.rparen :: rest))) =
              some (c1, toksCmp ops2 cs2 ++ (Tok.rparen :: rest)) :=
            (ih (sizeOf c1) (lt_of_lt_of_le (sizeOf_expr_head c1 cs2) hsz)).1
              c1 le_rfl hwc (toksCmp ops2 cs2 ++ (Tok.rparen :: rest))
              (cmpToks_restT ops2 cs2 rest) g3 hlen2.1
          have ha2 : parseCmpChain g3 (toksCmp ops2 cs2 ++ (Tok.rparen :: rest)) =
              some (ops2, cs2, rest) :=
            (ih (sizeOf cs2) (lt_of_lt_of_le (sizeOf_expr_tail c1 cs2) hsz)).2.2.2
              ops2 cs2 le_rfl hz3 rest g3 hlen2.2
          have heq : toksCmp (w1 :: ops2) (c1 :: cs2) ++ (Tok.rparen :: rest) =
              Tok.op w1.sym :: (toksOf c1 ++ (toksCmp ops2 cs2 ++ (Tok.rparen :: rest))) := by
            simp [toksCmp, List.append_assoc]
          rw [heq, parseCmpChain_op, cmpOfSym_sym w1 hcw]
          dsimp only
          rw [hc1, Option.some_bind]
          dsimp only
          rw [ha2, Option.some_bind]

/-- C9 (amended): for every well-formed expression of the supported
kinds — literals, names, calls, binary operations, boolean chains of two
or more operands, and comparison chains whose operators avoid `Eq` —
formatting succeeds, the formatted string lexes, and re-parsing the
token stream yields an expression (in fact the same one) whose formatted
display form is the identical string.  `Eq` is excluded because it
formats as `=`, which re-parsing rejects (see the counterexample). -/
theorem c9_roundtrip (e : Expr) (hwf : wfE e = true) :
    ∃ s ts g e2, parseChunk e = .ok s ∧ lex s = some ts ∧
      parseE g ts = some (e2, []) ∧ e2 = e ∧ parseChunk e2 = .ok s := by
  obtain ⟨s, hp, g, hlex⟩ := (fmt_lex (sizeOf e)).1 e le_rfl hwf [] 0 [] rfl (lexAux_nil 0)
  rw [List.append_nil, List.append_nil] at hlex
  have hlex2 : lex s = some (toksOf e) :=
    lexAux_fuel g s.data (toksOf e) hlex s.data.length le_rfl
  have hparse := (parse_toks (sizeOf e)).1 e le_rfl hwf [] rfl ((toksOf e).length) le_rfl
  rw [List.append_nil] at hparse
  exact ⟨s, toksOf e, (toksOf e).length, e, hp, hlex2, hparse, rfl, hp⟩

theorem c9_roundtrip_witness :
    wfE (Expr.call "f" [.binOp (.num 1) .add (.num 2),
      .boolOp .band [.name "a", .name "b"],
      .compare (.name "x") [.gt] [.num 3], .str "hi"]) = true ∧
    (∃ s ts g e2,
      parseChunk (Expr.call "f" [.binOp (.num 1) .add (.num 2),
        .boolOp .band [.name "a", .name "b"],
        .compare (.name "x") [.gt] [.num 3], .str "hi"]) = .ok s ∧
      lex s = some ts ∧ parseE g ts = some (e2, []) ∧
      e2 = Expr.call "f" [.binOp (.num 1) .add (.num 2),
        .boolOp .band [.name "a", .name "b"],
        .compare (.name "x") [.gt] [.num 3], .str "hi"] ∧
      parseChunk e2 = .ok s) :=
  ⟨rfl, c9_roundtrip _ rfl⟩

/-- C9 counterexample: the `operators` table maps `ast.Eq` to `=`, so an
equality comparison formats as `(x = y)`; a bare `=` is not an operator
of Python's expression grammar (its equality operator is `==`), so
re-parsing the formatted output fails — the round trip does not hold for
every expression of the comparison kind. -/
theorem c9_eq_not_roundtrip :
    parseChunk (.compare (.name "x") [.eq] [.name "y"]) = .ok "(x = y)" ∧
    lex "(x = y)" = none :=
  ⟨rfl, rfl⟩

end Flowchart
